import Mathlib

/-!
Verification development for the `imds` in-memory key-value store.

The Python sources are shallowly embedded:

* `src/store/sorted_set.py` – `SkipList`, `SortedSet` (skip list with span
  counters).  Pointer structure is represented positionally: the level-0
  order of the nodes is the list `nodes`; position `0` is the header node
  and position `j+1` is `nodes[j]`.  The source maintains exactly the
  discipline "`forward[i]` of a node is the next node in level-0 order
  whose level is ≥ `i`", so forward pointers are recovered by `fwdPos`.
  Span counters are stored per node, exactly as in the source.  Scores
  (Python floats) are modelled as rationals; the header's `-inf` score is
  replaced by the header being a distinguished position.  The level drawn
  by `random_level` is passed to `insert` as an explicit argument.
* `src/store/lru_cache.py` – the intrusive doubly linked list is modelled
  as the sequence of its entries from head to tail.
* `src/store/unified_store.py` – `UnifiedStore`; Python's `KeyError`
  (raised by `del dict[k]` on a missing key) is modelled with `Except`.
* `src/server.py` – frame parsing and command routing.  Python's
  `float(s)` conversion and `f"{score}"` formatting are abstracted as
  explicit function arguments; the append-only log is I/O and no claim
  concerns it, so `aof.append` is omitted.
-/

namespace IMDS

/-- Scores: Python floats modelled as rationals (total dense order). -/
abbrev Score := ℚ

/-- Python's `<` on strings: lexicographic comparison of code points,
with a proper prefix comparing less. -/
def charsLt : List Char → List Char → Bool
  | _, [] => false
  | [], _ :: _ => true
  | a :: as, b :: bs =>
    if a.toNat < b.toNat then true
    else if b.toNat < a.toNat then false
    else charsLt as bs

/-- `m1 < m2` on member strings. -/
def strLtb (m1 m2 : String) : Bool := charsLt m1.data m2.data

/-- `m1 <= m2` on member strings. -/
def strLeb (m1 m2 : String) : Bool := strLtb m1 m2 || m1 == m2

/-- The strict comparison used by `insert`/`remove` walks:
`forward.score < score or (forward.score == score and forward.member < member)`. -/
def keyLtb (s1 : Score) (m1 : String) (s2 : Score) (m2 : String) : Bool :=
  decide (s1 < s2) || (decide (s1 = s2) && strLtb m1 m2)

/-- The comparison used by the `get_rank` walk (`<=` on the member). -/
def keyLeb (s1 : Score) (m1 : String) (s2 : Score) (m2 : String) : Bool :=
  decide (s1 < s2) || (decide (s1 = s2) && strLeb m1 m2)

/-- A skip-list node (`SkipListNode` in `sorted_set.py`): score, member,
level, and a span value for each of the levels `0..lvl`. -/
structure SLNode where
  score : Score
  member : String
  lvl : Nat
  span : List Int
  deriving DecidableEq

/-- `SkipList` state: current highest level, element count, the header
node's span array (`self.header.span`, size `max_level + 1 = 33`), and the
nodes in level-0 order. -/
structure SkipList where
  level : Nat
  length : Nat
  headerSpan : List Int
  nodes : List SLNode
  deriving DecidableEq

/-- `MaxLevel` parameter of the skip list. -/
def maxLevel : Nat := 32

/-- `SkipList.__init__`: empty list, level 0, all header spans 0. -/
def SkipList.empty : SkipList :=
  ⟨0, 0, List.replicate (maxLevel + 1) 0, []⟩

/-- Offset (into a node-list suffix) of the first node with level ≥ `i`. -/
def fwdSearch (i : Nat) : List SLNode → Option Nat
  | [] => none
  | n :: rest => if i ≤ n.lvl then some 0 else (fwdSearch i rest).map (· + 1)

/-- The implicit `forward[i]` pointer of position `p` (0 = header,
`j+1` = node `j`): position of the next node at level `i`, if any. -/
def fwdPos (ns : List SLNode) (i : Nat) (p : Nat) : Option Nat :=
  (fwdSearch i (ns.drop p)).map (· + p + 1)

/-- The node sitting at position `p` (none for the header position 0). -/
def SkipList.nodeAtPos (sl : SkipList) (p : Nat) : Option SLNode :=
  if p = 0 then none else sl.nodes[p-1]?

/-- Reading `current.span[i]` at position `p` (header span for `p = 0`). -/
def SkipList.spanAt (sl : SkipList) (i : Nat) (p : Nat) : Int :=
  if p = 0 then sl.headerSpan.getD i 0
  else (match sl.nodes[p-1]? with
        | some n => n.span.getD i 0
        | none => 0)

/-- Writing `span[i] := v` at position `p`. -/
def SkipList.setSpanAt (sl : SkipList) (p i : Nat) (v : Int) : SkipList :=
  if p = 0 then { sl with headerSpan := sl.headerSpan.set i v }
  else { sl with nodes :=
          match sl.nodes[p-1]? with
          | some n => sl.nodes.set (p-1) { n with span := n.span.set i v }
          | none => sl.nodes }

/-- One level of the top-down walk: starting at position `p` with rank
accumulator `rank`, repeat `rank += current.span[i]; current =
current.forward[i]` while the next node satisfies `cond`.  Fueled so that
the kernel can evaluate it; fuel `nodes.length + 1` always suffices. -/
def walkF (sl : SkipList) (cond : SLNode → Bool) (i : Nat) :
    Nat → Nat → Int → Nat × Int
  | 0, p, rank => (p, rank)
  | fuel+1, p, rank =>
    match fwdPos sl.nodes i p with
    | none => (p, rank)
    | some q =>
      match sl.nodeAtPos q with
      | none => (p, rank)
      | some n =>
        if cond n then walkF sl cond i fuel q (rank + sl.spanAt i p)
        else (p, rank)

/-- The level-`i` while loop of the walks in `insert`/`remove`/`get_rank`. -/
def SkipList.walkLevel (sl : SkipList) (cond : SLNode → Bool) (i p : Nat)
    (rank : Int) : Nat × Int :=
  walkF sl cond i (sl.nodes.length + 1) p rank

/-- The `for i in range(self.level, -1, -1)` walk, collecting
`(update[i], rank[i])` for `i` from the argument level down to 0 (so the
returned list is indexed by descending level). -/
def walkDown (sl : SkipList) (cond : SLNode → Bool) :
    Nat → Nat → Int → List (Nat × Int)
  | 0, p, rank => [sl.walkLevel cond 0 p rank]
  | i+1, p, rank =>
    let pr := sl.walkLevel cond (i+1) p rank
    pr :: walkDown sl cond i pr.1 pr.2

/-- All `(update[i], rank[i])` pairs, starting from the header with rank 0. -/
def SkipList.updates (sl : SkipList) (cond : SLNode → Bool) : List (Nat × Int) :=
  walkDown sl cond sl.level 0 0

/-- `(update[i], rank[i])` for a level `i ≤ sl.level`. -/
def SkipList.updAt (sl : SkipList) (us : List (Nat × Int)) (i : Nat) : Nat × Int :=
  us.getD (sl.level - i) (0, 0)

/-- `SkipList.insert(score, member)`, with the level drawn by
`random_level` passed as `lvl`.  Follows the source line by line: walk,
exposure of new levels (header span `length + 1`), splice with the span
bookkeeping, `+1` on the levels above the new node, length increment. -/
def SkipList.insert (sl : SkipList) (sc : Score) (mem : String) (lvl : Nat) :
    SkipList :=
  let us := sl.updates (fun n => keyLtb n.score n.member sc mem)
  -- update[i] / rank[i]; for i > self.level the `lvl > self.level` branch
  -- sets update[i] = header and rank[i] = 0
  let upd : Nat → Nat := fun i => if i ≤ sl.level then (sl.updAt us i).1 else 0
  let rnk : Nat → Int := fun i => if i ≤ sl.level then (sl.updAt us i).2 else 0
  -- header span initialisation at newly exposed levels
  let sl1 := if sl.level < lvl then
      (List.range' (sl.level+1) (lvl - sl.level)).foldl
        (fun s i => s.setSpanAt 0 i ((sl.length : Int) + 1)) sl
    else sl
  let newLevel := max sl.level lvl
  let rank0 := rnk 0
  -- new_node.span[i] = update[i].span[i] - (rank[0] - rank[i])
  let newSpans : List Int :=
    (List.range (lvl+1)).map (fun i => sl1.spanAt i (upd i) - (rank0 - rnk i))
  let newNode : SLNode := ⟨sc, mem, lvl, newSpans⟩
  -- update[i].span[i] = (rank[0] - rank[i]) + 1
  let sl2 := (List.range (lvl+1)).foldl
    (fun s i => s.setSpanAt (upd i) i ((rank0 - rnk i) + 1)) sl1
  -- for i in range(lvl+1, self.level+1): update[i].span[i] += 1
  let sl3 := (List.range' (lvl+1) (newLevel - lvl)).foldl
    (fun s i => s.setSpanAt (upd i) i (s.spanAt i (upd i) + 1)) sl2
  -- splice: the new node goes immediately after position update[0]
  { sl3 with nodes := sl3.nodes.insertIdx (upd 0) newNode,
             level := newLevel,
             length := sl.length + 1 }

/-- Level shrinking after a removal:
`while self.level > 0 and self.header.forward[self.level] is None`. -/
def shrinkLevel (ns : List SLNode) : Nat → Nat
  | 0 => 0
  | l+1 => if fwdSearch (l+1) ns = none then shrinkLevel ns l else l+1

/-- `SkipList.remove(score, member)`.  Returns the new state and the
boolean result. -/
def SkipList.remove (sl : SkipList) (sc : Score) (mem : String) :
    SkipList × Bool :=
  let us := sl.updates (fun n => keyLtb n.score n.member sc mem)
  let upd : Nat → Nat := fun i => (sl.updAt us i).1
  -- current = update[0].forward[0]
  let c := upd 0
  match sl.nodes[c]? with
  | none => (sl, false)
  | some cur =>
    if cur.score = sc ∧ cur.member = mem then
      -- span loop: absorb the removed node's span where it is linked,
      -- otherwise just decrement
      let sl2 := (List.range (sl.level+1)).foldl
        (fun s i =>
          if fwdPos sl.nodes i (upd i) = some (c + 1) then
            s.setSpanAt (upd i) i (s.spanAt i (upd i) + cur.span.getD i 0 - 1)
          else
            s.setSpanAt (upd i) i (s.spanAt i (upd i) - 1)) sl
      let ns' := sl2.nodes.eraseIdx c
      ({ sl2 with nodes := ns',
                  level := shrinkLevel ns' sl.level,
                  length := sl.length - 1 }, true)
    else (sl, false)

/-- `SkipList.range_query(start_score, end_score)`: level-0 traversal,
skip while `score < start`, collect while `score <= end`. -/
def SkipList.range_query (sl : SkipList) (lo hi : Score) :
    List (Score × String) :=
  ((sl.nodes.dropWhile (fun n => decide (n.score < lo))).takeWhile
      (fun n => decide (n.score ≤ hi))).map (fun n => (n.score, n.member))

/-- `SkipList.get_rank(score, member)`: walk with `<=` on the member, then
return `rank - 1` if the node reached is exactly the target.  The header
(position 0, score `-inf`) never equals a real score. -/
def SkipList.get_rank (sl : SkipList) (sc : Score) (mem : String) :
    Option Int :=
  let us := sl.updates (fun n => keyLeb n.score n.member sc mem)
  let pr := sl.updAt us 0
  match sl.nodeAtPos pr.1 with
  | some n => if n.score = sc ∧ n.member = mem then some (pr.2 - 1) else none
  | none => none

/-! ## Python dictionaries

Python `dict`s (member→score, the two key maps of the unified store) are
modelled as association lists in insertion order with unique keys:
assignment overwrites the first binding in place or appends a new one at
the end, `del` removes the first binding. -/

/-- `d[k] = v`. -/
def dictSet {α : Type} : List (String × α) → String → α → List (String × α)
  | [], k, v => [(k, v)]
  | (k', v') :: rest, k, v =>
    if k' = k then (k', v) :: rest else (k', v') :: dictSet rest k v

/-- `del d[k]` (with the key present; callers guard membership). -/
def dictDel {α : Type} : List (String × α) → String → List (String × α)
  | [], _ => []
  | (k', v') :: rest, k => if k' = k then rest else (k', v') :: dictDel rest k

/-! ## `SortedSet` (`sorted_set.py`) -/

/-- `SortedSet`: a skip list plus the member→score dictionary.  The `key`
field is the `LRUNode` key inherited from the cache base class. -/
structure SortedSet where
  key : String
  skiplist : SkipList
  members : List (String × Score)
  deriving DecidableEq

/-- `SortedSet.__init__(key)`. -/
def SortedSet.mkEmpty (key : String) : SortedSet :=
  ⟨key, SkipList.empty, []⟩

/-- `SortedSet.zadd(score, member)`; `lvl` is the level `random_level`
draws for the `insert` call.  Returns the updated set and `"OK"`. -/
def SortedSet.zadd (ss : SortedSet) (sc : Score) (mem : String) (lvl : Nat) :
    SortedSet × String :=
  let ss1 :=
    match ss.members.lookup mem with
    | some old => { ss with skiplist := (ss.skiplist.remove old mem).1 }
    | none => ss
  let ss2 := { ss1 with skiplist := ss1.skiplist.insert sc mem lvl }
  ({ ss2 with members := dictSet ss2.members mem sc }, "OK")

/-- `SortedSet.zrange(start_score, end_score)`. -/
def SortedSet.zrange (ss : SortedSet) (lo hi : Score) : List (Score × String) :=
  ss.skiplist.range_query lo hi

/-- `SortedSet.zrank(member)`. -/
def SortedSet.zrank (ss : SortedSet) (mem : String) : Option Int :=
  match ss.members.lookup mem with
  | none => none
  | some sc => ss.skiplist.get_rank sc mem

/-- `SortedSet.zrem(member)`: `none` when the member is absent, otherwise
the boolean result of `skiplist.remove` with the member deleted from the
dictionary. -/
def SortedSet.zrem (ss : SortedSet) (mem : String) : SortedSet × Option Bool :=
  match ss.members.lookup mem with
  | none => (ss, none)
  | some sc =>
    let r := ss.skiplist.remove sc mem
    ({ ss with skiplist := r.1, members := dictDel ss.members mem }, some r.2)

/-! ## LRU list (`lru_cache.py`) and `UnifiedStore` (`unified_store.py`)

The doubly linked list with sentinels is modelled as the sequence of its
entries from head to tail (front = most recently used).  An entry is the
key of the owning map together with a tag saying which map owns it
(`LRUNode` for values, the `SortedSet` object itself for sets).  The model
is exact while every node is in the list at most once and `remove` is
applied to present nodes, which holds on all states the claims use. -/

inductive LEntry where
  | val (key : String)
  | zset (key : String)
  deriving DecidableEq

/-- The key stored on an LRU node (`lru_node.key`). -/
def LEntry.key : LEntry → String
  | .val k => k
  | .zset k => k

/-- `DoublyLinkedList.add_to_front`. -/
def dllAddToFront (l : List LEntry) (e : LEntry) : List LEntry := e :: l

/-- `DoublyLinkedList.remove` (splice out). -/
def dllRemove (l : List LEntry) (e : LEntry) : List LEntry := l.erase e

/-- `DoublyLinkedList.move_to_front` = remove then add_to_front. -/
def dllMoveToFront (l : List LEntry) (e : LEntry) : List LEntry :=
  dllAddToFront (dllRemove l e) e

/-- `DoublyLinkedList.pop_tail`: detach and return `tail.prev` unless the
list is empty. -/
def dllPopTail (l : List LEntry) : Option (LEntry × List LEntry) :=
  match l.getLast? with
  | none => none
  | some e => some (e, l.dropLast)

/-- Python's `KeyError`, raised by `del d[k]` when `k` is not in `d`. -/
inductive PyErr where
  | keyError
  deriving DecidableEq

instance {ε α : Type} [DecidableEq ε] [DecidableEq α] :
    DecidableEq (Except ε α) := fun a b =>
  match a, b with
  | .error e, .error e' =>
    if h : e = e' then .isTrue (by rw [h]) else .isFalse (by simp [h])
  | .ok v, .ok v' =>
    if h : v = v' then .isTrue (by rw [h]) else .isFalse (by simp [h])
  | .error _, .ok _ => .isFalse (by simp)
  | .ok _, .error _ => .isFalse (by simp)

/-- `UnifiedStore`: capacity, the point-query map (`hash_table`, values
only — the `LRUNode` linkage lives in `lru_list`), the sorted-set map, and
the shared LRU order. -/
structure UnifiedStore where
  capacity : Nat
  hash_table : List (String × String)
  sorted_sets : List (String × SortedSet)
  lru_list : List LEntry
  deriving DecidableEq

def UnifiedStore.mkEmpty (capacity : Nat) : UnifiedStore :=
  ⟨capacity, [], [], []⟩

/-- `UnifiedStore.set(key, value)`.  On a miss at capacity the source pops
the LRU tail and executes `del self.hash_table[lru_node.key]`, which
raises `KeyError` whenever that key is not in the hash table (in
particular when the tail is a sorted-set entry). -/
def UnifiedStore.set (st : UnifiedStore) (key value : String) :
    Except PyErr UnifiedStore :=
  if (st.hash_table.lookup key).isSome then
    Except.ok { st with hash_table := dictSet st.hash_table key value,
                        lru_list := dllMoveToFront st.lru_list (.val key) }
  else
    let evicted : Except PyErr (List (String × String) × List LEntry) :=
      if st.capacity ≤ st.hash_table.length then
        match dllPopTail st.lru_list with
        | some (e, l') =>
          if (st.hash_table.lookup e.key).isSome then
            Except.ok (dictDel st.hash_table e.key, l')
          else Except.error .keyError
        | none => Except.ok (st.hash_table, st.lru_list)
      else Except.ok (st.hash_table, st.lru_list)
    match evicted with
    | .error e => .error e
    | .ok (ht, lru) =>
      Except.ok { st with hash_table := dictSet ht key value,
                          lru_list := dllAddToFront lru (.val key) }

/-- `UnifiedStore.get(key)`. -/
def UnifiedStore.get (st : UnifiedStore) (key : String) :
    Option String × UnifiedStore :=
  match st.hash_table.lookup key with
  | some v => (some v, { st with lru_list := dllMoveToFront st.lru_list (.val key) })
  | none => (none, st)

/-- `UnifiedStore.delete(key)`. -/
def UnifiedStore.delete (st : UnifiedStore) (key : String) : UnifiedStore :=
  if (st.hash_table.lookup key).isSome then
    { st with hash_table := dictDel st.hash_table key,
              lru_list := dllRemove st.lru_list (.val key) }
  else st

/-- `UnifiedStore.process_zadd(key, score, member)`: create the set on a
miss (no capacity check) or touch it on a hit, then delegate to `zadd`. -/
def UnifiedStore.process_zadd (st : UnifiedStore) (key : String) (sc : Score)
    (mem : String) (lvl : Nat) : UnifiedStore × String :=
  match st.sorted_sets.lookup key with
  | none =>
    let ss := SortedSet.mkEmpty key
    let r := ss.zadd sc mem lvl
    ({ st with sorted_sets := dictSet st.sorted_sets key r.1,
               lru_list := dllAddToFront st.lru_list (.zset key) }, r.2)
  | some ss =>
    let r := ss.zadd sc mem lvl
    ({ st with sorted_sets := dictSet st.sorted_sets key r.1,
               lru_list := dllMoveToFront st.lru_list (.zset key) }, r.2)

/-- `UnifiedStore.process_zrange`. -/
def UnifiedStore.process_zrange (st : UnifiedStore) (key : String)
    (lo hi : Score) : UnifiedStore × List (Score × String) :=
  match st.sorted_sets.lookup key with
  | some ss => ({ st with lru_list := dllMoveToFront st.lru_list (.zset key) },
                ss.zrange lo hi)
  | none => (st, [])

/-- `UnifiedStore.process_zrank`. -/
def UnifiedStore.process_zrank (st : UnifiedStore) (key mem : String) :
    UnifiedStore × Option Int :=
  match st.sorted_sets.lookup key with
  | some ss => ({ st with lru_list := dllMoveToFront st.lru_list (.zset key) },
                ss.zrank mem)
  | none => (st, none)

/-- `UnifiedStore.process_zrem(key, member)`: on a sorted-set hit, run
`zrem` and then unconditionally `lru_list.remove(sorted_set)` — the whole
set is unlinked from the LRU even when the member was absent. -/
def UnifiedStore.process_zrem (st : UnifiedStore) (key mem : String) :
    UnifiedStore × Option Bool :=
  match st.sorted_sets.lookup key with
  | some ss =>
    let r := ss.zrem mem
    ({ st with sorted_sets := dictSet st.sorted_sets key r.1,
               lru_list := dllRemove st.lru_list (.zset key) }, r.2)
  | none => (st, none)

/-! ## Server (`server.py`)

Bytes are `Nat`s in `0..255` (the parser never relies on an upper bound,
matching Python `bytes` which guarantees it).  `float(s)` and `f"{score}"`
are passed in as `parseScore`/`fmtScore`; `str(rank)` is `intStr`;
`.lower()`/`.encode('utf-8')` are given executable models below.  The
`aof.append` calls are file I/O and are omitted (no claim concerns the
log). -/

/-- ASCII lowering of one character (Python `str.lower` restricted to the
ASCII command names the router compares against). -/
def lowerChar (c : Char) : Char :=
  if 65 ≤ c.toNat ∧ c.toNat ≤ 90 then Char.ofNat (c.toNat + 32) else c

/-- `s.lower()`. -/
def strLower (s : String) : String := ⟨s.data.map lowerChar⟩

/-- Decimal digits of a natural number (fueled; `fuel = n + 1` suffices). -/
def natStrAux : Nat → Nat → List Char
  | 0, _ => []
  | fuel+1, n =>
    if n < 10 then [Char.ofNat (48 + n)]
    else natStrAux fuel (n / 10) ++ [Char.ofNat (48 + n % 10)]

/-- Python `str(n)` for integers (ranks). -/
def intStr (i : Int) : String :=
  if i < 0 then "-" ++ ⟨natStrAux (i.natAbs + 1) i.natAbs⟩
  else ⟨natStrAux (i.natAbs + 1) i.natAbs⟩

/-- Response status codes (`RES_OK`, `RES_NX`, `RES_ERR`). -/
def RES_OK : Nat := 0
def RES_NX : Nat := 1
def RES_ERR : Nat := 2

/-- `MAX_MSG` (maximum payload per recv) and `MAX_ARGS`. -/
def MAX_MSG : Nat := 4096
def MAX_ARGS : Nat := 1024

/-- `process_kv_command(args)`: the command router.  Mutates the store;
the `KeyError` that `set` can raise propagates.  `parseScore` models
Python `float(...)` (`none` = `ValueError`), `fmtScore` models
`f"{score}"`. -/
def process_kv_command (parseScore : String → Option Score)
    (fmtScore : Score → String) (lvl : Nat) (st : UnifiedStore)
    (args : List String) : Except PyErr ((Nat × String) × UnifiedStore) :=
  match args with
  | [] => .ok ((RES_ERR, "Unknown command"), st)
  | a0 :: _ =>
    let cmd := strLower a0
    if cmd = "get" then
      match args with
      | [_, k] =>
        let r := st.get k
        let val := match r.1 with | none => "(nil)" | some v => v
        if val = "(nil)" then .ok ((RES_NX, ""), r.2)
        else .ok ((RES_OK, val), r.2)
      | _ => .ok ((RES_ERR, "ERR wrong number of arguments"), st)
    else if cmd = "set" then
      match args with
      | [_, k, v] =>
        match st.set k v with
        | .error e => .error e
        | .ok st' => .ok ((RES_OK, "OK"), st')
      | _ => .ok ((RES_ERR, "ERR wrong number of arguments"), st)
    else if cmd = "del" then
      match args with
      | [_, k] =>
        let r := st.get k
        match r.1 with
        | some _ => .ok ((RES_OK, "OK"), r.2.delete k)
        | none => .ok ((RES_NX, ""), r.2)
      | _ => .ok ((RES_ERR, "ERR wrong number of arguments"), st)
    else if cmd = "zadd" then
      match args with
      | [_, k, s, m] =>
        match parseScore s with
        | none => .ok ((RES_ERR, "ERR score must be a number"), st)
        | some sc =>
          let r := st.process_zadd k sc m lvl
          .ok ((RES_OK, "OK"), r.1)
      | _ => .ok ((RES_ERR, "ERR wrong number of arguments"), st)
    else if cmd = "zrange" then
      match args with
      | [_, k, lo, hi] =>
        match parseScore lo, parseScore hi with
        | some a, some b =>
          let r := st.process_zrange k a b
          if r.2 = [] then .ok ((RES_NX, ""), r.1)
          else
            let formatted := r.2.map (fun p => fmtScore p.1 ++ ":" ++ p.2)
            .ok ((RES_OK, String.intercalate "," formatted), r.1)
        | _, _ => .ok ((RES_ERR, "ERR score must be a number"), st)
      | _ => .ok ((RES_ERR, "ERR wrong number of arguments"), st)
    else if cmd = "zrank" then
      match args with
      | [_, k, m] =>
        let r := st.process_zrank k m
        match r.2 with
        | none => .ok ((RES_NX, ""), r.1)
        | some v => .ok ((RES_OK, intStr v), r.1)
      | _ => .ok ((RES_ERR, "ERR wrong number of arguments"), st)
    else if cmd = "zrem" then
      match args with
      | [_, k, m] =>
        let r := st.process_zrem k m
        match r.2 with
        | none => .ok ((RES_NX, ""), r.1)
        | some _ => .ok ((RES_OK, "OK"), r.1)
      | _ => .ok ((RES_ERR, "ERR wrong number of arguments"), st)
    else .ok ((RES_ERR, "ERR unknown command"), st)

/-! ### Frame parsing -/

/-- Big-endian unsigned 32-bit read of the first four bytes
(`struct.unpack('!I', ...)`); callers check the length first. -/
def readU32 : List Nat → Nat
  | b0 :: b1 :: b2 :: b3 :: _ => ((b0 * 256 + b1) * 256 + b2) * 256 + b3
  | _ => 0

/-- Big-endian unsigned 32-bit encode (`struct.pack('!I', n)`). -/
def be32 (n : Nat) : List Nat :=
  [n / 2^24 % 256, n / 2^16 % 256, n / 2^8 % 256, n % 256]

/-- Is `b` a UTF-8 continuation byte? -/
def isCont (b : Nat) : Bool := 128 ≤ b && b < 192

/-- One strict UTF-8 decoding step: given a lead byte and the remaining
bytes, return the decoded code point and the bytes after its sequence, as
Python's `bytes.decode('utf-8')`: rejects stray continuation bytes,
overlong encodings, surrogates and values above `U+10FFFF`. -/
def utf8Step (b : Nat) (rest : List Nat) : Option (Nat × List Nat) :=
  if b < 128 then some (b, rest)
  else if b < 194 then none
  else if b < 224 then
    match rest with
    | c1 :: rest2 =>
      if isCont c1 then some ((b - 192) * 64 + (c1 - 128), rest2)
      else none
    | [] => none
  else if b < 240 then
    match rest with
    | c1 :: c2 :: rest2 =>
      if isCont c1 && isCont c2 && !(b == 224 && c1 < 160)
          && !(b == 237 && 160 ≤ c1) then
        some (((b - 224) * 64 + (c1 - 128)) * 64 + (c2 - 128), rest2)
      else none
    | _ => none
  else if b < 245 then
    match rest with
    | c1 :: c2 :: c3 :: rest2 =>
      if isCont c1 && isCont c2 && isCont c3 && !(b == 240 && c1 < 144)
          && !(b == 244 && 144 ≤ c1) then
        some ((((b - 240) * 64 + (c1 - 128)) * 64 + (c2 - 128)) * 64
          + (c3 - 128), rest2)
      else none
    | _ => none
  else none

/-- Fueled strict UTF-8 decoding loop; each step consumes at least one
byte, so fuel equal to the byte count always suffices. -/
def utf8DecodeF : Nat → List Nat → Option (List Nat)
  | _, [] => some []
  | 0, _ :: _ => none
  | fuel+1, b :: rest =>
    match utf8Step b rest with
    | none => none
    | some (cp, rest2) => (utf8DecodeF fuel rest2).map (cp :: ·)

/-- Strict UTF-8 decoding to code points (`bytes.decode('utf-8')`). -/
def utf8Decode (bs : List Nat) : Option (List Nat) :=
  utf8DecodeF bs.length bs

/-- `bytes.decode('utf-8')` producing a string. -/
def utf8DecodeStr (bs : List Nat) : Option String :=
  (utf8Decode bs).map (fun cps => ⟨cps.map Char.ofNat⟩)

/-- UTF-8 encoding of one code point. -/
def utf8EncodeChar (c : Nat) : List Nat :=
  if c < 128 then [c]
  else if c < 2048 then [192 + c / 64, 128 + c % 64]
  else if c < 65536 then
    [224 + c / 4096, 128 + c / 64 % 64, 128 + c % 64]
  else
    [240 + c / 262144, 128 + c / 4096 % 64, 128 + c / 64 % 64, 128 + c % 64]

/-- `s.encode('utf-8')`. -/
def utf8Encode (s : String) : List Nat :=
  s.data.foldr (fun ch acc => utf8EncodeChar ch.toNat ++ acc) []

/-- The `for _ in range(nstr)` loop of `parse_kv_request`: read
`count` length-prefixed UTF-8 arguments starting at `pos`. -/
def parseArgsLoop : Nat → List Nat → Nat → List String →
    Option (List String × Nat)
  | 0, _, pos, acc => some (acc.reverse, pos)
  | count+1, buf, pos, acc =>
    if buf.length < pos + 4 then none
    else
      let argLen := readU32 (buf.drop pos)
      if buf.length < pos + 4 + argLen then none
      else
        match utf8DecodeStr ((buf.drop (pos + 4)).take argLen) with
        | none => none
        | some s => parseArgsLoop count buf (pos + 4 + argLen) (s :: acc)

/-- `parse_kv_request(buf)`: `none` models the `(None, 0)` return, which
the caller treats as "incomplete request".  Note that a too-large NArgs
and an argument that fails UTF-8 decoding also return `(None, 0)` — no
exception is raised — and that the per-argument length is never checked
against `MAX_MSG`. -/
def parse_kv_request (buf : List Nat) : Option (List String × Nat) :=
  if buf.length < 4 then none
  else
    let nstr := readU32 buf
    if MAX_ARGS < nstr then none
    else parseArgsLoop nstr buf 4 []

/-- Per-connection buffers (`Connection.__init__`). -/
structure ConnState where
  recvBuffer : List Nat
  sendBuffer : List Nat
  deriving DecidableEq

/-- The `while True` parse/dispatch loop of `Connection.process_read`.
Fueled; every successful parse consumes at least 4 bytes, so fuel
`buf.length + 1` always suffices. -/
def processLoop (parseScore : String → Option Score)
    (fmtScore : Score → String) (lvl : Nat) :
    Nat → List Nat → List Nat → UnifiedStore →
    Except PyErr (List Nat × List Nat × UnifiedStore)
  | 0, buf, send, st => .ok (buf, send, st)
  | fuel+1, buf, send, st =>
    match parse_kv_request buf with
    | none => .ok (buf, send, st)
    | some (args, consumed) =>
      match process_kv_command parseScore fmtScore lvl st args with
      | .error e => .error e
      | .ok (resp, st') =>
        let inner := be32 resp.1 ++ utf8Encode resp.2
        let full := be32 inner.length ++ inner
        processLoop parseScore fmtScore lvl fuel (buf.drop consumed)
          (send ++ full) st'

/-- `Connection.process_read`, given the bytes `data` returned by
`recv`.  Returns the new buffers, the new store, and the boolean the
method returns: `false` (close the connection) only when `recv` returned
no data; any received bytes — well-formed or not — leave the connection
open (`true`). -/
def Connection.process_read (conn : ConnState)
    (parseScore : String → Option Score) (fmtScore : Score → String)
    (lvl : Nat) (st : UnifiedStore) (data : List Nat) :
    Except PyErr (ConnState × UnifiedStore × Bool) :=
  if data = [] then .ok (conn, st, false)
  else
    let buf := conn.recvBuffer ++ data
    match processLoop parseScore fmtScore lvl (buf.length + 1) buf
        conn.sendBuffer st with
    | .error e => .error e
    | .ok (buf', send', st') => .ok (⟨buf', send'⟩, st', true)

/-! ## Basic facts about the key order -/

theorem charsLt_irrefl (l : List Char) : charsLt l l = false := by
  induction l with
  | nil => rfl
  | cons a as ih => simp [charsLt, ih]

theorem charsLt_trans : ∀ {a b c : List Char}, charsLt a b = true →
    charsLt b c = true → charsLt a c = true
  | _, [], _, hab, _ => by simp [charsLt] at hab
  | _, _ :: _, [], _, hbc => by simp [charsLt] at hbc
  | [], b :: bs, c :: cs, _, _ => by simp [charsLt]
  | a :: as, b :: bs, c :: cs, hab, hbc => by
    simp only [charsLt] at hab hbc ⊢
    by_cases h1 : a.toNat < b.toNat <;> by_cases h2 : b.toNat < c.toNat <;>
      simp only [h1, h2, if_true, if_false, if_pos, if_neg, not_false_iff] at hab hbc ⊢
    · simp [Nat.lt_trans h1 h2]
    · by_cases h3 : c.toNat < b.toNat
      · simp [h3] at hbc
      · have hbc' : b.toNat = c.toNat := by omega
        simp [hbc' ▸ h1]
    · by_cases h3 : b.toNat < a.toNat
      · simp [h3] at hab
      · have hab' : a.toNat = b.toNat := by omega
        simp [hab' ▸ h2]
    · by_cases h3 : b.toNat < a.toNat
      · simp [h3] at hab
      · by_cases h4 : c.toNat < b.toNat
        · simp [h4] at hbc
        · simp only [h3, if_neg, not_false_iff] at hab
          simp only [h4, if_neg, not_false_iff] at hbc
          have hac : ¬ a.toNat < c.toNat := by omega
          have hca : ¬ c.toNat < a.toNat := by omega
          simp only [hac, hca, if_neg, not_false_iff, if_false]
          exact charsLt_trans hab hbc

theorem charsLt_conn : ∀ {a b : List Char}, charsLt a b = false →
    charsLt b a = false → a = b
  | [], [], _, _ => rfl
  | [], _ :: _, hab, _ => by simp [charsLt] at hab
  | _ :: _, [], _, hba => by simp [charsLt] at hba
  | a :: as, b :: bs, hab, hba => by
    simp only [charsLt] at hab hba
    rcases Nat.lt_trichotomy a.toNat b.toNat with h1 | h1 | h1 <;>
      simp [h1, Nat.lt_asymm, Nat.lt_irrefl] at hab hba
    · have hc : a = b := Char.eq_of_val_eq (by
        apply UInt32.eq_of_val_eq; exact Fin.eq_of_val_eq h1)
      rw [hc, charsLt_conn hab hba]

theorem strLtb_irrefl (m : String) : strLtb m m = false := by
  simpa [strLtb] using charsLt_irrefl m.data

theorem strLtb_trans {a b c : String} (h1 : strLtb a b = true)
    (h2 : strLtb b c = true) : strLtb a c = true :=
  charsLt_trans h1 h2

theorem strLtb_conn {a b : String} (h1 : strLtb a b = false)
    (h2 : strLtb b a = false) : a = b := by
  cases a; cases b
  exact congrArg String.mk (charsLt_conn h1 h2)

theorem strLtb_asymm {a b : String} (h : strLtb a b = true) :
    strLtb b a = false := by
  by_contra hne
  have hba : strLtb b a = true := by
    cases hx : strLtb b a
    · exact absurd hx hne
    · rfl
  have := strLtb_trans h hba
  rw [strLtb_irrefl] at this
  exact Bool.false_ne_true this

theorem keyLtb_irrefl (s : Score) (m : String) : keyLtb s m s m = false := by
  simp [keyLtb, strLtb_irrefl]

theorem keyLtb_trans {s1 s2 s3 : Score} {m1 m2 m3 : String}
    (h1 : keyLtb s1 m1 s2 m2 = true) (h2 : keyLtb s2 m2 s3 m3 = true) :
    keyLtb s1 m1 s3 m3 = true := by
  simp only [keyLtb, Bool.or_eq_true, Bool.and_eq_true, decide_eq_true_eq]
    at h1 h2 ⊢
  rcases h1 with h1 | ⟨h1e, h1m⟩ <;> rcases h2 with h2 | ⟨h2e, h2m⟩
  · exact Or.inl (h1.trans h2)
  · exact Or.inl (h2e ▸ h1)
  · exact Or.inl (h1e ▸ h2)
  · exact Or.inr ⟨h1e.trans h2e, strLtb_trans h1m h2m⟩

theorem keyLtb_conn {s1 s2 : Score} {m1 m2 : String}
    (h1 : keyLtb s1 m1 s2 m2 = false) (h2 : keyLtb s2 m2 s1 m1 = false) :
    s1 = s2 ∧ m1 = m2 := by
  simp only [keyLtb, Bool.or_eq_false_iff, Bool.and_eq_false_iff,
    decide_eq_false_iff_not, not_lt] at h1 h2
  obtain ⟨h1s, h1r⟩ := h1
  obtain ⟨h2s, h2r⟩ := h2
  have hs : s1 = s2 := le_antisymm h2s h1s
  refine ⟨hs, ?_⟩
  rcases h1r with h | h
  · exact absurd hs (by simpa [decide_eq_false_iff_not] using h)
  · rcases h2r with h' | h'
    · exact absurd hs.symm (by simpa [decide_eq_false_iff_not] using h')
    · exact strLtb_conn h h'

theorem keyLtb_asymm {s1 s2 : Score} {m1 m2 : String}
    (h : keyLtb s1 m1 s2 m2 = true) : keyLtb s2 m2 s1 m1 = false := by
  cases hx : keyLtb s2 m2 s1 m1
  · rfl
  · have := keyLtb_trans h hx
    rw [keyLtb_irrefl] at this
    exact absurd this Bool.false_ne_true

/-- `keyLeb` is the negation of the reversed strict comparison. -/
theorem keyLeb_eq_not_keyLtb (s1 s2 : Score) (m1 m2 : String) :
    keyLeb s1 m1 s2 m2 = !keyLtb s2 m2 s1 m1 := by
  unfold keyLeb keyLtb strLeb
  rcases lt_trichotomy s1 s2 with h | h | h
  · rw [decide_eq_true h, decide_eq_false h.asymm, decide_eq_false h.ne']
    rfl
  · subst h
    rw [decide_eq_false (lt_irrefl s1), decide_eq_true (Eq.refl s1)]
    cases hx : strLtb m1 m2
    · cases hy : strLtb m2 m1
      · have he : m1 = m2 := strLtb_conn hx hy
        subst he
        simp
      · have hne : m1 ≠ m2 := by
          intro he; rw [he, strLtb_irrefl] at hy; exact Bool.false_ne_true hy
        simp [hy, beq_eq_false_iff_ne.mpr hne]
    · rw [strLtb_asymm hx]
      simp
  · rw [decide_eq_false h.asymm, decide_eq_true h, decide_eq_false h.ne']
    rfl

/-- The non-strict key order on nodes used for sortedness. -/
def keyLe (a b : SLNode) : Prop :=
  keyLtb a.score a.member b.score b.member = true ∨
    (a.score = b.score ∧ a.member = b.member)

instance (a b : SLNode) : Decidable (keyLe a b) := by
  unfold keyLe; infer_instance

theorem keyLe_ltb_trans {a b : SLNode} {sc : Score} {mem : String}
    (h1 : keyLe a b) (h2 : keyLtb b.score b.member sc mem = true) :
    keyLtb a.score a.member sc mem = true := by
  rcases h1 with h1 | ⟨hs, hm⟩
  · exact keyLtb_trans h1 h2
  · rw [hs, hm]; exact h2

/-! ## Dictionary lemmas -/

theorem lookup_isSome_iff_mem_keys {α : Type} (l : List (String × α))
    (k : String) : (l.lookup k).isSome = true ↔ k ∈ l.map Prod.fst := by
  induction l with
  | nil => simp [List.lookup]
  | cons p rest ih =>
    by_cases h : k = p.1
    · simp [List.lookup, beq_iff_eq.mpr h, h]
    · simp [List.lookup, beq_eq_false_iff_ne.mpr h, ih, h]

theorem dictSet_lookup_self {α : Type} {l : List (String × α)} {k : String}
    {v : α} (h : l.lookup k = some v) : dictSet l k v = l := by
  induction l with
  | nil => simp [List.lookup] at h
  | cons p rest ih =>
    by_cases hk : k = p.1
    · rw [List.lookup, beq_iff_eq.mpr hk] at h
      obtain ⟨fst, snd⟩ := p
      simp only at hk
      injection h with h2
      simp [dictSet, hk.symm, ← h2]
    · rw [List.lookup, beq_eq_false_iff_ne.mpr hk] at h
      have hk' : ¬ p.1 = k := fun he => hk he.symm
      simp [dictSet, hk', ih h]

theorem dictSet_lookup_eq {α : Type} (l : List (String × α)) (k : String)
    (v : α) : (dictSet l k v).lookup k = some v := by
  induction l with
  | nil => simp [dictSet, List.lookup]
  | cons p rest ih =>
    by_cases hk : p.1 = k
    · simp [dictSet, hk, List.lookup]
    · have hk' : ¬ k = p.1 := fun he => hk he.symm
      simp [dictSet, hk, List.lookup, beq_eq_false_iff_ne.mpr hk', ih]

theorem dictSet_lookup_ne {α : Type} (l : List (String × α)) (k k' : String)
    (v : α) (h : k' ≠ k) : (dictSet l k v).lookup k' = l.lookup k' := by
  induction l with
  | nil => simp [dictSet, List.lookup, beq_eq_false_iff_ne.mpr h]
  | cons p rest ih =>
    by_cases hk : p.1 = k
    · subst hk
      simp [dictSet, List.lookup, beq_eq_false_iff_ne.mpr h]
    · simp [dictSet, hk, List.lookup, ih]

theorem dictSet_length_of_present {α : Type} {l : List (String × α)}
    {k : String} (v : α) (h : (l.lookup k).isSome = true) :
    (dictSet l k v).length = l.length := by
  induction l with
  | nil => simp [List.lookup] at h
  | cons p rest ih =>
    by_cases hk : p.1 = k
    · simp [dictSet, hk]
    · have hk' : ¬ k = p.1 := fun he => hk he.symm
      rw [List.lookup, beq_eq_false_iff_ne.mpr hk'] at h
      simp [dictSet, hk, ih h]

theorem dictSet_length_of_absent {α : Type} {l : List (String × α)}
    {k : String} (v : α) (h : l.lookup k = none) :
    (dictSet l k v).length = l.length + 1 := by
  induction l with
  | nil => simp [dictSet]
  | cons p rest ih =>
    by_cases hk : p.1 = k
    · rw [List.lookup, beq_iff_eq.mpr hk.symm] at h
      exact absurd h (by simp)
    · have hk' : ¬ k = p.1 := fun he => hk he.symm
      rw [List.lookup, beq_eq_false_iff_ne.mpr hk'] at h
      simp [dictSet, hk, ih h]

theorem dictDel_length_of_present {α : Type} {l : List (String × α)}
    {k : String} (h : (l.lookup k).isSome = true) :
    (dictDel l k).length + 1 = l.length := by
  induction l with
  | nil => simp [List.lookup] at h
  | cons p rest ih =>
    by_cases hk : p.1 = k
    · simp [dictDel, hk]
    · have hk' : ¬ k = p.1 := fun he => hk he.symm
      rw [List.lookup, beq_eq_false_iff_ne.mpr hk'] at h
      simp [dictDel, hk, ih h]

theorem dictDel_lookup_of_absent {α : Type} {l : List (String × α)}
    {k k' : String} (h : l.lookup k' = none) :
    (dictDel l k).lookup k' = none := by
  induction l with
  | nil => simp [dictDel, List.lookup]
  | cons p rest ih =>
    by_cases hk' : k' = p.1
    · rw [List.lookup, beq_iff_eq.mpr hk'] at h
      exact absurd h (by simp)
    · have h' : List.lookup k' rest = none := by
        simpa [List.lookup, beq_eq_false_iff_ne.mpr hk'] using h
      by_cases hk : p.1 = k
      · simpa [dictDel, hk] using h'
      · simp [dictDel, hk, List.lookup, beq_eq_false_iff_ne.mpr hk', ih h']

/-! ## Facts about the implicit forward pointers -/

theorem fwdSearch_eq_none_iff {i : Nat} {ns : List SLNode} :
    fwdSearch i ns = none ↔ ∀ n ∈ ns, n.lvl < i := by
  induction ns with
  | nil => simp [fwdSearch]
  | cons n rest ih =>
    by_cases h : i ≤ n.lvl
    · simp only [fwdSearch, if_pos h]
      constructor
      · intro hc; exact absurd hc (by simp)
      · intro hall
        exact absurd (hall n (List.mem_cons_self n rest)) (not_lt.mpr h)
    · simp [fwdSearch, h, ih, Nat.lt_of_not_le h]

theorem fwdSearch_eq_some_spec {i : Nat} {ns : List SLNode} {k : Nat}
    (h : fwdSearch i ns = some k) :
    (∃ n, ns[k]? = some n ∧ i ≤ n.lvl) ∧
      ∀ j, j < k → ∀ m, ns[j]? = some m → m.lvl < i := by
  induction ns generalizing k with
  | nil => simp [fwdSearch] at h
  | cons n rest ih =>
    by_cases hl : i ≤ n.lvl
    · simp [fwdSearch, hl] at h
      subst h
      exact ⟨⟨n, by simp, hl⟩, fun j hj m hm => absurd hj (Nat.not_lt_zero j)⟩
    · simp only [fwdSearch, if_neg hl, Option.map_eq_some'] at h
      obtain ⟨k', hk', rfl⟩ := h
      obtain ⟨⟨m, hm, hml⟩, hmin⟩ := ih hk'
      refine ⟨⟨m, by simpa using hm, hml⟩, ?_⟩
      intro j hj m' hm'
      cases j with
      | zero =>
        simp at hm'
        exact hm' ▸ Nat.lt_of_not_le hl
      | succ j' =>
        simp at hm'
        exact hmin j' (by omega) m' hm'

theorem fwdSearch_lt_length {i : Nat} {ns : List SLNode} {k : Nat}
    (h : fwdSearch i ns = some k) : k < ns.length := by
  obtain ⟨⟨n, hn, _⟩, _⟩ := fwdSearch_eq_some_spec h
  exact (List.getElem?_eq_some.mp hn).1

theorem fwdSearch_first {i : Nat} {ns : List SLNode} {j : Nat} {m : SLNode}
    (hm : ns[j]? = some m) (hl : i ≤ m.lvl) :
    ∃ k, fwdSearch i ns = some k ∧ k ≤ j := by
  induction ns generalizing j with
  | nil => simp at hm
  | cons n rest ih =>
    by_cases h : i ≤ n.lvl
    · exact ⟨0, by simp [fwdSearch, h], Nat.zero_le j⟩
    · cases j with
      | zero =>
        simp at hm
        exact absurd (hm ▸ hl) h
      | succ j' =>
        simp at hm
        obtain ⟨k, hk, hkj⟩ := ih hm
        exact ⟨k + 1, by simp [fwdSearch, h, hk], by omega⟩

theorem fwdSearch_append (i : Nat) (as bs : List SLNode) :
    fwdSearch i (as ++ bs) =
      match fwdSearch i as with
      | some k => some k
      | none => (fwdSearch i bs).map (· + as.length) := by
  induction as with
  | nil => cases hx : fwdSearch i bs <;> simp [fwdSearch, hx]
  | cons a rest ih =>
    by_cases h : i ≤ a.lvl
    · simp [fwdSearch, h]
    · have l1 : fwdSearch i (a :: (rest ++ bs)) =
          (fwdSearch i (rest ++ bs)).map (· + 1) := by
        simp [fwdSearch, h]
      have l2 : fwdSearch i (a :: rest) = (fwdSearch i rest).map (· + 1) := by
        simp [fwdSearch, h]
      rw [List.cons_append, l1, ih, l2]
      cases hx : fwdSearch i rest with
      | some k => simp
      | none =>
        cases hy : fwdSearch i bs with
        | none => simp
        | some v => simp [Nat.add_assoc]

/-- The positions strictly between `p` and a forward target are below
level `i`, the target is on level `i`, and targets stay in range. -/
theorem fwdPos_spec {ns : List SLNode} {i p q : Nat}
    (h : fwdPos ns i p = some q) :
    p < q ∧ q ≤ ns.length ∧ (∃ n, ns[q-1]? = some n ∧ i ≤ n.lvl) ∧
      ∀ r, p < r → r < q → ∀ m, ns[r-1]? = some m → m.lvl < i := by
  simp only [fwdPos, Option.map_eq_some'] at h
  obtain ⟨k, hk, rfl⟩ := h
  obtain ⟨⟨n, hn, hnl⟩, hmin⟩ := fwdSearch_eq_some_spec hk
  have hklen : k < (ns.drop p).length := fwdSearch_lt_length hk
  have hlen : (ns.drop p).length = ns.length - p := List.length_drop p ns
  rw [List.getElem?_drop] at hn
  refine ⟨by omega, by omega,
    ⟨n, by rw [show k + p + 1 - 1 = p + k by omega]; exact hn, hnl⟩, ?_⟩
  intro r hr1 hr2 m hm
  have hidx : (ns.drop p)[r - 1 - p]? = some m := by
    rw [List.getElem?_drop, show p + (r - 1 - p) = r - 1 by omega]
    exact hm
  exact hmin (r - 1 - p) (by omega) m hidx

theorem fwdPos_none_iff {ns : List SLNode} {i p : Nat} :
    fwdPos ns i p = none ↔ ∀ j, p ≤ j → ∀ m, ns[j]? = some m → m.lvl < i := by
  simp only [fwdPos, Option.map_eq_none']
  rw [fwdSearch_eq_none_iff]
  constructor
  · intro h j hj m hm
    apply h m
    have hidx : (ns.drop p)[j - p]? = some m := by
      rw [List.getElem?_drop, show p + (j - p) = j by omega]
      exact hm
    exact List.getElem?_mem hidx
  · intro h m hm
    obtain ⟨j, hj⟩ := List.getElem?_of_mem hm
    rw [List.getElem?_drop] at hj
    exact h (p + j) (by omega) m hj

theorem fwdPos_first {ns : List SLNode} {i p j : Nat} {m : SLNode}
    (hm : ns[j-1]? = some m) (hl : i ≤ m.lvl) (hj : p < j) :
    ∃ q, fwdPos ns i p = some q ∧ q ≤ j := by
  have hm' : (ns.drop p)[j - 1 - p]? = some m := by
    rw [List.getElem?_drop, show p + (j - 1 - p) = j - 1 by omega]
    exact hm
  obtain ⟨k, hk, hkj⟩ := fwdSearch_first hm' hl
  refine ⟨k + p + 1, by simp [fwdPos, hk], ?_⟩
  have hj1 : j - 1 - p + p + 1 ≤ j := by omega
  omega

theorem fwdPos_zero_of_lt {ns : List SLNode} {p : Nat} (h : p < ns.length) :
    fwdPos ns 0 p = some (p + 1) := by
  obtain ⟨m, hm⟩ : ∃ m, ns[p]? = some m :=
    ⟨ns[p], List.getElem?_eq_getElem h⟩
  have hm' : ns[(p+1)-1]? = some m := by simpa using hm
  obtain ⟨q, hq, hqle⟩ := fwdPos_first hm' (Nat.zero_le _) (Nat.lt_succ_self p)
  have hql : p < q := (fwdPos_spec hq).1
  have heq : q = p + 1 := Nat.le_antisymm hqle hql
  rw [← heq]
  exact hq

theorem fwdPos_zero_of_ge {ns : List SLNode} {p : Nat} (h : ns.length ≤ p) :
    fwdPos ns 0 p = none := by
  rw [fwdPos_none_iff]
  intro j hj m hm
  have := (List.getElem?_eq_some.mp hm).1
  omega

/-! ## Correctness of the top-down walks on sorted node lists -/

/-- Position `p` is linked on level `i` (the header, position 0, is on
every level). -/
def posOnLevel (ns : List SLNode) (i p : Nat) : Prop :=
  p = 0 ∨ ∃ n, ns[p-1]? = some n ∧ i ≤ n.lvl

theorem posOnLevel_zero (ns : List SLNode) (i : Nat) : posOnLevel ns i 0 :=
  Or.inl rfl

theorem posOnLevel_mono {ns : List SLNode} {i i' p : Nat} (h : i' ≤ i)
    (hp : posOnLevel ns i p) : posOnLevel ns i' p := by
  rcases hp with hp | ⟨n, hn, hl⟩
  · exact Or.inl hp
  · exact Or.inr ⟨n, hn, h.trans hl⟩

theorem posOnLevel_zero_level {ns : List SLNode} {p : Nat}
    (h : p ≤ ns.length) : posOnLevel ns 0 p := by
  cases p with
  | zero => exact Or.inl rfl
  | succ p' =>
    have hlt : p' < ns.length := by omega
    refine Or.inr ⟨ns.get ⟨p', hlt⟩, ?_, Nat.zero_le _⟩
    simp only [Nat.add_sub_cancel]
    exact List.getElem?_eq_getElem hlt

/-- The number of nodes strictly below the insertion point of
`(sc, mem)`: the length of the initial run of keys `< (sc, mem)`. -/
def countLt (ns : List SLNode) (sc : Score) (mem : String) : Nat :=
  (ns.takeWhile (fun n => keyLtb n.score n.member sc mem)).length

theorem countLt_le_length (ns : List SLNode) (sc : Score) (mem : String) :
    countLt ns sc mem ≤ ns.length := by
  induction ns with
  | nil => simp [countLt]
  | cons n rest ih =>
    by_cases h : keyLtb n.score n.member sc mem = true
    · simpa [countLt, List.takeWhile_cons, h] using ih
    · simp [countLt, List.takeWhile_cons, h]

/-- On a sorted node list, the walk condition holds at index `j` exactly
when `j` is below `countLt`. -/
theorem cond_iff_lt_countLt {ns : List SLNode} (hsort : ns.Pairwise keyLe)
    {sc : Score} {mem : String} {j : Nat} {n : SLNode}
    (h : ns[j]? = some n) :
    (keyLtb n.score n.member sc mem = true) ↔ j < countLt ns sc mem := by
  induction ns generalizing j with
  | nil => simp at h
  | cons n0 rest ih =>
    rw [List.pairwise_cons] at hsort
    obtain ⟨h0, hrest⟩ := hsort
    by_cases hc : keyLtb n0.score n0.member sc mem = true
    · have hcc : countLt (n0 :: rest) sc mem = countLt rest sc mem + 1 := by
        simp [countLt, List.takeWhile_cons, hc]
      cases j with
      | zero =>
        simp at h
        subst h
        simp [hcc, hc]
      | succ j' =>
        simp only [List.getElem?_cons_succ] at h
        rw [hcc, ih hrest h]
        omega
    · have hc0 : countLt (n0 :: rest) sc mem = 0 := by
        simp [countLt, List.takeWhile_cons, hc]
      rw [hc0]
      simp only [Nat.not_lt_zero, iff_false]
      cases j with
      | zero =>
        simp at h
        subst h
        exact hc
      | succ j' =>
        simp only [List.getElem?_cons_succ] at h
        intro hcc
        exact hc (keyLe_ltb_trans (h0 n (List.getElem?_mem h)) hcc)

/-- Positional behaviour of the per-level while loop: starting on a
level-`i` position at or before the boundary `c`, the walk stays on level
`i`, never crosses `c`, and stops exactly when the next level-`i` node
would be past `c`. -/
theorem walkF_pos_spec (sl : SkipList) (cond : SLNode → Bool) (i : Nat)
    {c : Nat}
    (hc : ∀ j n, sl.nodes[j]? = some n → (cond n = true ↔ j < c)) :
    ∀ fuel p rank, posOnLevel sl.nodes i p → p ≤ c → c < p + fuel →
      (posOnLevel sl.nodes i
          (walkF sl cond i fuel p rank).1 ∧
        p ≤ (walkF sl cond i fuel p rank).1 ∧
        (walkF sl cond i fuel p rank).1 ≤ c ∧
        ∀ q', fwdPos sl.nodes i
            (walkF sl cond i fuel p rank).1
            = some q' → c < q') := by
  intro fuel
  induction fuel with
  | zero =>
    intro p rank hp hpc hfuel
    omega
  | succ fuel ih =>
    intro p rank hp hpc hfuel
    cases hfp : fwdPos sl.nodes i p with
    | none =>
      have hw : walkF sl cond i (fuel+1)
          p rank = (p, rank) := by
        simp only [walkF, hfp]
      rw [hw]
      refine ⟨hp, le_refl p, hpc, ?_⟩
      intro q' hq'
      rw [hfp] at hq'
      cases hq'
    | some q =>
      obtain ⟨hpq, hqlen, ⟨n, hn, hnl⟩, _⟩ := fwdPos_spec hfp
      have hq0 : q ≠ 0 := by omega
      have hnq : sl.nodeAtPos q = some n := by
        rw [SkipList.nodeAtPos, if_neg hq0, hn]
      by_cases hcond : cond n = true
      · have hw : walkF sl cond i (fuel+1)
            p rank = walkF sl cond i fuel
              q (rank + sl.spanAt i p) := by
          simp only [walkF, hfp, hnq, hcond, if_true]
        rw [hw]
        have hqc : q - 1 < c := (hc (q-1) n hn).mp hcond
        have hres := ih q (rank + sl.spanAt i p)
          (Or.inr ⟨n, hn, hnl⟩) (by omega) (by omega)
        exact ⟨hres.1, by omega, hres.2.2⟩
      · have hw : walkF sl cond i (fuel+1)
            p rank = (p, rank) := by
          have hcf : cond n = false :=
            Bool.eq_false_iff.mpr hcond
          simp [walkF, hfp, hnq, hcf]
        rw [hw]
        refine ⟨hp, le_refl p, hpc, ?_⟩
        intro q' hq'
        rw [hfp] at hq'
        cases hq'
        have := (hc (q-1) n hn).not.mp hcond
        omega

/-- The walk over descending levels: every collected `update[k]` is a
level-`k` position at or before `c` whose level-`k` successor is past
`c`. -/
theorem walkDown_pos_spec (sl : SkipList) (cond : SLNode → Bool)
    {c : Nat}
    (hc : ∀ j n, sl.nodes[j]? = some n →
      ((cond n = true) ↔ j < c))
    (hclen : c ≤ sl.nodes.length) :
    ∀ lv p rank, posOnLevel sl.nodes lv p → p ≤ c →
      ∀ k, k ≤ lv →
        (posOnLevel sl.nodes k
            ((walkDown sl cond lv p
              rank).getD (lv - k) (0,0)).1 ∧
          ((walkDown sl cond lv p
              rank).getD (lv - k) (0,0)).1 ≤ c ∧
          ∀ q', fwdPos sl.nodes k
              ((walkDown sl cond lv p
                rank).getD (lv - k) (0,0)).1 = some q' → c < q') := by
  intro lv
  induction lv with
  | zero =>
    intro p rank hp hpc k hk
    interval_cases k
    simp only [walkDown, Nat.sub_zero, List.getD_cons_zero]
    have := walkF_pos_spec sl cond 0 hc (sl.nodes.length + 1) p rank hp hpc
      (by omega)
    exact ⟨this.1, this.2.2.1, this.2.2.2⟩
  | succ lv ih =>
    intro p rank hp hpc k hk
    have hw := walkF_pos_spec sl cond (lv+1) hc (sl.nodes.length + 1) p rank
      hp hpc (by omega)
    rw [walkDown]
    by_cases hklv : k = lv + 1
    · subst hklv
      simp only [Nat.sub_self, List.getD_cons_zero]
      exact ⟨hw.1, hw.2.2.1, hw.2.2.2⟩
    · have hkle : k ≤ lv := by omega
      have hsub : lv + 1 - k = (lv - k) + 1 := by omega
      rw [hsub]
      simp only [List.getD_cons_succ]
      exact ih _ _ (posOnLevel_mono (by omega) hw.1) hw.2.2.1 k hkle

/-- `update[i]`/`rank[i]` spec for `SkipList.updates` (position part). -/
theorem updates_pos_spec (sl : SkipList) (sc : Score) (mem : String)
    (hsort : sl.nodes.Pairwise keyLe) (i : Nat) (hi : i ≤ sl.level) :
    (posOnLevel sl.nodes i
        (sl.updAt (sl.updates (fun n => keyLtb n.score n.member sc mem)) i).1 ∧
      (sl.updAt (sl.updates (fun n => keyLtb n.score n.member sc mem)) i).1 ≤
        countLt sl.nodes sc mem ∧
      ∀ q', fwdPos sl.nodes i
          (sl.updAt (sl.updates (fun n => keyLtb n.score n.member sc mem))
            i).1 = some q' → countLt sl.nodes sc mem < q') := by
  have := walkDown_pos_spec sl (fun n => keyLtb n.score n.member sc mem)
    (fun j n h => cond_iff_lt_countLt hsort h) (countLt_le_length _ _ _)
    sl.level 0 0 (posOnLevel_zero _ _) (Nat.zero_le _) i hi
  exact this

/-- On a sorted list `update[0]` sits exactly at the boundary `countLt`:
the level-0 predecessor of the target. -/
theorem update0_eq_countLt (sl : SkipList) (sc : Score) (mem : String)
    (hsort : sl.nodes.Pairwise keyLe) :
    (sl.updAt (sl.updates (fun n => keyLtb n.score n.member sc mem)) 0).1 =
      countLt sl.nodes sc mem := by
  obtain ⟨hpos, hle, hstop⟩ :=
    updates_pos_spec sl sc mem hsort 0 (Nat.zero_le _)
  set u := (sl.updAt (sl.updates (fun n => keyLtb n.score n.member sc mem)) 0).1
  by_cases hu : u < sl.nodes.length
  · have := hstop (u + 1) (fwdPos_zero_of_lt hu)
    omega
  · have hclen := countLt_le_length sl.nodes sc mem
    omega

/-! ## The node sequence after `insert` and `remove` -/

/-- The span-free signature of a node: score, member and level. -/
def nodeSig (n : SLNode) : Score × String × Nat := (n.score, n.member, n.lvl)

/-- The `(score, member)` sequence in level-0 order. -/
def SkipList.pairs (sl : SkipList) : List (Score × String) :=
  sl.nodes.map (fun n => (n.score, n.member))

theorem map_set_congr {α β : Type} (f : α → β) (l : List α) (j : Nat) (a : α)
    (h : ∀ x, l[j]? = some x → f a = f x) : (l.set j a).map f = l.map f := by
  induction l generalizing j with
  | nil => rfl
  | cons b rest ih =>
    cases j with
    | zero =>
      have := h b (by simp)
      simp [List.set, this]
    | succ j' =>
      simp only [List.set, List.map_cons, List.cons.injEq, true_and]
      exact ih j' (fun x hx => h x (by simpa using hx))

theorem setSpanAt_nodes_map_sig (sl : SkipList) (p i : Nat) (v : Int) :
    (sl.setSpanAt p i v).nodes.map nodeSig = sl.nodes.map nodeSig := by
  unfold SkipList.setSpanAt
  by_cases hp : p = 0
  · simp [hp]
  · simp only [if_neg hp]
    cases hn : sl.nodes[p-1]? with
    | none => rfl
    | some n =>
      simp only
      exact map_set_congr nodeSig sl.nodes (p-1) _ (fun x hx => by
        rw [hn] at hx
        cases hx
        rfl)

theorem setSpanAt_level (sl : SkipList) (p i : Nat) (v : Int) :
    (sl.setSpanAt p i v).level = sl.level := by
  unfold SkipList.setSpanAt
  by_cases hp : p = 0
  · simp [hp]
  · simp only [if_neg hp]

theorem setSpanAt_length (sl : SkipList) (p i : Nat) (v : Int) :
    (sl.setSpanAt p i v).length = sl.length := by
  unfold SkipList.setSpanAt
  by_cases hp : p = 0
  · simp [hp]
  · simp only [if_neg hp]

/-- The span-writing folds in `insert`/`remove` change no signature. -/
theorem foldl_sig_invariant (L : List Nat) (F : SkipList → Nat → SkipList)
    (hF : ∀ s i, ((F s i).nodes.map nodeSig = s.nodes.map nodeSig) ∧
      (F s i).level = s.level ∧ (F s i).length = s.length) (sl : SkipList) :
    ((L.foldl F sl).nodes.map nodeSig = sl.nodes.map nodeSig) ∧
      (L.foldl F sl).level = sl.level ∧
      (L.foldl F sl).length = sl.length := by
  induction L generalizing sl with
  | nil => exact ⟨rfl, rfl, rfl⟩
  | cons j rest ih =>
    simp only [List.foldl_cons]
    obtain ⟨h1, h2, h3⟩ := ih (F sl j)
    obtain ⟨g1, g2, g3⟩ := hF sl j
    exact ⟨by rw [h1, g1], by rw [h2, g2], by rw [h3, g3]⟩

theorem setSpanAt_sig_inv (g : SkipList → Nat → Nat) (w : SkipList → Nat → Int) :
    ∀ (s : SkipList) (i : Nat),
      ((s.setSpanAt (g s i) i (w s i)).nodes.map nodeSig = s.nodes.map nodeSig) ∧
        (s.setSpanAt (g s i) i (w s i)).level = s.level ∧
        (s.setSpanAt (g s i) i (w s i)).length = s.length :=
  fun s i => ⟨setSpanAt_nodes_map_sig s _ i _, setSpanAt_level s _ i _,
    setSpanAt_length s _ i _⟩

theorem ite_setSpan_sig_inv (C : Nat → Prop) [DecidablePred C]
    (g : Nat → Nat) (w1 w2 : SkipList → Nat → Int) :
    ∀ (s : SkipList) (i : Nat),
      (((if C i then s.setSpanAt (g i) i (w1 s i)
          else s.setSpanAt (g i) i (w2 s i)) : SkipList).nodes.map nodeSig
          = s.nodes.map nodeSig) ∧
        ((if C i then s.setSpanAt (g i) i (w1 s i)
          else s.setSpanAt (g i) i (w2 s i)) : SkipList).level = s.level ∧
        ((if C i then s.setSpanAt (g i) i (w1 s i)
          else s.setSpanAt (g i) i (w2 s i)) : SkipList).length = s.length := by
  intro s i
  by_cases h : C i
  · simp only [if_pos h]
    exact setSpanAt_sig_inv (fun s _ => g i) w1 s i
  · simp only [if_neg h]
    exact setSpanAt_sig_inv (fun s _ => g i) w2 s i

theorem map_insertIdx {α β : Type} (f : α → β) (l : List α) (n : Nat) (a : α) :
    (l.insertIdx n a).map f = (l.map f).insertIdx n (f a) := by
  induction l generalizing n with
  | nil => cases n <;> simp [List.insertIdx]
  | cons b rest ih =>
    cases n with
    | zero => simp [List.insertIdx]
    | succ n' => simp [List.insertIdx_succ_cons, ih]

theorem map_eraseIdx {α β : Type} (f : α → β) (l : List α) (n : Nat) :
    (l.eraseIdx n).map f = (l.map f).eraseIdx n := by
  induction l generalizing n with
  | nil => simp [List.eraseIdx]
  | cons b rest ih =>
    cases n with
    | zero => simp [List.eraseIdx]
    | succ n' => simp [List.eraseIdx, ih]

theorem insertIdx_eq_take_drop {α : Type} (l : List α) (n : Nat) (a : α)
    (h : n ≤ l.length) : l.insertIdx n a = l.take n ++ a :: l.drop n := by
  induction l generalizing n with
  | nil =>
    have hn : n = 0 := by simpa using h
    subst hn
    simp [List.insertIdx]
  | cons b rest ih =>
    cases n with
    | zero => simp [List.insertIdx]
    | succ n' =>
      simp only [List.insertIdx_succ_cons, List.take_succ_cons,
        List.drop_succ_cons, List.cons_append, List.cons.injEq, true_and]
      exact ih n' (by simpa using h)

/-- The level and length fields after `insert`. -/
theorem insert_level (sl : SkipList) (sc : Score) (mem : String) (lvl : Nat) :
    (sl.insert sc mem lvl).level = max sl.level lvl := rfl

theorem insert_length (sl : SkipList) (sc : Score) (mem : String) (lvl : Nat) :
    (sl.insert sc mem lvl).length = sl.length + 1 := rfl

/-- On a sorted list, `insert` splices the new node exactly at the
boundary `countLt`, leaving every other signature unchanged. -/
theorem insert_nodes_sig (sl : SkipList) (sc : Score) (mem : String)
    (lvl : Nat) (hsort : sl.nodes.Pairwise keyLe) :
    (sl.insert sc mem lvl).nodes.map nodeSig =
      (sl.nodes.map nodeSig).insertIdx (countLt sl.nodes sc mem)
        (sc, mem, lvl) := by
  unfold SkipList.insert
  simp only [Nat.zero_le, if_pos, update0_eq_countLt sl sc mem hsort]
  rw [map_insertIdx]
  congr 1
  · -- sl3's signatures equal sl1's equal sl's
    obtain ⟨h3, _, _⟩ := foldl_sig_invariant _ _ (setSpanAt_sig_inv _ _) _
    rw [h3]
    obtain ⟨h2, _, _⟩ := foldl_sig_invariant _ _ (setSpanAt_sig_inv _ _) _
    rw [h2]
    by_cases hl : sl.level < lvl
    · simp only [if_pos hl]
      obtain ⟨h1, _, _⟩ := foldl_sig_invariant _ _ (setSpanAt_sig_inv _ _) _
      rw [h1]
    · simp only [if_neg hl]

theorem pairwise_insertIdx {α : Type} {R : α → α → Prop} {l : List α}
    {c : Nat} {x : α} (hl : l.Pairwise R) (hc : c ≤ l.length)
    (hbefore : ∀ a ∈ l.take c, R a x) (hafter : ∀ b ∈ l.drop c, R x b) :
    (l.insertIdx c x).Pairwise R := by
  rw [insertIdx_eq_take_drop l c x hc, List.pairwise_append]
  have hsplit := List.pairwise_append.mp
    (show ((l.take c) ++ (l.drop c)).Pairwise R by
      rw [List.take_append_drop]; exact hl)
  refine ⟨hsplit.1, ?_, ?_⟩
  · rw [List.pairwise_cons]
    exact ⟨hafter, hsplit.2.1⟩
  · intro a ha b hb
    rcases List.mem_cons.mp hb with rfl | hb'
    · exact hbefore a ha
    · exact hsplit.2.2 a ha b hb'

/-- `insert` preserves sortedness. -/
theorem insert_sorted (sl : SkipList) (sc : Score) (mem : String) (lvl : Nat)
    (hsort : sl.nodes.Pairwise keyLe) :
    (sl.insert sc mem lvl).nodes.Pairwise keyLe := by
  have hsig := insert_nodes_sig sl sc mem lvl hsort
  set c := countLt sl.nodes sc mem with hc
  -- transfer along the signature map
  have hiff : ∀ ms : List SLNode, ms.Pairwise keyLe ↔
      (ms.map nodeSig).Pairwise
        (fun a b => keyLtb a.1 a.2.1 b.1 b.2.1 = true ∨
          (a.1 = b.1 ∧ a.2.1 = b.2.1)) := by
    intro ms
    rw [List.pairwise_map]
    exact Iff.rfl
  rw [hiff, hsig]
  apply pairwise_insertIdx
  · rw [← hiff]
    exact hsort
  · rw [List.length_map]
    exact countLt_le_length _ _ _
  · intro a ha
    rw [← List.map_take] at ha
    obtain ⟨n, hn, rfl⟩ := List.mem_map.mp ha
    obtain ⟨j, hj⟩ := List.getElem?_of_mem hn
    have hjlen : j < (sl.nodes.take c).length := (List.getElem?_eq_some.mp hj).1
    have hjc : j < c := by
      rw [List.length_take] at hjlen
      omega
    have hj' : sl.nodes[j]? = some n := by
      rw [← List.getElem?_take_of_lt hjc]
      exact hj
    exact Or.inl ((cond_iff_lt_countLt hsort hj').mpr hjc)
  · intro b hb
    rw [← List.map_drop] at hb
    obtain ⟨n, hn, rfl⟩ := List.mem_map.mp hb
    obtain ⟨j, hj⟩ := List.getElem?_of_mem hn
    rw [List.getElem?_drop] at hj
    have hcj : ¬ c + j < c := by omega
    have hcond : keyLtb n.score n.member sc mem = false :=
      Bool.eq_false_iff.mpr (fun hcc =>
        hcj ((cond_iff_lt_countLt hsort hj).mp hcc))
    cases hx : keyLtb sc mem n.score n.member
    · obtain ⟨hs, hm⟩ := keyLtb_conn hcond hx
      exact Or.inr ⟨hs.symm, hm.symm⟩
    · exact Or.inl hx

/-- If the pair is absent, `remove` returns the state unchanged with
result `False` (it mutates nothing before the membership check fails). -/
theorem remove_of_absent (sl : SkipList) (sc : Score) (mem : String)
    (hsort : sl.nodes.Pairwise keyLe) (habs : (sc, mem) ∉ sl.pairs) :
    sl.remove sc mem = (sl, false) := by
  unfold SkipList.remove
  simp only [update0_eq_countLt sl sc mem hsort]
  cases hn : sl.nodes[countLt sl.nodes sc mem]? with
  | none => simp [hn]
  | some cur =>
    have hne : ¬ (cur.score = sc ∧ cur.member = mem) := by
      rintro ⟨h1, h2⟩
      exact habs (List.mem_map.mpr ⟨cur, List.getElem?_mem hn, by rw [h1, h2]⟩)
    simp [hn, hne]

/-- If the pair is present on a sorted list, the node at the boundary
`countLt` is exactly (a node carrying) that pair. -/
theorem present_at_countLt (sl : SkipList) (sc : Score) (mem : String)
    (hsort : sl.nodes.Pairwise keyLe) (hmem : (sc, mem) ∈ sl.pairs) :
    ∃ t, sl.nodes[countLt sl.nodes sc mem]? = some t ∧
      t.score = sc ∧ t.member = mem := by
  set c := countLt sl.nodes sc mem with hcdef
  obtain ⟨n, hn, hpair⟩ := List.mem_map.mp hmem
  have hns : n.score = sc := congrArg Prod.fst hpair
  have hnm : n.member = mem := congrArg Prod.snd hpair
  obtain ⟨j, hj⟩ := List.getElem?_of_mem hn
  have hcond : keyLtb n.score n.member sc mem = false := by
    rw [hns, hnm]
    exact keyLtb_irrefl sc mem
  have hcj : c ≤ j := by
    by_contra hlt
    rw [(cond_iff_lt_countLt hsort hj).mpr (by omega)] at hcond
    cases hcond
  have hjlen : j < sl.nodes.length := (List.getElem?_eq_some.mp hj).1
  have hclen : c < sl.nodes.length := by omega
  obtain ⟨t, ht⟩ : ∃ t, sl.nodes[c]? = some t :=
    ⟨sl.nodes[c], List.getElem?_eq_getElem hclen⟩
  have htcond : keyLtb t.score t.member sc mem = false :=
    Bool.eq_false_iff.mpr (fun hcc =>
      absurd ((cond_iff_lt_countLt hsort ht).mp hcc) (by omega))
  refine ⟨t, ht, ?_⟩
  by_cases hcj' : c = j
  · subst hcj'
    rw [ht] at hj
    cases hj
    exact ⟨hns, hnm⟩
  · have hlt : c < j := by omega
    have hle : keyLe t n := by
      have hP := List.pairwise_iff_getElem.mp hsort c j hclen hjlen hlt
      have ht' : sl.nodes[c] = t := by
        have := List.getElem?_eq_getElem hclen
        rw [this] at ht
        exact (Option.some.injEq _ _).mp ht
      have hj'' : sl.nodes[j] = n := by
        have := List.getElem?_eq_getElem hjlen
        rw [this] at hj
        exact (Option.some.injEq _ _).mp hj
      rw [← ht', ← hj'']
      exact hP
    rcases hle with hle | ⟨h1, h2⟩
    · rw [hns, hnm] at hle
      rw [hle] at htcond
      cases htcond
    · exact ⟨h1.trans hns, h2.trans hnm⟩

/-- When the node at `countLt` carries exactly the target pair, `remove`
returns `True`, erases precisely that node, and decrements the length. -/
theorem remove_found (sl : SkipList) (sc : Score) (mem : String)
    (hsort : sl.nodes.Pairwise keyLe) {t : SLNode}
    (ht : sl.nodes[countLt sl.nodes sc mem]? = some t)
    (hts : t.score = sc) (htm : t.member = mem) :
    (sl.remove sc mem).2 = true ∧
      (sl.remove sc mem).1.nodes.map nodeSig =
        (sl.nodes.map nodeSig).eraseIdx (countLt sl.nodes sc mem) ∧
      (sl.remove sc mem).1.length = sl.length - 1 := by
  unfold SkipList.remove
  simp only [update0_eq_countLt sl sc mem hsort, ht]
  have hcondT : t.score = sc ∧ t.member = mem := ⟨hts, htm⟩
  rw [if_pos hcondT]
  obtain ⟨h1, h2, h3⟩ :=
    foldl_sig_invariant (List.range (sl.level+1)) _
      (ite_setSpan_sig_inv
        (fun i => fwdPos sl.nodes i
          (sl.updAt (sl.updates fun n => keyLtb n.score n.member sc mem) i).1 =
            some (countLt sl.nodes sc mem + 1))
        (fun i => (sl.updAt (sl.updates fun n =>
          keyLtb n.score n.member sc mem) i).1)
        (fun s i => s.spanAt i
          (sl.updAt (sl.updates fun n => keyLtb n.score n.member sc mem) i).1 +
            t.span.getD i 0 - 1)
        (fun s i => s.spanAt i
          (sl.updAt (sl.updates fun n =>
            keyLtb n.score n.member sc mem) i).1 - 1))
      sl
  refine ⟨rfl, ?_, by simp [h3]⟩
  rw [map_eraseIdx, h1]




/-! ## Range queries on sorted lists -/

theorem keyLe_score_le {a b : SLNode} (h : keyLe a b) : a.score ≤ b.score := by
  rcases h with h | ⟨h, _⟩
  · simp only [keyLtb, Bool.or_eq_true, Bool.and_eq_true,
      decide_eq_true_eq] at h
    rcases h with h | ⟨h, _⟩
    · exact le_of_lt h
    · exact le_of_eq h
  · exact le_of_eq h

theorem sorted_dropWhile_filter (lo : Score) :
    ∀ (l : List SLNode), l.Pairwise (fun a b => a.score ≤ b.score) →
      l.dropWhile (fun n => decide (n.score < lo)) =
        l.filter (fun n => decide (lo ≤ n.score))
  | [], _ => rfl
  | n :: rest, hs => by
    rw [List.pairwise_cons] at hs
    by_cases h : n.score < lo
    · rw [List.dropWhile_cons_of_pos (by simpa using h)]
      rw [List.filter_cons_of_neg (by simpa using not_le.mpr h)]
      exact sorted_dropWhile_filter lo rest hs.2
    · rw [List.dropWhile_cons_of_neg (by simpa using h)]
      rw [List.filter_cons_of_pos (by simpa using not_lt.mp h)]
      congr 1
      symm
      rw [List.filter_eq_self]
      intro a ha
      simp only [decide_eq_true_eq]
      exact le_trans (not_lt.mp h) (hs.1 a ha)

theorem sorted_takeWhile_filter (hi : Score) :
    ∀ (l : List SLNode), l.Pairwise (fun a b => a.score ≤ b.score) →
      l.takeWhile (fun n => decide (n.score ≤ hi)) =
        l.filter (fun n => decide (n.score ≤ hi))
  | [], _ => rfl
  | n :: rest, hs => by
    rw [List.pairwise_cons] at hs
    by_cases h : n.score ≤ hi
    · rw [List.takeWhile_cons_of_pos (by simpa using h),
        List.filter_cons_of_pos (by simpa using h)]
      congr 1
      exact sorted_takeWhile_filter hi rest hs.2
    · rw [List.takeWhile_cons_of_neg (by simpa using h),
        List.filter_cons_of_neg (by simpa using h)]
      symm
      rw [List.filter_eq_nil]
      intro a ha
      simp only [decide_eq_true_eq]
      intro hc
      exact h (le_trans (hs.1 a ha) hc)

theorem nodes_score_sorted {sl : SkipList} (hsort : sl.nodes.Pairwise keyLe) :
    sl.nodes.Pairwise (fun a b => a.score ≤ b.score) :=
  hsort.imp keyLe_score_le

/-- The range query equals the level-0 filter of the score interval. -/
theorem range_query_eq_filter (sl : SkipList) (lo hi : Score)
    (hsort : sl.nodes.Pairwise keyLe) :
    sl.range_query lo hi =
      sl.pairs.filter (fun p => decide (lo ≤ p.1) && decide (p.1 ≤ hi)) := by
  have hs := nodes_score_sorted hsort
  unfold SkipList.range_query SkipList.pairs
  rw [sorted_dropWhile_filter lo sl.nodes hs]
  rw [sorted_takeWhile_filter hi _ (hs.sublist (List.filter_sublist _))]
  rw [List.filter_filter, List.filter_map]
  congr 1
  apply List.filter_congr
  intro a ha
  simp [Bool.and_comm]

/-! ## Claim theorems for the skip-list node sequence -/

/-- C10: for a pair `(score, member)` not present in a (sorted) skip
list, `remove(score, member)` returns `False` and leaves the whole state
— length, level, nodes, spans, header spans — unchanged. -/
theorem C10_remove_absent_noop (sl : SkipList) (sc : Score) (mem : String)
    (hsort : sl.nodes.Pairwise keyLe) (habs : (sc, mem) ∉ sl.pairs) :
    sl.remove sc mem = (sl, false) :=
  remove_of_absent sl sc mem hsort habs

theorem C10_witness :
    ((SkipList.empty.insert 1 "a" 0).insert 2 "b" 1).remove 5 "q" =
      (((SkipList.empty.insert 1 "a" 0).insert 2 "b" 1), false) :=
  C10_remove_absent_noop ((SkipList.empty.insert 1 "a" 0).insert 2 "b" 1)
    5 "q" (by decide) (by decide)

/-- C6: `range_query(lo, hi)` returns exactly the `(score, member)` pairs
of the level-0 traversal whose score lies in `[lo, hi]` (both ends
inclusive), in level-0 (ascending) order: it is the filter of the level-0
sequence. -/
theorem C6_range_query_exact (sl : SkipList) (lo hi : Score)
    (hsort : sl.nodes.Pairwise keyLe) :
    sl.range_query lo hi =
      sl.pairs.filter (fun p => decide (lo ≤ p.1) && decide (p.1 ≤ hi)) :=
  range_query_eq_filter sl lo hi hsort

theorem C6_witness :
    (((SkipList.empty.insert 1 "a" 0).insert 2 "b" 1).insert 3 "c" 0).range_query 1 2 =
      ((((SkipList.empty.insert 1 "a" 0).insert 2 "b" 1).insert 3 "c" 0).pairs.filter
        (fun p => decide ((1:Score) ≤ p.1) && decide (p.1 ≤ (2:Score)))) :=
  C6_range_query_exact _ 1 2 (by decide)

/-! ## `SortedSet` invariant and helper lemmas -/

theorem insert_pairs (sl : SkipList) (sc : Score) (mem : String) (lvl : Nat)
    (hsort : sl.nodes.Pairwise keyLe) :
    (sl.insert sc mem lvl).pairs =
      sl.pairs.insertIdx (countLt sl.nodes sc mem) (sc, mem) := by
  have h := insert_nodes_sig sl sc mem lvl hsort
  have hproj : ∀ ms : List SLNode, ms.map (fun n => (n.score, n.member)) =
      (ms.map nodeSig).map (fun x => (x.1, x.2.1)) := by
    intro ms
    rw [List.map_map]
    rfl
  unfold SkipList.pairs
  rw [hproj, h, map_insertIdx, ← hproj]

theorem remove_pairs_found (sl : SkipList) (sc : Score) (mem : String)
    (hsort : sl.nodes.Pairwise keyLe) {t : SLNode}
    (ht : sl.nodes[countLt sl.nodes sc mem]? = some t)
    (hts : t.score = sc) (htm : t.member = mem) :
    (sl.remove sc mem).1.pairs =
      sl.pairs.eraseIdx (countLt sl.nodes sc mem) := by
  have h := (remove_found sl sc mem hsort ht hts htm).2.1
  have hproj : ∀ ms : List SLNode, ms.map (fun n => (n.score, n.member)) =
      (ms.map nodeSig).map (fun x => (x.1, x.2.1)) := by
    intro ms
    rw [List.map_map]
    rfl
  unfold SkipList.pairs
  rw [hproj, h, ← map_eraseIdx, ← hproj]
  exact map_eraseIdx _ _ _

/-- `remove` preserves sortedness. -/
theorem remove_sorted (sl : SkipList) (sc : Score) (mem : String)
    (hsort : sl.nodes.Pairwise keyLe) :
    (sl.remove sc mem).1.nodes.Pairwise keyLe := by
  by_cases hmem : (sc, mem) ∈ sl.pairs
  · obtain ⟨t, ht, hts, htm⟩ := present_at_countLt sl sc mem hsort hmem
    have hp := remove_pairs_found sl sc mem hsort ht hts htm
    -- transfer sortedness through the pairs characterisation is not
    -- direct; argue via the node signatures instead
    have hsig := (remove_found sl sc mem hsort ht hts htm).2.1
    have hiff : ∀ ms : List SLNode, ms.Pairwise keyLe ↔
        (ms.map nodeSig).Pairwise
          (fun a b => keyLtb a.1 a.2.1 b.1 b.2.1 = true ∨
            (a.1 = b.1 ∧ a.2.1 = b.2.1)) := by
      intro ms
      rw [List.pairwise_map]
      exact Iff.rfl
    rw [hiff, hsig]
    exact ((hiff sl.nodes).mp hsort).sublist (List.eraseIdx_sublist _ _)
  · rw [remove_of_absent sl sc mem hsort hmem]
    exact hsort

theorem lookup_mem {α : Type} {l : List (String × α)} {k : String} {v : α}
    (h : l.lookup k = some v) : (k, v) ∈ l := by
  induction l with
  | nil => simp [List.lookup] at h
  | cons p rest ih =>
    by_cases hk : k = p.1
    · rw [List.lookup, beq_iff_eq.mpr hk] at h
      obtain ⟨k0, v0⟩ := p
      simp only at hk h
      injection h with h2
      simp [hk, h2]
    · rw [List.lookup, beq_eq_false_iff_ne.mpr hk] at h
      exact List.mem_cons_of_mem p (ih h)

theorem dictSet_keys_of_present {α : Type} {l : List (String × α)}
    {k : String} (v : α) (h : (l.lookup k).isSome = true) :
    (dictSet l k v).map Prod.fst = l.map Prod.fst := by
  induction l with
  | nil => simp [List.lookup] at h
  | cons p rest ih =>
    by_cases hk : p.1 = k
    · simp [dictSet, hk]
    · have hk' : ¬ k = p.1 := fun he => hk he.symm
      rw [List.lookup, beq_eq_false_iff_ne.mpr hk'] at h
      simp [dictSet, hk, ih h]

theorem dictSet_keys_of_absent {α : Type} {l : List (String × α)}
    {k : String} (v : α) (h : l.lookup k = none) :
    (dictSet l k v).map Prod.fst = l.map Prod.fst ++ [k] := by
  induction l with
  | nil => simp [dictSet]
  | cons p rest ih =>
    by_cases hk : p.1 = k
    · rw [List.lookup, beq_iff_eq.mpr hk.symm] at h
      exact absurd h (by simp)
    · have hk' : ¬ k = p.1 := fun he => hk he.symm
      rw [List.lookup, beq_eq_false_iff_ne.mpr hk'] at h
      simp [dictSet, hk, ih h]

/-- Membership after a dictionary write, for key-unique dictionaries. -/
theorem mem_dictSet_elim {α : Type} {l : List (String × α)} {k : String}
    {v : α} {p : String × α} (hnd : (l.map Prod.fst).Nodup)
    (h : p ∈ dictSet l k v) : p = (k, v) ∨ (p ∈ l ∧ p.1 ≠ k) := by
  induction l with
  | nil =>
    simp [dictSet] at h
    exact Or.inl h
  | cons q rest ih =>
    simp only [List.map_cons, List.nodup_cons] at hnd
    by_cases hk : q.1 = k
    · simp only [dictSet, if_pos hk] at h
      rcases List.mem_cons.mp h with rfl | hrest
      · exact Or.inl (by rw [hk])
      · refine Or.inr ⟨List.mem_cons_of_mem q hrest, ?_⟩
        intro hpk
        apply hnd.1
        rw [hk, ← hpk]
        exact List.mem_map_of_mem Prod.fst hrest
    · simp only [dictSet, if_neg hk] at h
      rcases List.mem_cons.mp h with rfl | hrest
      · exact Or.inr ⟨List.mem_cons_self _ _, hk⟩
      · rcases ih hnd.2 hrest with h1 | ⟨h2, h3⟩
        · exact Or.inl h1
        · exact Or.inr ⟨List.mem_cons_of_mem q h2, h3⟩

theorem eraseIdx_decomp {α : Type} {l : List α} {c : Nat} {a : α}
    (hc : l[c]? = some a) :
    l = l.take c ++ a :: l.drop (c + 1) ∧
      l.eraseIdx c = l.take c ++ l.drop (c + 1) := by
  have hlen : c < l.length := (List.getElem?_eq_some.mp hc).1
  have hget : l[c] = a := by
    have := List.getElem?_eq_getElem hlen
    rw [this] at hc
    exact (Option.some.injEq _ _).mp hc
  constructor
  · conv_lhs => rw [← List.take_append_drop c l]
    congr 1
    rw [List.drop_eq_getElem_cons hlen, hget]
  · exact List.eraseIdx_eq_take_drop_succ l c

theorem mem_eraseIdx_of_ne {α : Type} {l : List α} {c : Nat} {a q : α}
    (hc : l[c]? = some a) (hq : q ∈ l) (hne : q ≠ a) : q ∈ l.eraseIdx c := by
  obtain ⟨hdec, herase⟩ := eraseIdx_decomp hc
  rw [herase]
  rw [hdec] at hq
  rcases List.mem_append.mp hq with h | h
  · exact List.mem_append_left _ h
  · rcases List.mem_cons.mp h with rfl | h'
    · exact absurd rfl hne
    · exact List.mem_append_right _ h'

theorem mem_of_mem_eraseIdx {α : Type} {l : List α} {c : Nat} {q : α}
    (h : q ∈ l.eraseIdx c) : q ∈ l :=
  (List.eraseIdx_sublist l c).mem h

theorem not_mem_eraseIdx_of_nodup {α : Type} {l : List α} {c : Nat} {a : α}
    (hnd : l.Nodup) (hc : l[c]? = some a) : a ∉ l.eraseIdx c := by
  obtain ⟨hdec, herase⟩ := eraseIdx_decomp hc
  rw [herase]
  intro hmem
  have : l.Pairwise (· ≠ ·) := hnd
  rw [hdec, List.pairwise_append] at this
  rcases List.mem_append.mp hmem with h | h
  · have := this.2.2 a h a (List.mem_cons_self _ _)
    exact this rfl
  · have h2 := List.pairwise_cons.mp this.2.1
    exact h2.1 a h rfl

/-- The operational invariant of a sorted set (spec §4.4): sorted level-0
order, key-unique member dictionary, dictionary and skip list describing
the same finite map, each member on exactly one node. -/
def SortedSet.Inv (ss : SortedSet) : Prop :=
  ss.skiplist.nodes.Pairwise keyLe ∧
  (ss.members.map Prod.fst).Nodup ∧
  (∀ p ∈ ss.members, (p.2, p.1) ∈ ss.skiplist.pairs) ∧
  (∀ q ∈ ss.skiplist.pairs, ss.members.lookup q.2 = some q.1) ∧
  (ss.skiplist.pairs.map Prod.snd).Nodup

theorem zadd_of_none (ss : SortedSet) (sc : Score) (mem : String) (lvl : Nat)
    (hlk : ss.members.lookup mem = none) :
    (ss.zadd sc mem lvl).1 =
      ⟨ss.key, ss.skiplist.insert sc mem lvl, dictSet ss.members mem sc⟩ := by
  unfold SortedSet.zadd
  rw [hlk]

theorem zadd_of_some (ss : SortedSet) (sc : Score) (mem : String) (lvl : Nat)
    {s' : Score} (hlk : ss.members.lookup mem = some s') :
    (ss.zadd sc mem lvl).1 =
      ⟨ss.key, ((ss.skiplist.remove s' mem).1).insert sc mem lvl,
        dictSet ss.members mem sc⟩ := by
  unfold SortedSet.zadd
  rw [hlk]

/-- Inserting a member that is on no node: the resulting pair list has the
new pair, everything else unchanged, and the member is on exactly one
node. -/
theorem zadd_core (sl1 : SkipList) (sc : Score) (mem : String) (lvl : Nat)
    (hsort1 : sl1.nodes.Pairwise keyLe)
    (hmnot1 : mem ∉ sl1.pairs.map Prod.snd)
    (hsnd1 : (sl1.pairs.map Prod.snd).Nodup) :
    (sl1.insert sc mem lvl).nodes.Pairwise keyLe ∧
      ((sl1.insert sc mem lvl).pairs.filter (fun p => decide (p.2 = mem))
        = [(sc, mem)]) ∧
      (((sl1.insert sc mem lvl).pairs.map Prod.snd).Nodup) ∧
      (∀ q ∈ (sl1.insert sc mem lvl).pairs,
        q = (sc, mem) ∨ (q ∈ sl1.pairs ∧ q.2 ≠ mem)) ∧
      (∀ q ∈ sl1.pairs, q ∈ (sl1.insert sc mem lvl).pairs) ∧
      ((sc, mem) ∈ (sl1.insert sc mem lvl).pairs) := by
  have hp2 := insert_pairs sl1 sc mem lvl hsort1
  set c2 := countLt sl1.nodes sc mem with hc2
  have hc2len : c2 ≤ sl1.pairs.length := by
    rw [SkipList.pairs, List.length_map]
    exact countLt_le_length _ _ _
  have hmemiff : ∀ q, q ∈ (sl1.insert sc mem lvl).pairs ↔
      q = (sc, mem) ∨ q ∈ sl1.pairs := by
    intro q
    rw [hp2]
    exact List.mem_insertIdx hc2len
  have hne1 : ∀ q ∈ sl1.pairs, q.2 ≠ mem := by
    intro q hq hq2
    exact hmnot1 (List.mem_map.mpr ⟨q, hq, hq2⟩)
  refine ⟨insert_sorted sl1 sc mem lvl hsort1, ?_, ?_, ?_, ?_, ?_⟩
  · rw [hp2, insertIdx_eq_take_drop _ _ _ hc2len, List.filter_append]
    have htake : (sl1.pairs.take c2).filter
        (fun p => decide (p.2 = mem)) = [] := by
      rw [List.filter_eq_nil]
      intro q hq
      simp only [decide_eq_true_eq]
      exact hne1 q ((List.take_sublist c2 sl1.pairs).mem hq)
    have hdrop : (sl1.pairs.drop c2).filter
        (fun p => decide (p.2 = mem)) = [] := by
      rw [List.filter_eq_nil]
      intro q hq
      simp only [decide_eq_true_eq]
      exact hne1 q ((List.drop_sublist c2 sl1.pairs).mem hq)
    rw [htake, List.filter_cons_of_pos (by simp), hdrop]
    rfl
  · rw [hp2, map_insertIdx]
    have hperm : List.Perm ((sl1.pairs.map Prod.snd).insertIdx c2 mem)
        (mem :: sl1.pairs.map Prod.snd) :=
      List.perm_insertNth mem _ (by rwa [List.length_map])
    rw [hperm.nodup_iff, List.nodup_cons]
    exact ⟨hmnot1, hsnd1⟩
  · intro q hq
    rcases (hmemiff q).mp hq with h | h
    · exact Or.inl h
    · exact Or.inr ⟨h, hne1 q h⟩
  · intro q hq
    exact (hmemiff q).mpr (Or.inr hq)
  · exact (hmemiff (sc, mem)).mpr (Or.inl rfl)

/-- Full effect of `zadd` on an invariant-satisfying sorted set. -/
theorem zadd_spec (ss : SortedSet) (sc : Score) (mem : String) (lvl : Nat)
    (hInv : ss.Inv) :
    (ss.zadd sc mem lvl).1.Inv ∧
      (ss.zadd sc mem lvl).1.members = dictSet ss.members mem sc ∧
      ((ss.zadd sc mem lvl).1.skiplist.pairs.filter
        (fun p => decide (p.2 = mem)) = [(sc, mem)]) := by
  obtain ⟨hsort, hknd, hcomp2, hcomp3, hsnd⟩ := hInv
  -- facts about the intermediate skip list (after the optional removal)
  -- packaged uniformly for the two branches of `zadd`
  have main : ∀ sl1 : SkipList,
      sl1.nodes.Pairwise keyLe →
      mem ∉ sl1.pairs.map Prod.snd →
      (sl1.pairs.map Prod.snd).Nodup →
      (∀ q ∈ ss.skiplist.pairs, q.2 ≠ mem → q ∈ sl1.pairs) →
      (∀ q ∈ sl1.pairs, q ∈ ss.skiplist.pairs) →
      (SortedSet.Inv ⟨ss.key, sl1.insert sc mem lvl,
          dictSet ss.members mem sc⟩ ∧
        ((sl1.insert sc mem lvl).pairs.filter
          (fun p => decide (p.2 = mem)) = [(sc, mem)])) := by
    intro sl1 hsort1 hmnot1 hsnd1 hpres hsub
    obtain ⟨hs2, hfil2, hnd2, helim2, hup2, hin2⟩ :=
      zadd_core sl1 sc mem lvl hsort1 hmnot1 hsnd1
    refine ⟨⟨hs2, ?_, ?_, ?_, hnd2⟩, hfil2⟩
    · -- member keys stay duplicate-free
      cases hlk : ss.members.lookup mem with
      | some s0 =>
        rw [dictSet_keys_of_present sc (by rw [hlk]; rfl)]
        exact hknd
      | none =>
        rw [dictSet_keys_of_absent sc hlk, List.nodup_append]
        refine ⟨hknd, List.nodup_singleton mem, ?_⟩
        intro a ha hb
        rcases List.mem_singleton.mp hb with rfl
        rw [← lookup_isSome_iff_mem_keys, hlk] at ha
        cases ha
    · -- dictionary entries are on nodes
      intro p hp
      rcases mem_dictSet_elim hknd hp with rfl | ⟨hpm, hpk⟩
      · exact hin2
      · exact hup2 (p.2, p.1) (hpres (p.2, p.1) (hcomp2 p hpm) hpk)
    · -- nodes are in the dictionary
      intro q hq
      rcases helim2 q hq with rfl | ⟨hq1, hq2⟩
      · exact dictSet_lookup_eq _ _ _
      · rw [dictSet_lookup_ne _ _ _ _ hq2]
        exact hcomp3 q (hsub q hq1)
  cases hlk : ss.members.lookup mem with
  | none =>
    rw [zadd_of_none ss sc mem lvl hlk]
    have hmnot : mem ∉ ss.skiplist.pairs.map Prod.snd := by
      intro hmm
      obtain ⟨q, hq, hq2⟩ := List.mem_map.mp hmm
      have := hcomp3 q hq
      rw [hq2, hlk] at this
      cases this
    have hm := main ss.skiplist hsort hmnot hsnd (fun q hq _ => hq)
      (fun q hq => hq)
    exact ⟨hm.1, rfl, hm.2⟩
  | some s' =>
    rw [zadd_of_some ss sc mem lvl hlk]
    have hpmem : (s', mem) ∈ ss.skiplist.pairs := hcomp2 (mem, s') (lookup_mem hlk)
    obtain ⟨t, ht, hts, htm⟩ := present_at_countLt _ s' mem hsort hpmem
    set c1 := countLt ss.skiplist.nodes s' mem with hc1
    have hp1 := remove_pairs_found ss.skiplist s' mem hsort ht hts htm
    have hpairs_c1 : ss.skiplist.pairs[c1]? = some (s', mem) := by
      rw [SkipList.pairs, List.getElem?_map, ht]
      simp [hts, htm]
    have hsnd_c1 : (ss.skiplist.pairs.map Prod.snd)[c1]? = some mem := by
      rw [List.getElem?_map, hpairs_c1]
      rfl
    have hmapsnd : (ss.skiplist.remove s' mem).1.pairs.map Prod.snd =
        (ss.skiplist.pairs.map Prod.snd).eraseIdx c1 := by
      rw [hp1, ← map_eraseIdx]
    have hmnot1 : mem ∉ (ss.skiplist.remove s' mem).1.pairs.map Prod.snd := by
      rw [hmapsnd]
      exact not_mem_eraseIdx_of_nodup hsnd hsnd_c1
    have hsnd1 : ((ss.skiplist.remove s' mem).1.pairs.map Prod.snd).Nodup := by
      rw [hmapsnd]
      exact hsnd.sublist (List.eraseIdx_sublist _ _)
    have hm := main _ (remove_sorted _ s' mem hsort) hmnot1 hsnd1
      (by
        intro q hq hq2
        rw [hp1]
        refine mem_eraseIdx_of_ne hpairs_c1 hq ?_
        intro he
        rw [he] at hq2
        exact hq2 rfl)
      (by
        intro q hq
        rw [hp1] at hq
        exact mem_of_mem_eraseIdx hq)
    exact ⟨hm.1, rfl, hm.2⟩

/-- C7: on any sorted set satisfying its invariant, `zadd(s1, m)` followed
by `zadd(s2, m)` leaves exactly one entry for `m`: the member dictionary
maps `m` to `s2`, and exactly one skip-list node carries member `m`,
namely `(s2, m)`. -/
theorem C7_zadd_reprice (ss : SortedSet) (s1 s2 : Score) (m : String)
    (lvl1 lvl2 : Nat) (hInv : ss.Inv) :
    (((ss.zadd s1 m lvl1).1.zadd s2 m lvl2).1.members.lookup m = some s2) ∧
      ((((ss.zadd s1 m lvl1).1.zadd s2 m lvl2).1.skiplist.pairs.filter
        (fun p => decide (p.2 = m))) = [(s2, m)]) := by
  obtain ⟨hInv1, _, _⟩ := zadd_spec ss s1 m lvl1 hInv
  obtain ⟨_, hm2, hf2⟩ := zadd_spec (ss.zadd s1 m lvl1).1 s2 m lvl2 hInv1
  refine ⟨?_, hf2⟩
  rw [hm2]
  exact dictSet_lookup_eq _ _ _

theorem C7_witness :
    ((((SortedSet.mkEmpty "k").zadd 5 "m" 0).1.zadd 7 "m" 1).1.members.lookup
        "m" = some 7) ∧
      (((((SortedSet.mkEmpty "k").zadd 5 "m" 0).1.zadd 7 "m"
          1).1.skiplist.pairs.filter (fun p => decide (p.2 = "m")))
        = [(7, "m")]) :=
  C7_zadd_reprice (SortedSet.mkEmpty "k") 5 7 "m" 0 1
    (by constructor <;> decide)

/-! ## Unified-store claims -/

/-- C9: `ZREM k m` on an existing sorted set whose member `m` is absent
returns NX (`none`), yet still unlinks the whole sorted-set entry from
the LRU list; the set stays in the sorted-set map with its members (and
the point map) unchanged, and the router answers `(RES_NX, "")`. -/
theorem C9_zrem_nx_unlinks_lru (st : UnifiedStore) (k m : String)
    (ss : SortedSet) (P : String → Option Score) (F : Score → String)
    (lvl : Nat) (hk : st.sorted_sets.lookup k = some ss)
    (hm : ss.members.lookup m = none) :
    (st.process_zrem k m).2 = none ∧
      (st.process_zrem k m).1.lru_list = dllRemove st.lru_list (.zset k) ∧
      (st.process_zrem k m).1.sorted_sets = st.sorted_sets ∧
      (st.process_zrem k m).1.hash_table = st.hash_table ∧
      process_kv_command P F lvl st ["zrem", k, m] =
        .ok ((RES_NX, ""), (st.process_zrem k m).1) := by
  have hz : ss.zrem m = (ss, none) := by
    unfold SortedSet.zrem
    rw [hm]
  have hpz : st.process_zrem k m =
      ({ st with sorted_sets := dictSet st.sorted_sets k ss,
                 lru_list := dllRemove st.lru_list (.zset k) }, none) := by
    unfold UnifiedStore.process_zrem
    rw [hk]
    simp only [hz]
  have hds : dictSet st.sorted_sets k ss = st.sorted_sets :=
    dictSet_lookup_self hk
  have hroute : process_kv_command P F lvl st ["zrem", k, m] =
      (match (st.process_zrem k m).2 with
        | none => .ok ((RES_NX, ""), (st.process_zrem k m).1)
        | some _ => .ok ((RES_OK, "OK"), (st.process_zrem k m).1)) := rfl
  rw [hroute, hpz]
  exact ⟨rfl, rfl, by simp [hds], rfl, rfl⟩

theorem C9_witness :
    (((UnifiedStore.mkEmpty 5).process_zadd "k" 1 "x" 0).1.process_zrem "k" "y").2 = none ∧
      (((UnifiedStore.mkEmpty 5).process_zadd "k" 1 "x" 0).1.process_zrem "k" "y").1.lru_list = dllRemove ((UnifiedStore.mkEmpty 5).process_zadd "k" 1 "x" 0).1.lru_list (.zset "k") ∧
      (((UnifiedStore.mkEmpty 5).process_zadd "k" 1 "x" 0).1.process_zrem "k" "y").1.sorted_sets = ((UnifiedStore.mkEmpty 5).process_zadd "k" 1 "x" 0).1.sorted_sets ∧
      (((UnifiedStore.mkEmpty 5).process_zadd "k" 1 "x" 0).1.process_zrem "k" "y").1.hash_table = ((UnifiedStore.mkEmpty 5).process_zadd "k" 1 "x" 0).1.hash_table ∧
      process_kv_command (fun _ => some 0) (fun _ => "0") 0 ((UnifiedStore.mkEmpty 5).process_zadd "k" 1 "x" 0).1
          ["zrem", "k", "y"] = .ok ((RES_NX, ""), (((UnifiedStore.mkEmpty 5).process_zadd "k" 1 "x" 0).1.process_zrem "k" "y").1) :=
  C9_zrem_nx_unlinks_lru ((UnifiedStore.mkEmpty 5).process_zadd "k" 1 "x" 0).1 "k" "y"
    ((SortedSet.mkEmpty "k").zadd 1 "x" 0).1 (fun _ => some 0) (fun _ => "0")
    0 (by decide) (by decide)

/-- C3 exhibits a crash in the code: with capacity 1, after `ZADD z 1 m`
and `SET a 1`, the next `SET b 2` pops the sorted-set entry `z` from the
LRU tail and executes `del hash_table["z"]`, which raises `KeyError`
("z" lives only in `sorted_sets`).  Nothing is removed from the
sorted-set map.  The claim (and the spec) require the evicted node to be
removed from whichever map owns it, without an error. -/
theorem C3_eviction_keyerror :
    ((((UnifiedStore.mkEmpty 1).process_zadd "z" 1 "m" 0).1.set "a" "1").bind
        (fun st => st.set "b" "2")) = .error .keyError := by decide

/-- C1 is wrong on the code: `process_zadd` performs no capacity check at
all, so two ZADDs to distinct keys on a capacity-1 store leave a
combined size of 2. -/
theorem C1_counterexample :
    ((((UnifiedStore.mkEmpty 1).process_zadd "a" 1 "m" 0).1.process_zadd "b" 1
        "m" 0).1.hash_table.length +
      (((UnifiedStore.mkEmpty 1).process_zadd "a" 1 "m" 0).1.process_zadd "b"
        1 "m" 0).1.sorted_sets.length = 2) ∧
    ((((UnifiedStore.mkEmpty 1).process_zadd "a" 1 "m" 0).1.process_zadd "b" 1
        "m" 0).1.capacity = 1) := by decide

theorem dictDel_sublist {α : Type} (l : List (String × α)) (k : String) :
    List.Sublist (dictDel l k) l := by
  induction l with
  | nil => simp [dictDel]
  | cons p rest ih =>
    by_cases hk : p.1 = k
    · simp only [dictDel, if_pos hk]
      exact List.sublist_cons_self p rest
    · simp only [dictDel, if_neg hk]
      exact ih.cons₂ p

theorem dictSet_append_of_absent {α : Type} {l : List (String × α)}
    {k : String} (v : α) (h : l.lookup k = none) :
    dictSet l k v = l ++ [(k, v)] := by
  induction l with
  | nil => simp [dictSet]
  | cons p rest ih =>
    by_cases hk : p.1 = k
    · rw [List.lookup, beq_iff_eq.mpr hk.symm] at h
      exact absurd h (by simp)
    · have hk' : ¬ k = p.1 := fun he => hk he.symm
      rw [List.lookup, beq_eq_false_iff_ne.mpr hk'] at h
      simp [dictSet, hk, ih h]

/-- Entry view of a dictionary delete: removing the first binding of a
present key is, up to permutation, removing one `val` entry. -/
theorem entries_perm_dictDel {α : Type} {l : List (String × α)} {k : String}
    (h : (l.lookup k).isSome = true) :
    List.Perm (l.map (fun p => LEntry.val p.1))
      (LEntry.val k :: (dictDel l k).map (fun p => LEntry.val p.1)) := by
  induction l with
  | nil => simp [List.lookup] at h
  | cons p rest ih =>
    by_cases hk : p.1 = k
    · simp only [dictDel, if_pos hk, List.map_cons, hk]
      exact List.Perm.refl _
    · have hk' : ¬ k = p.1 := fun he => hk he.symm
      rw [List.lookup, beq_eq_false_iff_ne.mpr hk'] at h
      have h' : (List.lookup k rest).isSome = true := by simpa using h
      simp only [dictDel, if_neg hk, List.map_cons]
      exact ((ih h').cons (LEntry.val p.1)).trans (List.Perm.swap _ _ _)

/-- SET-only executions started on an empty store with capacity ≥ 1. -/
inductive SetOnlyReachable : UnifiedStore → Prop where
  | init (c : Nat) (h : 1 ≤ c) : SetOnlyReachable (UnifiedStore.mkEmpty c)
  | step (st st' : UnifiedStore) (k v : String) : SetOnlyReachable st →
      st.set k v = .ok st' → SetOnlyReachable st'

/-- Inductive invariant of SET-only executions. -/
def setInv (st : UnifiedStore) : Prop :=
  st.sorted_sets = [] ∧ 1 ≤ st.capacity ∧
    st.hash_table.length ≤ st.capacity ∧
    (st.hash_table.map Prod.fst).Nodup ∧
    List.Perm st.lru_list (st.hash_table.map (fun p => LEntry.val p.1))

theorem set_preserves_inv {st st' : UnifiedStore} {k v : String}
    (hInv : setInv st) (h : st.set k v = .ok st') : setInv st' := by
  obtain ⟨hss, hcap, hlen, hnd, hperm⟩ := hInv
  unfold UnifiedStore.set at h
  by_cases hhit : (st.hash_table.lookup k).isSome = true
  · rw [if_pos hhit] at h
    injection h with h
    subst h
    refine ⟨hss, hcap, ?_, ?_, ?_⟩
    · rw [dictSet_length_of_present v hhit]
      exact hlen
    · have := dictSet_keys_of_present (l := st.hash_table) v hhit
      rw [this]
      exact hnd
    · have hkmem : LEntry.val k ∈ st.lru_list := by
        rw [hperm.mem_iff]
        rw [lookup_isSome_iff_mem_keys] at hhit
        obtain ⟨p, hp, hp1⟩ := List.mem_map.mp hhit
        exact List.mem_map.mpr ⟨p, hp, by rw [hp1]⟩
      have h1 : List.Perm st.lru_list
          (LEntry.val k :: st.lru_list.erase (LEntry.val k)) :=
        List.perm_cons_erase hkmem
      have hkeys : (dictSet st.hash_table k v).map (fun p => LEntry.val p.1) =
          st.hash_table.map (fun p => LEntry.val p.1) := by
        have h2 := dictSet_keys_of_present (l := st.hash_table) v hhit
        have e1 : (dictSet st.hash_table k v).map (fun p => LEntry.val p.1) =
            ((dictSet st.hash_table k v).map Prod.fst).map LEntry.val := by
          rw [List.map_map]
          rfl
        have e2 : st.hash_table.map (fun p => LEntry.val p.1) =
            (st.hash_table.map Prod.fst).map LEntry.val := by
          rw [List.map_map]
          rfl
        rw [e1, e2, h2]
      show List.Perm (dllMoveToFront st.lru_list (.val k)) _
      unfold dllMoveToFront dllAddToFront dllRemove
      rw [hkeys]
      exact h1.symm.trans hperm
  · rw [if_neg hhit] at h
    have hnone : st.hash_table.lookup k = none := by
      cases hx : st.hash_table.lookup k
      · rfl
      · rw [hx] at hhit
        exact absurd rfl hhit
    by_cases hful : st.capacity ≤ st.hash_table.length
    · -- eviction path
      rw [if_pos hful] at h
      have hlru_len : st.lru_list.length =
          (st.hash_table.map (fun p => LEntry.val p.1)).length :=
        hperm.length_eq
      have hlru_ne : st.lru_list ≠ [] := by
        intro hnil
        rw [hnil] at hlru_len
        simp at hlru_len
        omega
      obtain ⟨e, he⟩ : ∃ e, st.lru_list.getLast? = some e := by
        cases hx : st.lru_list.getLast?
        · rw [List.getLast?_eq_none_iff] at hx
          exact absurd hx hlru_ne
        · exact ⟨_, rfl⟩
      have hpop : dllPopTail st.lru_list = some (e, st.lru_list.dropLast) := by
        rw [dllPopTail, he]
      rw [hpop] at h
      have hgl : st.lru_list.getLast hlru_ne = e := by
        rw [List.getLast?_eq_getLast _ hlru_ne] at he
        injection he
      have hemem : e ∈ st.lru_list := by
        rw [← hgl]
        exact List.getLast_mem hlru_ne
      obtain ⟨p0, hp0, hp0e⟩ := List.mem_map.mp (hperm.mem_iff.mp hemem)
      have heky : e.key = p0.1 := by rw [← hp0e]; rfl
      have hkel : (st.hash_table.lookup e.key).isSome = true := by
        rw [heky, lookup_isSome_iff_mem_keys]
        exact List.mem_map_of_mem Prod.fst hp0
      simp only [hkel, eq_self_iff_true, if_true] at h
      injection h with h
      subst h
      have hdel_len := dictDel_length_of_present hkel
      have hdel_absent : (dictDel st.hash_table e.key).lookup k = none :=
        dictDel_lookup_of_absent hnone
      refine ⟨hss, hcap, ?_, ?_, ?_⟩
      · show (dictSet (dictDel st.hash_table e.key) k v).length ≤ st.capacity
        rw [dictSet_length_of_absent v hdel_absent]
        omega
      · rw [dictSet_keys_of_absent v hdel_absent, List.nodup_append]
        refine ⟨hnd.sublist ((dictDel_sublist _ _).map Prod.fst),
          List.nodup_singleton k, ?_⟩
        intro a ha hb
        rcases List.mem_singleton.mp hb with rfl
        have : a ∈ st.hash_table.map Prod.fst :=
          ((dictDel_sublist st.hash_table e.key).map Prod.fst).mem ha
        rw [← lookup_isSome_iff_mem_keys, hnone] at this
        cases this
      · -- the permutation after eviction and insertion
        have hlast : st.lru_list.dropLast ++ [e] = st.lru_list := by
          conv_rhs => rw [← List.dropLast_append_getLast hlru_ne]
          rw [hgl]
        have hsplit : List.Perm st.lru_list (e :: st.lru_list.dropLast) := by
          have h2 : List.Perm (st.lru_list.dropLast ++ [e])
              (e :: st.lru_list.dropLast) :=
            List.perm_append_singleton _ _
          rw [hlast] at h2
          exact h2
        have hee : LEntry.val e.key = e := by
          rw [heky]
          exact hp0e
        have hdperm := entries_perm_dictDel hkel
        rw [hee] at hdperm
        have htail : List.Perm st.lru_list.dropLast
            ((dictDel st.hash_table e.key).map (fun p => LEntry.val p.1)) :=
          ((hsplit.symm.trans hperm).trans hdperm).cons_inv
        show List.Perm (dllAddToFront st.lru_list.dropLast (.val k)) _
        unfold dllAddToFront
        rw [dictSet_append_of_absent v hdel_absent, List.map_append]
        exact (htail.cons _).trans (List.perm_append_singleton _ _).symm
    · -- no eviction
      rw [if_neg hful] at h
      injection h with h
      subst h
      refine ⟨hss, hcap, ?_, ?_, ?_⟩
      · show (dictSet st.hash_table k v).length ≤ st.capacity
        rw [dictSet_length_of_absent v hnone]
        omega
      · rw [dictSet_keys_of_absent v hnone, List.nodup_append]
        refine ⟨hnd, List.nodup_singleton k, ?_⟩
        intro a ha hb
        rcases List.mem_singleton.mp hb with rfl
        rw [← lookup_isSome_iff_mem_keys, hnone] at ha
        cases ha
      · show List.Perm (dllAddToFront st.lru_list (.val k)) _
        unfold dllAddToFront
        rw [dictSet_append_of_absent v hnone, List.map_append]
        exact (hperm.cons _).trans (List.perm_append_singleton _ _).symm

theorem setOnlyReachable_inv {st : UnifiedStore}
    (h : SetOnlyReachable st) : setInv st := by
  induction h with
  | init c hc =>
    exact ⟨rfl, hc, by simp [UnifiedStore.mkEmpty],
      by simp [UnifiedStore.mkEmpty], by simp [UnifiedStore.mkEmpty]⟩
  | step st st' k v hreach hset ih => exact set_preserves_inv ih hset

/-- C1 amended: `ZADD` never evicts (see `C1_counterexample`), and the
`SET` capacity check compares only the value map against C; what does
hold is that on SET-only executions from an empty store with `C ≥ 1` the
combined size of both maps stays bounded by C after every completed
operation. -/
theorem C1_amended_set_only_bound (st : UnifiedStore)
    (h : SetOnlyReachable st) :
    st.hash_table.length + st.sorted_sets.length ≤ st.capacity := by
  obtain ⟨hss, _, hlen, _, _⟩ := setOnlyReachable_inv h
  rw [hss]
  simpa using hlen

theorem C1_amended_witness :
    (⟨1, [("a", "1")], [], [LEntry.val "a"]⟩ : UnifiedStore).hash_table.length
        + (⟨1, [("a", "1")], [], [LEntry.val "a"]⟩ :
          UnifiedStore).sorted_sets.length ≤
      (⟨1, [("a", "1")], [], [LEntry.val "a"]⟩ : UnifiedStore).capacity :=
  C1_amended_set_only_bound _
    (SetOnlyReachable.step (UnifiedStore.mkEmpty 1) _ "a" "1"
      (SetOnlyReachable.init 1 (by decide)) (by decide))

/-! ## Frame-decoder claims -/

/-- C2 is wrong on the code: a complete frame whose argument is not valid
UTF-8, and a frame declaring NArgs = 1025, are both reported as `(None, 0)`
— the same value as a merely incomplete frame; no `ProtocolError` exists
in the code, and `process_read` returns `True` (connection stays open)
with the bytes still buffered. -/
theorem C2_counterexample :
    parse_kv_request [0, 0, 0, 1, 0, 0, 0, 1, 255] = none ∧
      parse_kv_request [0, 0, 4, 1] = none ∧
      Connection.process_read ⟨[], []⟩ (fun _ => none) (fun _ => "") 0
        (UnifiedStore.mkEmpty 1) [0, 0, 0, 1, 0, 0, 0, 1, 255] =
        .ok (⟨[0, 0, 0, 1, 0, 0, 0, 1, 255], []⟩, UnifiedStore.mkEmpty 1,
          true) := by decide

theorem utf8DecodeF_replicate_a (fuel n : Nat) (h : n ≤ fuel) :
    utf8DecodeF fuel (List.replicate n 97) = some (List.replicate n 97) := by
  induction fuel generalizing n with
  | zero =>
    have hn : n = 0 := Nat.le_zero.mp h
    subst hn; rfl
  | succ fuel ih =>
    cases n with
    | zero => rfl
    | succ m =>
      rw [List.replicate_succ]
      have hstep : utf8DecodeF (fuel+1) (97 :: List.replicate m 97) =
          (utf8DecodeF fuel (List.replicate m 97)).map ((97 : Nat) :: ·) := by
        simp [utf8DecodeF, utf8Step]
      rw [hstep, ih m (Nat.le_of_succ_le_succ h)]
      rfl

theorem utf8Decode_replicate_a (n : Nat) :
    utf8Decode (List.replicate n 97) = some (List.replicate n 97) := by
  rw [utf8Decode, List.length_replicate]
  exact utf8DecodeF_replicate_a n n (Nat.le_refl n)

theorem readU32_be32 (n : Nat) (rest : List Nat) (h : n < 4294967296) :
    readU32 (be32 n ++ rest) = n := by
  show ((n / 2^24 % 256 * 256 + n / 2^16 % 256) * 256 + n / 2^8 % 256) * 256
      + n % 256 = n
  omega

/-- C2 amended: the decoder treats NArgs > 1024 and invalid UTF-8 as
"incomplete" (`none`, Python `(None, 0)`), never as an error, and
`process_read` keeps every connection that delivered data open; moreover
ArgLen is not bounded at all — a complete frame with an argument of any
length `n` (in particular `n > 4096`) parses successfully. -/
theorem C2_amended_no_protocol_error (b0 b1 b2 b3 n : Nat)
    (rest data : List Nat) (conn : ConnState) (P : String → Option Score)
    (F : Score → String) (lvl : Nat) (st : UnifiedStore)
    (hn : 1024 < ((b0 * 256 + b1) * 256 + b2) * 256 + b3)
    (hd : data ≠ []) (hbig : 4096 < n) (h32 : n < 4294967296) :
    parse_kv_request (b0 :: b1 :: b2 :: b3 :: rest) = none ∧
      (∀ c' st' keep, Connection.process_read conn P F lvl st data =
        .ok (c', st', keep) → keep = true) ∧
      parse_kv_request ([0, 0, 0, 1] ++ be32 n ++ List.replicate n 97) =
        some ([⟨List.replicate n (Char.ofNat 97)⟩], 4 + (4 + n)) := by
  refine ⟨?_, ?_, ?_⟩
  · unfold parse_kv_request
    have hlen : ¬ (b0 :: b1 :: b2 :: b3 :: rest).length < 4 := by
      simp
    rw [if_neg hlen]
    show (if 1024 < ((b0 * 256 + b1) * 256 + b2) * 256 + b3 then none
      else parseArgsLoop (((b0 * 256 + b1) * 256 + b2) * 256 + b3)
        (b0 :: b1 :: b2 :: b3 :: rest) 4 []) = none
    rw [if_pos hn]
  · intro c' st' keep hok
    unfold Connection.process_read at hok
    rw [if_neg hd] at hok
    cases hpl : processLoop P F lvl ((conn.recvBuffer ++ data).length + 1)
        (conn.recvBuffer ++ data) conn.sendBuffer st with
    | error e =>
      simp only [hpl] at hok
      cases hok
    | ok r =>
      obtain ⟨buf', send', st''⟩ := r
      simp only [hpl] at hok
      injection hok with hok
      have := congrArg (fun x => x.2.2) hok
      exact this.symm
  · have hblen : (be32 n).length = 4 := rfl
    have hlen : ([0, 0, 0, 1] ++ be32 n ++ List.replicate n 97).length =
        8 + n := by
      simp [hblen]
      omega
    unfold parse_kv_request
    rw [if_neg (by rw [hlen]; omega)]
    have hread1 : readU32 ([0, 0, 0, 1] ++ be32 n ++ List.replicate n 97)
        = 1 := by
      show readU32 (0 :: 0 :: 0 :: 1 :: (be32 n ++ List.replicate n 97)) = 1
      rfl
    rw [hread1]
    rw [if_neg (by unfold MAX_ARGS; omega)]
    unfold parseArgsLoop
    rw [if_neg (by rw [hlen]; omega)]
    have hdrop4 : ([0, 0, 0, 1] ++ be32 n ++ List.replicate n 97).drop 4 =
        be32 n ++ List.replicate n 97 := by
      show (0 :: 0 :: 0 :: 1 :: (be32 n ++ List.replicate n 97)).drop 4 = _
      rfl
    rw [hdrop4, readU32_be32 n _ h32]
    rw [if_neg (by rw [hlen]; omega)]
    have hdrop8 : ([0, 0, 0, 1] ++ be32 n ++ List.replicate n 97).drop (4+4)
        = List.replicate n 97 := by
      show (0 :: 0 :: 0 :: 1 :: (be32 n ++ List.replicate n 97)).drop (4+4)
        = _
      have : (be32 n ++ List.replicate n 97).drop 4 = List.replicate n 97 := by
        rw [show be32 n = [n / 2^24 % 256, n / 2^16 % 256, n / 2^8 % 256,
          n % 256] from rfl]
        rfl
      simpa using this
    rw [hdrop8, List.take_replicate, Nat.min_self]
    have hdec : utf8DecodeStr (List.replicate n 97) =
        some ⟨List.replicate n (Char.ofNat 97)⟩ := by
      rw [utf8DecodeStr, utf8Decode_replicate_a, Option.map_some',
        List.map_replicate]
    rw [hdec]
    unfold parseArgsLoop
    simp only [List.reverse_cons, List.reverse_nil, List.nil_append,
      Option.some.injEq, Prod.mk.injEq, true_and]
    omega

theorem C2_amended_witness :
    parse_kv_request (0 :: 0 :: 4 :: 1 :: []) = none ∧
      (∀ c' st' keep, Connection.process_read ⟨[], []⟩ (fun _ => none)
        (fun _ => "") 0 (UnifiedStore.mkEmpty 1) [0] =
          .ok (c', st', keep) → keep = true) ∧
      parse_kv_request ([0, 0, 0, 1] ++ be32 4097 ++
        List.replicate 4097 97) =
        some ([⟨List.replicate 4097 (Char.ofNat 97)⟩], 4 + (4 + 4097)) :=
  C2_amended_no_protocol_error 0 0 4 1 4097 [] [0] ⟨[], []⟩ (fun _ => none)
    (fun _ => "") 0 (UnifiedStore.mkEmpty 1) (by omega) (by decide)
    (by omega) (by omega)

/-! ## C8: the ZRANGE route of the command router -/

theorem keyLe_keyLeb {a b : SLNode} (h : keyLe a b) :
    keyLeb a.score a.member b.score b.member = true := by
  rw [keyLeb_eq_not_keyLtb]
  cases h with
  | inl hlt => rw [keyLtb_asymm hlt]; rfl
  | inr heq => rw [← heq.1, ← heq.2, keyLtb_irrefl]; rfl

theorem range_query_chain (sl : SkipList) (lo hi : Score)
    (hsort : sl.nodes.Pairwise keyLe) :
    List.Chain' (fun p q : Score × String => keyLeb p.1 p.2 q.1 q.2 = true)
      (sl.range_query lo hi) := by
  apply List.Pairwise.chain'
  unfold SkipList.range_query
  rw [List.pairwise_map]
  refine List.Pairwise.imp (fun h => keyLe_keyLeb h) ?_
  exact hsort.sublist
    ((List.takeWhile_sublist _).trans (List.dropWhile_sublist _))

theorem process_zrange_chain (st : UnifiedStore) (k : String) (a b : Score)
    (hsorted : (st.sorted_sets.lookup k).all
      (fun ss => decide (ss.skiplist.nodes.Pairwise keyLe)) = true) :
    List.Chain' (fun p q : Score × String => keyLeb p.1 p.2 q.1 q.2 = true)
      (st.process_zrange k a b).2 := by
  unfold UnifiedStore.process_zrange
  cases hlk : st.sorted_sets.lookup k with
  | none => exact List.chain'_nil
  | some ss =>
    rw [hlk] at hsorted
    have hs : ss.skiplist.nodes.Pairwise keyLe :=
      of_decide_eq_true (by simpa [Option.all] using hsorted)
    exact range_query_chain ss.skiplist a b hs

/-- C8: on a `ZRANGE k lo hi` request whose bounds parse as numbers, the
router returns `(NX, "")` exactly when the range result is empty, and
otherwise `(OK, payload)` where the payload joins each result pair as
`"<score>:<member>"` with `","` separators; the result pairs are in
ascending `(score, member)` order whenever the sorted set at `k` is
sorted; and when either bound fails to parse the router returns the ERR
status with the score-error message, leaving the store untouched. -/
theorem C8_zrange_router (P : String → Option Score) (F : Score → String)
    (lvl : Nat) (st : UnifiedStore) (k lo hi bad1 bad2 : String)
    (a b : Score) (hlo : P lo = some a) (hhi : P hi = some b)
    (hbad : P bad1 = none ∨ P bad2 = none)
    (hsorted : (st.sorted_sets.lookup k).all
      (fun ss => decide (ss.skiplist.nodes.Pairwise keyLe)) = true) :
    ((st.process_zrange k a b).2 = [] →
      process_kv_command P F lvl st ["zrange", k, lo, hi] =
        .ok ((RES_NX, ""), (st.process_zrange k a b).1)) ∧
    ((st.process_zrange k a b).2 ≠ [] →
      process_kv_command P F lvl st ["zrange", k, lo, hi] =
        .ok ((RES_OK, String.intercalate ","
            ((st.process_zrange k a b).2.map
              (fun p => F p.1 ++ ":" ++ p.2))),
          (st.process_zrange k a b).1)) ∧
    List.Chain' (fun p q : Score × String => keyLeb p.1 p.2 q.1 q.2 = true)
      (st.process_zrange k a b).2 ∧
    process_kv_command P F lvl st ["zrange", k, bad1, bad2] =
      .ok ((RES_ERR, "ERR score must be a number"), st) := by
  have hroute : process_kv_command P F lvl st ["zrange", k, lo, hi] =
      (match P lo, P hi with
        | some x, some y =>
          if (st.process_zrange k x y).2 = [] then
            .ok ((RES_NX, ""), (st.process_zrange k x y).1)
          else
            .ok ((RES_OK, String.intercalate ","
                ((st.process_zrange k x y).2.map
                  (fun p => F p.1 ++ ":" ++ p.2))),
              (st.process_zrange k x y).1)
        | _, _ => .ok ((RES_ERR, "ERR score must be a number"), st)) := rfl
  have hroute2 : process_kv_command P F lvl st ["zrange", k, bad1, bad2] =
      (match P bad1, P bad2 with
        | some x, some y =>
          if (st.process_zrange k x y).2 = [] then
            .ok ((RES_NX, ""), (st.process_zrange k x y).1)
          else
            .ok ((RES_OK, String.intercalate ","
                ((st.process_zrange k x y).2.map
                  (fun p => F p.1 ++ ":" ++ p.2))),
              (st.process_zrange k x y).1)
        | _, _ => .ok ((RES_ERR, "ERR score must be a number"), st)) := rfl
  refine ⟨?_, ?_, process_zrange_chain st k a b hsorted, ?_⟩
  · intro hr
    rw [hroute, hlo, hhi]
    simp only [hr, if_pos]
  · intro hr
    rw [hroute, hlo, hhi]
    simp only [if_neg hr]
  · rw [hroute2]
    cases h1 : P bad1 with
    | none => rfl
    | some x =>
      cases h2 : P bad2 with
      | none => rfl
      | some y =>
        rcases hbad with hb | hb
        · rw [h1] at hb; cases hb
        · rw [h2] at hb; cases hb

def zrDemoStore : UnifiedStore :=
  (((UnifiedStore.mkEmpty 5).process_zadd "z" 1 "a" 0).1.process_zadd
    "z" 2 "b" 0).1

def zrDemoP (s : String) : Option Score :=
  if s = "1" then some 1 else if s = "2" then some 2 else none

def zrDemoF (q : Score) : String := if q = 1 then "1" else "2"

theorem C8_witness :
    process_kv_command zrDemoP zrDemoF 0 zrDemoStore
        ["zrange", "z", "1", "2"] =
      .ok ((RES_OK, String.intercalate ","
          ((zrDemoStore.process_zrange "z" 1 2).2.map
            (fun p => zrDemoF p.1 ++ ":" ++ p.2))),
        (zrDemoStore.process_zrange "z" 1 2).1) ∧
    List.Chain' (fun p q : Score × String => keyLeb p.1 p.2 q.1 q.2 = true)
      (zrDemoStore.process_zrange "z" 1 2).2 ∧
    process_kv_command zrDemoP zrDemoF 0 zrDemoStore
        ["zrange", "z", "x", "2"] =
      .ok ((RES_ERR, "ERR score must be a number"), zrDemoStore) := by
  have h := C8_zrange_router zrDemoP zrDemoF 0 zrDemoStore "z" "1" "2" "x"
    "2" 1 2 (by decide) (by decide) (Or.inl (by decide)) (by decide)
  exact ⟨h.2.1 (by decide), h.2.2.1, h.2.2.2⟩

/-! ## Skip-list span bookkeeping: the well-formedness invariant

`trueSpan` is the geometrically correct value of `span[i]` at a position:
the positional distance to the next level-`i` node; at the end of a level
the source leaves `0` on level 0 and `length + 1 - position` on the
higher levels. -/

/-- The true span value at `(level i, position p)`. -/
def trueSpan (ns : List SLNode) (i p : Nat) : Int :=
  match fwdPos ns i p with
  | some q => (q : Int) - (p : Int)
  | none => if i = 0 then 0 else ((ns.length : Int) + 1) - (p : Int)

/-- Boolean form of `posOnLevel`. -/
def posOnLevelB (ns : List SLNode) (i p : Nat) : Bool :=
  p == 0 || (match ns[p-1]? with
             | some n => decide (i ≤ n.lvl)
             | none => false)

theorem posOnLevelB_iff {ns : List SLNode} {i p : Nat} :
    posOnLevelB ns i p = true ↔ posOnLevel ns i p := by
  unfold posOnLevelB posOnLevel
  cases h : ns[p-1]? with
  | none => simp [h]
  | some n => simp [h]

instance (ns : List SLNode) (i p : Nat) : Decidable (posOnLevel ns i p) :=
  decidable_of_iff _ posOnLevelB_iff

theorem posOnLevel_le_length {ns : List SLNode} {i p : Nat}
    (h : posOnLevel ns i p) : p ≤ ns.length := by
  rcases h with h | ⟨n, hn, _⟩
  · omega
  · have := (List.getElem?_eq_some.mp hn).1
    omega

/-- `span[i] := v` at position `p` actually lands. -/
def SkipList.canWrite (sl : SkipList) (p i : Nat) : Prop :=
  if p = 0 then i < sl.headerSpan.length
  else ∃ n, sl.nodes[p-1]? = some n ∧ i < n.span.length

/-- Well-formedness of a skip list: the stored length and level are
consistent, span arrays have their declared sizes, the nodes are sorted,
and every span on a live level holds its true value. -/
def SkipList.WF (sl : SkipList) : Prop :=
  sl.length = sl.nodes.length ∧
  sl.headerSpan.length = maxLevel + 1 ∧
  sl.level ≤ maxLevel ∧
  (∀ n ∈ sl.nodes, n.lvl ≤ sl.level ∧ n.span.length = n.lvl + 1) ∧
  sl.nodes.Pairwise keyLe ∧
  (∀ i, i < sl.level + 1 → ∀ p, p < sl.nodes.length + 1 →
    posOnLevel sl.nodes i p → sl.spanAt i p = trueSpan sl.nodes i p)

instance (sl : SkipList) : Decidable sl.WF := by
  unfold SkipList.WF
  infer_instance

/-! ### Characterisation of `fwdPos` and index shift lemmas -/

theorem fwdPos_eq_some_iff {ns : List SLNode} {i p q : Nat} :
    fwdPos ns i p = some q ↔
      (p < q ∧ q ≤ ns.length ∧ (∃ n, ns[q-1]? = some n ∧ i ≤ n.lvl) ∧
        ∀ r, p < r → r < q → ∀ m, ns[r-1]? = some m → m.lvl < i) := by
  constructor
  · exact fwdPos_spec
  · rintro ⟨hpq, hqlen, ⟨n, hn, hnl⟩, hmin⟩
    obtain ⟨q', hq', hq'le⟩ := fwdPos_first hn hnl hpq
    obtain ⟨hpq', _, ⟨m, hm, hml⟩, _⟩ := fwdPos_spec hq'
    rcases Nat.lt_or_ge q' q with hlt | hge
    · exact absurd hml (Nat.not_le.mpr (hmin q' hpq' hlt m hm))
    · have heq : q' = q := Nat.le_antisymm hq'le hge
      rw [heq] at hq'
      exact hq'

theorem getIdx_insertIdx {α : Type} (l : List α) (c : Nat) (a : α)
    (hc : c ≤ l.length) (j : Nat) :
    (l.insertIdx c a)[j]? =
      if j < c then l[j]? else if j = c then some a else l[j-1]? := by
  rw [insertIdx_eq_take_drop l c a hc]
  have htl : (l.take c).length = c := by simp [Nat.min_eq_left hc]
  rw [List.getElem?_append, htl]
  by_cases h1 : j < c
  · rw [if_pos h1, if_pos h1]
    exact List.getElem?_take_of_lt h1
  · rw [if_neg h1, if_neg h1]
    by_cases h2 : j = c
    · rw [if_pos h2, h2]
      simp
    · rw [if_neg h2]
      have hj : j - c = (j - c - 1) + 1 := by omega
      rw [hj]
      simp only [List.getElem?_cons_succ]
      rw [List.getElem?_drop]
      congr 1
      omega

theorem posOnLevel_insertIdx {ns : List SLNode} {c : Nat} {a : SLNode}
    (hc : c ≤ ns.length) (i p : Nat) :
    posOnLevel (ns.insertIdx c a) i p ↔
      (if p ≤ c then posOnLevel ns i p
       else if p = c + 1 then i ≤ a.lvl
       else posOnLevel ns i (p-1)) := by
  by_cases hp0 : p = 0
  · subst hp0
    simp [posOnLevel_zero, Nat.zero_le c]
  by_cases h1 : p ≤ c
  · rw [if_pos h1]
    unfold posOnLevel
    have : (ns.insertIdx c a)[p-1]? = ns[p-1]? := by
      rw [getIdx_insertIdx ns c a hc, if_pos (by omega)]
    rw [this]
  · rw [if_neg h1]
    by_cases h2 : p = c + 1
    · rw [if_pos h2]
      unfold posOnLevel
      have : (ns.insertIdx c a)[p-1]? = some a := by
        rw [getIdx_insertIdx ns c a hc, if_neg (by omega), if_pos (by omega)]
      rw [this]
      constructor
      · rintro (h | ⟨n, hn, hl⟩)
        · omega
        · cases hn; exact hl
      · intro h; exact Or.inr ⟨a, rfl, h⟩
    · rw [if_neg h2]
      unfold posOnLevel
      have hthis : (ns.insertIdx c a)[p-1]? = ns[p-2]? := by
        rw [getIdx_insertIdx ns c a hc, if_neg (by omega), if_neg (by omega),
          (by omega : p - 1 - 1 = p - 2)]
      have hpp : p - 1 - 1 = p - 2 := by omega
      rw [hthis, hpp]
      constructor
      · rintro (h | h)
        · omega
        · exact Or.inr h
      · rintro (h | h)
        · omega
        · exact Or.inr h

theorem posOnLevel_eraseIdx {ns : List SLNode} {c : Nat} (i p : Nat) :
    posOnLevel (ns.eraseIdx c) i p ↔
      (if p ≤ c then posOnLevel ns i p else posOnLevel ns i (p+1)) := by
  by_cases hp0 : p = 0
  · subst hp0
    simp [posOnLevel_zero, Nat.zero_le c]
  by_cases h1 : p ≤ c
  · rw [if_pos h1]
    unfold posOnLevel
    rw [List.getElem?_eraseIdx_of_lt ns c (p-1) (by omega)]
  · rw [if_neg h1]
    unfold posOnLevel
    rw [List.getElem?_eraseIdx_of_ge ns c (p-1) (by omega)]
    rw [show p - 1 + 1 = p + 1 - 1 by omega]
    constructor
    · rintro (h | h)
      · omega
      · exact Or.inr h
    · rintro (h | h)
      · omega
      · exact Or.inr h

/-! ### Congruence: `fwdPos`, `posOnLevel` and `trueSpan` only read node
signatures -/

theorem fwdSearch_congr (i : Nat) : ∀ {ns ms : List SLNode},
    ns.map nodeSig = ms.map nodeSig → fwdSearch i ns = fwdSearch i ms
  | [], [], _ => rfl
  | n :: ns, m :: ms, h => by
    simp only [List.map_cons, List.cons.injEq] at h
    have hl : n.lvl = m.lvl := congrArg (fun x => x.2.2) h.1
    unfold fwdSearch
    rw [hl, fwdSearch_congr i h.2]

theorem fwdPos_congr {ns ms : List SLNode}
    (h : ns.map nodeSig = ms.map nodeSig) (i p : Nat) :
    fwdPos ns i p = fwdPos ms i p := by
  unfold fwdPos
  have hd : (ns.drop p).map nodeSig = (ms.drop p).map nodeSig := by
    rw [List.map_drop, List.map_drop, h]
  rw [fwdSearch_congr i hd]

theorem posOnLevel_congr {ns ms : List SLNode}
    (h : ns.map nodeSig = ms.map nodeSig) (i p : Nat) :
    posOnLevel ns i p ↔ posOnLevel ms i p := by
  unfold posOnLevel
  have hidx : ∀ j : Nat, Option.map nodeSig ns[j]? = Option.map nodeSig ms[j]? := by
    intro j
    have h1 : (ns.map nodeSig)[j]? = (ms.map nodeSig)[j]? := by rw [h]
    rwa [List.getElem?_map, List.getElem?_map] at h1
  constructor
  · rintro (h0 | ⟨n, hn, hl⟩)
    · exact Or.inl h0
    · have := hidx (p-1)
      rw [hn] at this
      cases hm : ms[p-1]? with
      | none => rw [hm] at this; cases this
      | some m =>
        rw [hm] at this
        have hlv : n.lvl = m.lvl := by
          have := congrArg (fun o => (o.map (fun x => x.2.2)).getD 0) this
          simpa [nodeSig] using this
        exact Or.inr ⟨m, rfl, hlv ▸ hl⟩
  · rintro (h0 | ⟨m, hm, hl⟩)
    · exact Or.inl h0
    · have := hidx (p-1)
      rw [hm] at this
      cases hn : ns[p-1]? with
      | none => rw [hn] at this; cases this
      | some n =>
        rw [hn] at this
        have hlv : n.lvl = m.lvl := by
          have := congrArg (fun o => (o.map (fun x => x.2.2)).getD 0) this
          simpa [nodeSig] using this
        exact Or.inr ⟨n, rfl, by rw [hlv]; exact hl⟩

theorem trueSpan_congr {ns ms : List SLNode}
    (h : ns.map nodeSig = ms.map nodeSig) (i p : Nat) :
    trueSpan ns i p = trueSpan ms i p := by
  unfold trueSpan
  rw [fwdPos_congr h i p,
    show ns.length = ms.length by
      rw [← List.length_map ns nodeSig, ← List.length_map ms nodeSig, h]]

/-! ### Reading and writing single spans -/

theorem spanAt_zero (sl : SkipList) (i : Nat) :
    sl.spanAt i 0 = sl.headerSpan.getD i 0 := by
  simp [SkipList.spanAt]

theorem spanAt_pos (sl : SkipList) (i p : Nat) (hp : p ≠ 0) :
    sl.spanAt i p =
      (match sl.nodes[p-1]? with
       | some n => n.span.getD i 0
       | none => 0) := by
  simp [SkipList.spanAt, hp]

theorem spanAt_setSpanAt_same (sl : SkipList) (p i : Nat) (v : Int)
    (h : sl.canWrite p i) :
    (sl.setSpanAt p i v).spanAt i p = v := by
  unfold SkipList.canWrite at h
  by_cases hp : p = 0
  · subst hp
    rw [if_pos rfl] at h
    have hset : sl.setSpanAt 0 i v =
        { sl with headerSpan := sl.headerSpan.set i v } := by
      unfold SkipList.setSpanAt
      rw [if_pos rfl]
    rw [hset, spanAt_zero]
    show (sl.headerSpan.set i v).getD i 0 = v
    rw [List.getD_eq_getElem?_getD, List.getElem?_set_eq h]
    rfl
  · rw [if_neg hp] at h
    obtain ⟨n, hn, hv⟩ := h
    have hset : sl.setSpanAt p i v =
        { sl with nodes :=
            sl.nodes.set (p-1) { n with span := n.span.set i v } } := by
      unfold SkipList.setSpanAt
      rw [if_neg hp, hn]
    rw [hset, spanAt_pos _ _ _ hp]
    show (match (sl.nodes.set (p-1)
        { n with span := n.span.set i v })[p-1]? with
      | some m => m.span.getD i 0
      | none => 0) = v
    have hplen : p - 1 < sl.nodes.length := (List.getElem?_eq_some.mp hn).1
    rw [List.getElem?_set_eq hplen]
    show (n.span.set i v).getD i 0 = v
    rw [List.getD_eq_getElem?_getD, List.getElem?_set_eq hv]
    rfl

theorem spanAt_setSpanAt_other (sl : SkipList) {p q i j : Nat} (v : Int)
    (h : i ≠ j ∨ p ≠ q) :
    (sl.setSpanAt q j v).spanAt i p = sl.spanAt i p := by
  by_cases hq : q = 0
  · subst hq
    have hset : sl.setSpanAt 0 j v =
        { sl with headerSpan := sl.headerSpan.set j v } := by
      unfold SkipList.setSpanAt
      rw [if_pos rfl]
    rw [hset]
    by_cases hp : p = 0
    · subst hp
      rw [spanAt_zero, spanAt_zero]
      have hij : i ≠ j := by tauto
      show (sl.headerSpan.set j v).getD i 0 = sl.headerSpan.getD i 0
      rw [List.getD_eq_getElem?_getD, List.getElem?_set_ne (Ne.symm hij),
        ← List.getD_eq_getElem?_getD]
    · rw [spanAt_pos _ _ _ hp, spanAt_pos _ _ _ hp]
  · cases hn : sl.nodes[q-1]? with
    | none =>
      have hset : sl.setSpanAt q j v = sl := by
        unfold SkipList.setSpanAt
        rw [if_neg hq, hn]
      rw [hset]
    | some n =>
      have hset : sl.setSpanAt q j v =
          { sl with nodes :=
              sl.nodes.set (q-1) { n with span := n.span.set j v } } := by
        unfold SkipList.setSpanAt
        rw [if_neg hq, hn]
      rw [hset]
      by_cases hp : p = 0
      · subst hp
        rw [spanAt_zero, spanAt_zero]
      · rw [spanAt_pos _ _ _ hp, spanAt_pos _ _ _ hp]
        by_cases hpq : p = q
        · subst hpq
          have hij : i ≠ j := by tauto
          have hplen : p - 1 < sl.nodes.length :=
            (List.getElem?_eq_some.mp hn).1
          rw [List.getElem?_set_eq hplen, hn]
          show (n.span.set j v).getD i 0 = n.span.getD i 0
          rw [List.getD_eq_getElem?_getD, List.getElem?_set_ne (Ne.symm hij),
            ← List.getD_eq_getElem?_getD]
        · have hne : q - 1 ≠ p - 1 := by omega
          rw [List.getElem?_set_ne hne]

theorem setSpanAt_headerSpan_length (sl : SkipList) (p i : Nat) (v : Int) :
    (sl.setSpanAt p i v).headerSpan.length = sl.headerSpan.length := by
  unfold SkipList.setSpanAt
  by_cases hp : p = 0
  · simp [hp]
  · simp only [if_neg hp]

theorem setSpanAt_span_shape (sl : SkipList) (p i : Nat) (v : Int) :
    (sl.setSpanAt p i v).nodes.map (fun n => n.span.length) =
      sl.nodes.map (fun n => n.span.length) := by
  unfold SkipList.setSpanAt
  by_cases hp : p = 0
  · simp [hp]
  · simp only [if_neg hp]
    cases hn : sl.nodes[p-1]? with
    | none => rfl
    | some n =>
      simp only []
      exact map_set_congr _ _ _ _ (fun x hx => by
        rw [hn] at hx
        cases hx
        simp)

/-! ### `fwdPos` across a splice and an erasure -/

theorem fwdPos_insertIdx_le {ns : List SLNode} {c : Nat} {a : SLNode}
    (hc : c ≤ ns.length) {p : Nat} (hp : p ≤ c) (i : Nat) :
    fwdPos (ns.insertIdx c a) i p =
      match fwdPos ns i p with
      | some q =>
        if q ≤ c then some q
        else if i ≤ a.lvl then some (c+1) else some (q+1)
      | none => if i ≤ a.lvl then some (c+1) else none := by
  have hlen : (ns.insertIdx c a).length = ns.length + 1 :=
    List.length_insertIdx c ns hc
  have gI := getIdx_insertIdx ns c a hc
  cases hfp : fwdPos ns i p with
  | some q =>
    obtain ⟨hpq, hqlen, ⟨n, hn, hnl⟩, hmin⟩ := fwdPos_spec hfp
    show fwdPos (ns.insertIdx c a) i p =
      if q ≤ c then some q
      else if i ≤ a.lvl then some (c+1) else some (q+1)
    by_cases h1 : q ≤ c
    · rw [if_pos h1]
      refine fwdPos_eq_some_iff.mpr ⟨hpq, by omega, ⟨n, ?_, hnl⟩, ?_⟩
      · rw [gI (q-1), if_pos (by omega)]
        exact hn
      · intro r hpr hrq m hm
        rw [gI (r-1), if_pos (by omega)] at hm
        exact hmin r hpr hrq m hm
    · rw [if_neg h1]
      by_cases h2 : i ≤ a.lvl
      · rw [if_pos h2]
        refine fwdPos_eq_some_iff.mpr ⟨by omega, by omega, ⟨a, ?_, h2⟩, ?_⟩
        · rw [show c + 1 - 1 = c by omega, gI c, if_neg (by omega),
            if_pos rfl]
        · intro r hpr hrq m hm
          rw [gI (r-1), if_pos (by omega)] at hm
          exact hmin r hpr (by omega) m hm
      · rw [if_neg h2]
        refine fwdPos_eq_some_iff.mpr ⟨by omega, by omega, ⟨n, ?_, hnl⟩, ?_⟩
        · rw [show q + 1 - 1 = q by omega, gI q, if_neg (by omega),
            if_neg (by omega)]
          exact hn
        · intro r hpr hrq m hm
          by_cases hr1 : r - 1 < c
          · rw [gI (r-1), if_pos hr1] at hm
            exact hmin r hpr (by omega) m hm
          · by_cases hr2 : r - 1 = c
            · rw [gI (r-1), if_neg (by omega), if_pos hr2] at hm
              cases hm
              omega
            · rw [gI (r-1), if_neg (by omega), if_neg hr2,
                (by omega : r - 1 - 1 = r - 2)] at hm
              have := hmin (r-1) (by omega) (by omega) m
                (by rw [(by omega : r - 1 - 1 = r - 2)]; exact hm)
              exact this
  | none =>
    show fwdPos (ns.insertIdx c a) i p =
      if i ≤ a.lvl then some (c+1) else none
    have hall := fwdPos_none_iff.mp hfp
    by_cases h2 : i ≤ a.lvl
    · rw [if_pos h2]
      refine fwdPos_eq_some_iff.mpr ⟨by omega, by omega, ⟨a, ?_, h2⟩, ?_⟩
      · rw [show c + 1 - 1 = c by omega, gI c, if_neg (by omega), if_pos rfl]
      · intro r hpr hrq m hm
        rw [gI (r-1), if_pos (by omega)] at hm
        exact hall (r-1) (by omega) m hm
    · rw [if_neg h2]
      refine fwdPos_none_iff.mpr ?_
      intro j hj m hm
      by_cases hj1 : j < c
      · rw [gI j, if_pos hj1] at hm
        exact hall j hj m hm
      · by_cases hj2 : j = c
        · rw [gI j, if_neg (by omega), if_pos hj2] at hm
          cases hm
          omega
        · rw [gI j, if_neg (by omega), if_neg hj2] at hm
          exact hall (j-1) (by omega) m hm

theorem fwdPos_insertIdx_ge {ns : List SLNode} {c : Nat} {a : SLNode}
    (hc : c ≤ ns.length) {p : Nat} (hp : c ≤ p) (i : Nat) :
    fwdPos (ns.insertIdx c a) i (p+1) = (fwdPos ns i p).map (· + 1) := by
  have hlen : (ns.insertIdx c a).length = ns.length + 1 :=
    List.length_insertIdx c ns hc
  have gI := getIdx_insertIdx ns c a hc
  cases hfp : fwdPos ns i p with
  | some q =>
    obtain ⟨hpq, hqlen, ⟨n, hn, hnl⟩, hmin⟩ := fwdPos_spec hfp
    show fwdPos (ns.insertIdx c a) i (p+1) = some (q+1)
    refine fwdPos_eq_some_iff.mpr ⟨by omega, by omega, ⟨n, ?_, hnl⟩, ?_⟩
    · rw [show q + 1 - 1 = q by omega, gI q, if_neg (by omega),
        if_neg (by omega)]
      exact hn
    · intro r hpr hrq m hm
      rw [gI (r-1), if_neg (by omega), if_neg (by omega),
        (by omega : r - 1 - 1 = r - 2)] at hm
      exact hmin (r-1) (by omega) (by omega) m
        (by rw [(by omega : r - 1 - 1 = r - 2)]; exact hm)
  | none =>
    show fwdPos (ns.insertIdx c a) i (p+1) = none
    have hall := fwdPos_none_iff.mp hfp
    refine fwdPos_none_iff.mpr ?_
    intro j hj m hm
    rw [gI j, if_neg (by omega), if_neg (by omega)] at hm
    exact hall (j-1) (by omega) m hm

theorem fwdPos_eraseIdx_le {ns : List SLNode} {c : Nat} (hcl : c < ns.length)
    {p : Nat} (hp : p ≤ c) (i : Nat) :
    fwdPos (ns.eraseIdx c) i p =
      match fwdPos ns i p with
      | none => none
      | some q =>
        if q ≤ c then some q
        else if q = c + 1 then (fwdPos ns i (c+1)).map (· - 1)
        else some (q - 1) := by
  have hlen : (ns.eraseIdx c).length = ns.length - 1 := by
    rw [List.length_eraseIdx]
    simp [hcl]
  cases hfp : fwdPos ns i p with
  | none =>
    show fwdPos (ns.eraseIdx c) i p = none
    have hall := fwdPos_none_iff.mp hfp
    refine fwdPos_none_iff.mpr ?_
    intro j hj m hm
    by_cases hj1 : j < c
    · rw [List.getElem?_eraseIdx_of_lt ns c j hj1] at hm
      exact hall j hj m hm
    · rw [List.getElem?_eraseIdx_of_ge ns c j (by omega)] at hm
      exact hall (j+1) (by omega) m hm
  | some q =>
    obtain ⟨hpq, hqlen, ⟨n, hn, hnl⟩, hmin⟩ := fwdPos_spec hfp
    show fwdPos (ns.eraseIdx c) i p =
      if q ≤ c then some q
      else if q = c + 1 then (fwdPos ns i (c+1)).map (· - 1)
      else some (q - 1)
    by_cases h1 : q ≤ c
    · rw [if_pos h1]
      refine fwdPos_eq_some_iff.mpr ⟨hpq, by omega, ⟨n, ?_, hnl⟩, ?_⟩
      · rw [List.getElem?_eraseIdx_of_lt ns c (q-1) (by omega)]
        exact hn
      · intro r hpr hrq m hm
        rw [List.getElem?_eraseIdx_of_lt ns c (r-1) (by omega)] at hm
        exact hmin r hpr hrq m hm
    · rw [if_neg h1]
      by_cases h2 : q = c + 1
      · rw [if_pos h2]
        subst h2
        cases hfp2 : fwdPos ns i (c+1) with
        | some q2 =>
          obtain ⟨hpq2, hq2len, ⟨n2, hn2, hn2l⟩, hmin2⟩ := fwdPos_spec hfp2
          show fwdPos (ns.eraseIdx c) i p = some (q2 - 1)
          refine fwdPos_eq_some_iff.mpr
            ⟨by omega, by omega, ⟨n2, ?_, hn2l⟩, ?_⟩
          · rw [List.getElem?_eraseIdx_of_ge ns c (q2-1-1) (by omega),
              (by omega : q2 - 1 - 1 + 1 = q2 - 1)]
            exact hn2
          · intro r hpr hrq m hm
            by_cases hr1 : r ≤ c
            · rw [List.getElem?_eraseIdx_of_lt ns c (r-1) (by omega)] at hm
              exact hmin r hpr (by omega) m hm
            · rw [List.getElem?_eraseIdx_of_ge ns c (r-1) (by omega),
                (by omega : r - 1 + 1 = r + 1 - 1)] at hm
              exact hmin2 (r+1) (by omega) (by omega) m hm
        | none =>
          show fwdPos (ns.eraseIdx c) i p = none
          have hall2 := fwdPos_none_iff.mp hfp2
          refine fwdPos_none_iff.mpr ?_
          intro j hj m hm
          by_cases hj1 : j < c
          · rw [List.getElem?_eraseIdx_of_lt ns c j hj1] at hm
            exact hmin (j+1) (by omega) (by omega) m
              (by rw [(by omega : j + 1 - 1 = j)]; exact hm)
          · rw [List.getElem?_eraseIdx_of_ge ns c j (by omega),
              (by omega : j + 1 = j + 2 - 1)] at hm
            exact hall2 (j+2-1) (by omega) m hm
      · rw [if_neg h2]
        refine fwdPos_eq_some_iff.mpr ⟨by omega, by omega, ⟨n, ?_, hnl⟩, ?_⟩
        · rw [List.getElem?_eraseIdx_of_ge ns c (q-1-1) (by omega),
            (by omega : q - 1 - 1 + 1 = q - 1)]
          exact hn
        · intro r hpr hrq m hm
          by_cases hr1 : r ≤ c
          · rw [List.getElem?_eraseIdx_of_lt ns c (r-1) (by omega)] at hm
            exact hmin r hpr (by omega) m hm
          · rw [List.getElem?_eraseIdx_of_ge ns c (r-1) (by omega),
              (by omega : r - 1 + 1 = r + 1 - 1)] at hm
            exact hmin (r+1) (by omega) (by omega) m hm

theorem fwdPos_eraseIdx_ge {ns : List SLNode} {c : Nat} (hcl : c < ns.length)
    {p : Nat} (hp : c < p) (i : Nat) :
    fwdPos (ns.eraseIdx c) i p = (fwdPos ns i (p+1)).map (· - 1) := by
  have hlen : (ns.eraseIdx c).length = ns.length - 1 := by
    rw [List.length_eraseIdx]
    simp [hcl]
  cases hfp : fwdPos ns i (p+1) with
  | some q2 =>
    obtain ⟨hpq2, hq2len, ⟨n2, hn2, hn2l⟩, hmin2⟩ := fwdPos_spec hfp
    show fwdPos (ns.eraseIdx c) i p = some (q2 - 1)
    refine fwdPos_eq_some_iff.mpr ⟨by omega, by omega, ⟨n2, ?_, hn2l⟩, ?_⟩
    · rw [List.getElem?_eraseIdx_of_ge ns c (q2-1-1) (by omega),
        (by omega : q2 - 1 - 1 + 1 = q2 - 1)]
      exact hn2
    · intro r hpr hrq m hm
      rw [List.getElem?_eraseIdx_of_ge ns c (r-1) (by omega),
        (by omega : r - 1 + 1 = r + 1 - 1)] at hm
      exact hmin2 (r+1) (by omega) (by omega) m hm
  | none =>
    show fwdPos (ns.eraseIdx c) i p = none
    have hall := fwdPos_none_iff.mp hfp
    refine fwdPos_none_iff.mpr ?_
    intro j hj m hm
    rw [List.getElem?_eraseIdx_of_ge ns c j (by omega),
      (by omega : j + 1 = j + 2 - 1)] at hm
    exact hall (j+2-1) (by omega) m hm

/-! ### Effect of the span-writing folds

Each fold in `insert`/`remove` writes level `k` exactly at iteration `k`,
so distinct iterations touch distinct span cells; the value written at
level `k` is either a constant or an increment of the cell itself. -/

theorem canWrite_congr {sl sl' : SkipList}
    (hh : sl'.headerSpan.length = sl.headerSpan.length)
    (hs : sl'.nodes.map (fun n => n.span.length) =
      sl.nodes.map (fun n => n.span.length)) (p i : Nat) :
    sl'.canWrite p i ↔ sl.canWrite p i := by
  unfold SkipList.canWrite
  by_cases hp : p = 0
  · rw [if_pos hp, if_pos hp, hh]
  · rw [if_neg hp, if_neg hp]
    have hidx : Option.map (fun n => n.span.length) sl'.nodes[p-1]? =
        Option.map (fun n => n.span.length) sl.nodes[p-1]? := by
      have h1 : (sl'.nodes.map (fun n => n.span.length))[p-1]? =
          (sl.nodes.map (fun n => n.span.length))[p-1]? := by rw [hs]
      rwa [List.getElem?_map, List.getElem?_map] at h1
    constructor
    · rintro ⟨n, hn, hv⟩
      rw [hn] at hidx
      cases hm : sl.nodes[p-1]? with
      | none => rw [hm] at hidx; cases hidx
      | some m =>
        rw [hm] at hidx
        have : n.span.length = m.span.length := by
          simpa using hidx
        exact ⟨m, rfl, this ▸ hv⟩
    · rintro ⟨m, hm, hv⟩
      rw [hm] at hidx
      cases hn : sl'.nodes[p-1]? with
      | none => rw [hn] at hidx; cases hidx
      | some n =>
        rw [hn] at hidx
        have : n.span.length = m.span.length := by
          simpa using hidx
        exact ⟨n, rfl, by rw [this]; exact hv⟩

theorem foldl_setSpan_untouched (F : SkipList → Nat → SkipList)
    (P : Nat → Nat) (Q : Nat → Prop)
    (hother : ∀ s k, Q k → ∀ j q, j ≠ k ∨ q ≠ P k →
      (F s k).spanAt j q = s.spanAt j q) (j q : Nat) :
    ∀ (L : List Nat) (s0 : SkipList), (∀ k ∈ L, Q k) →
      (∀ k ∈ L, j ≠ k ∨ q ≠ P k) →
      (L.foldl F s0).spanAt j q = s0.spanAt j q := by
  intro L
  induction L with
  | nil => intro s0 _ _; rfl
  | cons k L ih =>
    intro s0 hQ hj
    rw [List.foldl_cons]
    rw [ih (F s0 k) (fun k' hk' => hQ k' (List.mem_cons_of_mem _ hk'))
      (fun k' hk' => hj k' (List.mem_cons_of_mem _ hk'))]
    exact hother s0 k (hQ k (List.mem_cons_self _ _)) j q
      (hj k (List.mem_cons_self _ _))

theorem foldl_setSpan_const (F : SkipList → Nat → SkipList)
    (P : Nat → Nat) (C : Nat → Int) (Q : Nat → Prop) (Inv : SkipList → Prop)
    (hInv : ∀ s k, Q k → Inv s → Inv (F s k))
    (hw : ∀ s k, Q k → Inv s → (F s k).spanAt k (P k) = C k)
    (hother : ∀ s k, Q k → ∀ j q, j ≠ k ∨ q ≠ P k →
      (F s k).spanAt j q = s.spanAt j q) (j : Nat) :
    ∀ (L : List Nat) (s0 : SkipList), (∀ k ∈ L, Q k) → Inv s0 → j ∈ L →
      (L.foldl F s0).spanAt j (P j) = C j := by
  intro L
  induction L with
  | nil => intro s0 _ _ hj; cases hj
  | cons k L ih =>
    intro s0 hQ h0 hj
    rw [List.foldl_cons]
    by_cases hjL : j ∈ L
    · exact ih (F s0 k) (fun k' hk' => hQ k' (List.mem_cons_of_mem _ hk'))
        (hInv s0 k (hQ k (List.mem_cons_self _ _)) h0) hjL
    · have hjk : j = k := by
        cases List.mem_cons.mp hj with
        | inl h => exact h
        | inr h => exact absurd h hjL
      subst hjk
      rw [foldl_setSpan_untouched F P Q hother j (P j) L (F s0 j)
        (fun k' hk' => hQ k' (List.mem_cons_of_mem _ hk'))
        (fun k' hk' => Or.inl (fun he => hjL (he ▸ hk')))]
      exact hw s0 j (hQ j (List.mem_cons_self _ _)) h0

theorem foldl_setSpan_incr (F : SkipList → Nat → SkipList)
    (P : Nat → Nat) (D : Nat → Int) (Q : Nat → Prop) (Inv : SkipList → Prop)
    (hInv : ∀ s k, Q k → Inv s → Inv (F s k))
    (hw : ∀ s k, Q k → Inv s →
      (F s k).spanAt k (P k) = s.spanAt k (P k) + D k)
    (hother : ∀ s k, Q k → ∀ j q, j ≠ k ∨ q ≠ P k →
      (F s k).spanAt j q = s.spanAt j q) (j : Nat) :
    ∀ (L : List Nat) (s0 : SkipList), (∀ k ∈ L, Q k) → Inv s0 →
      L.Nodup → j ∈ L →
      (L.foldl F s0).spanAt j (P j) = s0.spanAt j (P j) + D j := by
  intro L
  induction L with
  | nil => intro s0 _ _ _ hj; cases hj
  | cons k L ih =>
    intro s0 hQ h0 hnd hj
    rw [List.nodup_cons] at hnd
    rw [List.foldl_cons]
    by_cases hjk : j = k
    · subst hjk
      have hjL : j ∉ L := hnd.1
      rw [foldl_setSpan_untouched F P Q hother j (P j) L (F s0 j)
        (fun k' hk' => hQ k' (List.mem_cons_of_mem _ hk'))
        (fun k' hk' => Or.inl (fun he => hjL (he ▸ hk')))]
      exact hw s0 j (hQ j (List.mem_cons_self _ _)) h0
    · have hjL : j ∈ L := by
        cases List.mem_cons.mp hj with
        | inl h => exact absurd h hjk
        | inr h => exact h
      rw [ih (F s0 k) (fun k' hk' => hQ k' (List.mem_cons_of_mem _ hk'))
        (hInv s0 k (hQ k (List.mem_cons_self _ _)) h0) hnd.2 hjL]
      rw [hother s0 k (hQ k (List.mem_cons_self _ _)) j (P j) (Or.inl hjk)]

theorem foldl_shape_invariant (L : List Nat) (F : SkipList → Nat → SkipList)
    (hF : ∀ s i, (F s i).nodes.map (fun n => n.span.length) =
        s.nodes.map (fun n => n.span.length) ∧
      (F s i).headerSpan.length = s.headerSpan.length) (sl : SkipList) :
    ((L.foldl F sl).nodes.map (fun n => n.span.length) =
        sl.nodes.map (fun n => n.span.length)) ∧
      (L.foldl F sl).headerSpan.length = sl.headerSpan.length := by
  induction L generalizing sl with
  | nil => exact ⟨rfl, rfl⟩
  | cons k L ih =>
    rw [List.foldl_cons]
    obtain ⟨h1, h2⟩ := ih (F sl k)
    exact ⟨h1.trans (hF sl k).1, h2.trans (hF sl k).2⟩

/-! ### The walk's rank accumulator tracks its position

When every span on the walked level holds its true value, every hop
`rank += span[i]` adds exactly the positional distance, so the walk that
starts at the header with rank 0 always has `rank = position`. -/

theorem walkF_rank_spec (sl : SkipList) (cond : SLNode → Bool) (i : Nat)
    (hsp : ∀ p, posOnLevel sl.nodes i p → ∀ q, fwdPos sl.nodes i p = some q →
      sl.spanAt i p = (q : Int) - (p : Int)) :
    ∀ fuel p rank, posOnLevel sl.nodes i p →
      (walkF sl cond i fuel p rank).2 =
        rank + (((walkF sl cond i fuel p rank).1 : Int) - (p : Int)) := by
  intro fuel
  induction fuel with
  | zero =>
    intro p rank hp
    simp [walkF]
  | succ fuel ih =>
    intro p rank hp
    cases hfp : fwdPos sl.nodes i p with
    | none => simp [walkF, hfp]
    | some q =>
      obtain ⟨hpq, hqlen, ⟨n, hn, hnl⟩, _⟩ := fwdPos_spec hfp
      have hnq : sl.nodeAtPos q = some n := by
        rw [SkipList.nodeAtPos, if_neg (by omega), hn]
      by_cases hcond : cond n = true
      · have hw : walkF sl cond i (fuel+1) p rank =
            walkF sl cond i fuel q (rank + sl.spanAt i p) := by
          simp only [walkF, hfp, hnq, hcond, if_true]
        rw [hw, ih q (rank + sl.spanAt i p) (Or.inr ⟨n, hn, hnl⟩),
          hsp p hp q hfp]
        ring
      · have hcf : cond n = false := Bool.eq_false_iff.mpr hcond
        have hw : walkF sl cond i (fuel+1) p rank = (p, rank) := by
          simp [walkF, hfp, hnq, hcf]
        rw [hw]
        simp

theorem walkF_pos_onLevel (sl : SkipList) (cond : SLNode → Bool) (i : Nat) :
    ∀ fuel p rank, posOnLevel sl.nodes i p →
      posOnLevel sl.nodes i (walkF sl cond i fuel p rank).1 := by
  intro fuel
  induction fuel with
  | zero => intro p rank hp; exact hp
  | succ fuel ih =>
    intro p rank hp
    cases hfp : fwdPos sl.nodes i p with
    | none => simpa [walkF, hfp] using hp
    | some q =>
      obtain ⟨hpq, hqlen, ⟨n, hn, hnl⟩, _⟩ := fwdPos_spec hfp
      have hnq : sl.nodeAtPos q = some n := by
        rw [SkipList.nodeAtPos, if_neg (by omega), hn]
      by_cases hcond : cond n = true
      · have hw : walkF sl cond i (fuel+1) p rank =
            walkF sl cond i fuel q (rank + sl.spanAt i p) := by
          simp only [walkF, hfp, hnq, hcond, if_true]
        rw [hw]
        exact ih q _ (Or.inr ⟨n, hn, hnl⟩)
      · have hcf : cond n = false := Bool.eq_false_iff.mpr hcond
        have hw : walkF sl cond i (fuel+1) p rank = (p, rank) := by
          simp [walkF, hfp, hnq, hcf]
        rw [hw]
        exact hp

theorem walkDown_rank_spec (sl : SkipList) (cond : SLNode → Bool)
    (hsp : ∀ i, i ≤ sl.level → ∀ p, posOnLevel sl.nodes i p →
      ∀ q, fwdPos sl.nodes i p = some q →
        sl.spanAt i p = (q : Int) - (p : Int)) :
    ∀ lv, lv ≤ sl.level → ∀ p rank, posOnLevel sl.nodes lv p →
      rank = (p : Int) → ∀ k, k ≤ lv →
        ((walkDown sl cond lv p rank).getD (lv - k) (0,0)).2 =
          ((((walkDown sl cond lv p rank).getD (lv - k) (0,0)).1 : Nat) :
            Int) := by
  intro lv
  induction lv with
  | zero =>
    intro hlv p rank hp hrank k hk
    interval_cases k
    simp only [walkDown, Nat.sub_zero, List.getD_cons_zero]
    have h2 : (sl.walkLevel cond 0 p rank).2 =
        rank + (((sl.walkLevel cond 0 p rank).1 : Int) - (p : Int)) :=
      walkF_rank_spec sl cond 0 (hsp 0 (Nat.zero_le _))
        (sl.nodes.length + 1) p rank hp
    rw [h2, hrank]
    ring
  | succ lv ih =>
    intro hlv p rank hp hrank k hk
    have hpr : (sl.walkLevel cond (lv+1) p rank).2 =
        ((sl.walkLevel cond (lv+1) p rank).1 : Int) := by
      have h2 : (sl.walkLevel cond (lv+1) p rank).2 =
          rank + (((sl.walkLevel cond (lv+1) p rank).1 : Int) - (p : Int)) :=
        walkF_rank_spec sl cond (lv+1) (hsp (lv+1) hlv)
          (sl.nodes.length + 1) p rank hp
      rw [h2, hrank]
      ring
    have hponl : posOnLevel sl.nodes (lv+1)
        (sl.walkLevel cond (lv+1) p rank).1 :=
      walkF_pos_onLevel sl cond (lv+1) (sl.nodes.length + 1) p rank hp
    rw [walkDown]
    by_cases hklv : k = lv + 1
    · subst hklv
      simp only [Nat.sub_self, List.getD_cons_zero]
      exact hpr
    · have hkle : k ≤ lv := by omega
      have hsub : lv + 1 - k = (lv - k) + 1 := by omega
      rw [hsub]
      simp only [List.getD_cons_succ]
      exact ih (by omega) _ _ (posOnLevel_mono (by omega) hponl) hpr k hkle

theorem wf_trueSpans {sl : SkipList} (h : sl.WF) :
    ∀ i, i ≤ sl.level → ∀ p, posOnLevel sl.nodes i p →
      ∀ q, fwdPos sl.nodes i p = some q →
        sl.spanAt i p = (q : Int) - (p : Int) := by
  intro i hi p hp q hq
  have hple : p ≤ sl.nodes.length := posOnLevel_le_length hp
  have hts := h.2.2.2.2.2 i (by omega) p (by omega) hp
  rw [hts]
  unfold trueSpan
  rw [hq]

theorem updates_rank_spec (sl : SkipList) (cond : SLNode → Bool)
    (h : sl.WF) (i : Nat) (hi : i ≤ sl.level) :
    (sl.updAt (sl.updates cond) i).2 =
      (((sl.updAt (sl.updates cond) i).1 : Nat) : Int) :=
  walkDown_rank_spec sl cond (wf_trueSpans h) sl.level (le_refl _) 0 0
    (posOnLevel_zero _ _) (by simp) i hi

/-! ### Small helpers for the preservation proofs -/

theorem foldl_inv (Inv : SkipList → Prop) (L : List Nat)
    (F : SkipList → Nat → SkipList) (hF : ∀ s k, Inv s → Inv (F s k)) :
    ∀ s, Inv s → Inv (L.foldl F s) := by
  induction L with
  | nil => exact fun s hs => hs
  | cons k L ih =>
    intro s hs
    rw [List.foldl_cons]
    exact ih (F s k) (hF s k hs)

/-- If the walk stopped at `p ≤ c` because the next level-`j` node is past
`c`, then the level-`j` successor seen from `c` is the same one. -/
theorem fwdPos_ge_c_eq {ns : List SLNode} {j p c : Nat} (hp : p ≤ c)
    (hstop : ∀ q', fwdPos ns j p = some q' → c < q') :
    fwdPos ns j c = fwdPos ns j p := by
  cases hfp : fwdPos ns j p with
  | some q2 =>
    have hq2 := hstop q2 hfp
    obtain ⟨hpq, hqlen, hex, hmin⟩ := fwdPos_spec hfp
    exact fwdPos_eq_some_iff.mpr ⟨by omega, hqlen, hex,
      fun r hr1 hr2 m hm => hmin r (by omega) hr2 m hm⟩
  | none =>
    rw [fwdPos_none_iff] at hfp ⊢
    exact fun j' hj' m hm => hfp j' (by omega) m hm

/-- Any level-`j` position at or before the boundary other than the
stopping position `u` has its level-`j` successor at or before `c`. -/
theorem fwdPos_within {ns : List SLNode} {j q c u : Nat}
    (hq : posOnLevel ns j q) (hqc : q ≤ c) (hqu : q ≠ u)
    (hu : posOnLevel ns j u) (huc : u ≤ c)
    (hstop : ∀ q', fwdPos ns j u = some q' → c < q') :
    ∃ q2, fwdPos ns j q = some q2 ∧ q2 ≤ c := by
  have hqu' : q < u := by
    rcases Nat.lt_or_ge q u with hlt | hge
    · exact hlt
    · exfalso
      have huq : u < q := by omega
      rcases hq with h0 | ⟨n, hn, hl⟩
      · omega
      · obtain ⟨q', hq', hq'le⟩ := fwdPos_first hn hl huq
        exact absurd (hstop q' hq') (by omega)
  rcases hu with h0 | ⟨n, hn, hl⟩
  · omega
  · obtain ⟨q', hq', hq'le⟩ := fwdPos_first hn hl hqu'
    exact ⟨q', hq', by omega⟩

theorem nodes_props_transfer {ns ms : List SLNode}
    (hsig : ns.map nodeSig = ms.map nodeSig)
    (hshape : ns.map (fun n => n.span.length) =
      ms.map (fun n => n.span.length))
    {L : Nat} (hm : ∀ n ∈ ms, n.lvl ≤ L ∧ n.span.length = n.lvl + 1) :
    ∀ n ∈ ns, n.lvl ≤ L ∧ n.span.length = n.lvl + 1 := by
  intro n hn
  obtain ⟨j, hj⟩ := List.getElem?_of_mem hn
  have h1 : Option.map nodeSig ns[j]? = Option.map nodeSig ms[j]? := by
    have := congrArg (fun l => l[j]?) hsig
    simpa [List.getElem?_map] using this
  have h2 : Option.map (fun n => n.span.length) ns[j]? =
      Option.map (fun n => n.span.length) ms[j]? := by
    have := congrArg (fun l => l[j]?) hshape
    simpa [List.getElem?_map] using this
  rw [hj] at h1 h2
  cases hm' : ms[j]? with
  | none => rw [hm'] at h1; cases h1
  | some m =>
    rw [hm'] at h1 h2
    have hlv : n.lvl = m.lvl := by
      have := congrArg (fun o => (o.map (fun x => x.2.2)).getD 0) h1
      simpa [nodeSig] using this
    have hsp : n.span.length = m.span.length := by simpa using h2
    obtain ⟨hm1, hm2⟩ := hm m (List.getElem?_mem hm')
    exact ⟨by omega, by omega⟩

theorem insert_WF (sl : SkipList) (sc : Score) (mem : String) (lvl : Nat)
    (hlvl : lvl ≤ maxLevel) (h : sl.WF) : (sl.insert sc mem lvl).WF := by
  obtain ⟨hlen, hhdr, hlev, hnode, hsort, hspans⟩ := h
  have hWF : sl.WF := ⟨hlen, hhdr, hlev, hnode, hsort, hspans⟩
  set cond : SLNode → Bool := fun n => keyLtb n.score n.member sc mem
    with hconddef
  set c := countLt sl.nodes sc mem with hcdef
  have hclen : c ≤ sl.nodes.length := countLt_le_length _ _ _
  set U : Nat → Nat :=
    fun i => if i ≤ sl.level then (sl.updAt (sl.updates cond) i).1 else 0
    with hUdef
  set R : Nat → Int :=
    fun i => if i ≤ sl.level then (sl.updAt (sl.updates cond) i).2 else 0
    with hRdef
  -- walk facts
  have hUpos : ∀ i, posOnLevel sl.nodes i (U i) := by
    intro i
    by_cases hi : i ≤ sl.level
    · simp only [hUdef, if_pos hi]
      exact (updates_pos_spec sl sc mem hsort i hi).1
    · simp only [hUdef, if_neg hi]
      exact posOnLevel_zero _ _
  have hUc : ∀ i, U i ≤ c := by
    intro i
    by_cases hi : i ≤ sl.level
    · simp only [hUdef, if_pos hi]
      exact (updates_pos_spec sl sc mem hsort i hi).2.1
    · simp only [hUdef, if_neg hi]
      omega
  have hUstop : ∀ i q', fwdPos sl.nodes i (U i) = some q' → c < q' := by
    intro i q' hq'
    by_cases hi : i ≤ sl.level
    · simp only [hUdef, if_pos hi] at hq'
      exact (updates_pos_spec sl sc mem hsort i hi).2.2 q' hq'
    · exfalso
      obtain ⟨_, _, ⟨n, hn, hnl⟩, _⟩ := fwdPos_spec hq'
      have := (hnode n (List.getElem?_mem hn)).1
      omega
  have hRU : ∀ i, R i = ((U i : Nat) : Int) := by
    intro i
    by_cases hi : i ≤ sl.level
    · simp only [hRdef, hUdef, if_pos hi]
      exact updates_rank_spec sl cond hWF i hi
    · simp only [hRdef, hUdef, if_neg hi]
      rfl
  have hU0 : U 0 = c := by
    simp only [hUdef, if_pos (Nat.zero_le _)]
    exact update0_eq_countLt sl sc mem hsort
  have hfwdnone : ∀ i, sl.level < i → ∀ p, fwdPos sl.nodes i p = none := by
    intro i hi p
    rw [fwdPos_none_iff]
    intro j hj m hm
    have := (hnode m (List.getElem?_mem hm)).1
    omega
  -- the pieces of `insert`
  set base : SkipList := (if sl.level < lvl then
      (List.range' (sl.level+1) (lvl - sl.level)).foldl
        (fun s i => s.setSpanAt 0 i ((sl.length : Int) + 1)) sl
    else sl) with hbasedef
  set newLevel := max sl.level lvl with hnldef
  set newSpans : List Int :=
    (List.range (lvl+1)).map (fun i => base.spanAt i (U i) - (R 0 - R i))
    with hnsdef
  set nn : SLNode := ⟨sc, mem, lvl, newSpans⟩ with hnndef
  set s2 : SkipList := (List.range (lvl+1)).foldl
    (fun s i => s.setSpanAt (U i) i ((R 0 - R i) + 1)) base with hs2def
  set s3 : SkipList := (List.range' (lvl+1) (newLevel - lvl)).foldl
    (fun s i => s.setSpanAt (U i) i (s.spanAt i (U i) + 1)) s2 with hs3def
  have hfn : (sl.insert sc mem lvl).nodes = s3.nodes.insertIdx (U 0) nn := rfl
  have hfh : (sl.insert sc mem lvl).headerSpan = s3.headerSpan := rfl
  have hfl : (sl.insert sc mem lvl).level = newLevel := rfl
  have hflen : (sl.insert sc mem lvl).length = sl.length + 1 := rfl
  -- shape invariant through the folds
  set Inv : SkipList → Prop := fun s =>
    s.nodes.map nodeSig = sl.nodes.map nodeSig ∧
    s.nodes.map (fun n => n.span.length) =
      sl.nodes.map (fun n => n.span.length) ∧
    s.headerSpan.length = sl.headerSpan.length with hInvdef
  have hInvStep : ∀ (s : SkipList) (p k : Nat) (v : Int), Inv s →
      Inv (s.setSpanAt p k v) := by
    rintro s p k v ⟨h1, h2, h3⟩
    exact ⟨(setSpanAt_nodes_map_sig s p k v).trans h1,
      (setSpanAt_span_shape s p k v).trans h2,
      (setSpanAt_headerSpan_length s p k v).trans h3⟩
  have hInvBase : Inv base := by
    rw [hbasedef]
    by_cases hbl : sl.level < lvl
    · rw [if_pos hbl]
      exact foldl_inv Inv _ _ (fun s k hs => hInvStep s 0 k _ hs) sl
        ⟨rfl, rfl, rfl⟩
    · rw [if_neg hbl]
      exact ⟨rfl, rfl, rfl⟩
  have hInv2 : Inv s2 := by
    rw [hs2def]
    exact foldl_inv Inv _ _ (fun s k hs => hInvStep s (U k) k _ hs) base
      hInvBase
  have hInv3 : Inv s3 := by
    rw [hs3def]
    exact foldl_inv Inv _ _ (fun s k hs => hInvStep s (U k) k _ hs) s2 hInv2
  -- write permissions
  have hcw0 : ∀ s, Inv s → ∀ k, k ≤ maxLevel → s.canWrite 0 k := by
    intro s hs k hk
    refine (canWrite_congr hs.2.2 hs.2.1 0 k).mpr ?_
    unfold SkipList.canWrite
    rw [if_pos rfl, hhdr]
    omega
  have hcwU : ∀ s, Inv s → ∀ k, k ≤ maxLevel → s.canWrite (U k) k := by
    intro s hs k hk
    refine (canWrite_congr hs.2.2 hs.2.1 _ k).mpr ?_
    by_cases hUk0 : U k = 0
    · rw [hUk0]
      unfold SkipList.canWrite
      rw [if_pos rfl, hhdr]
      omega
    · rcases hUpos k with h0 | ⟨n, hn, hl⟩
      · exact absurd h0 hUk0
      · unfold SkipList.canWrite
        rw [if_neg hUk0]
        exact ⟨n, hn, by rw [(hnode n (List.getElem?_mem hn)).2]; omega⟩
  -- effect of the three folds on spans
  have hbase_w : ∀ j, sl.level < j → j ≤ lvl →
      base.spanAt j 0 = (sl.length : Int) + 1 := by
    intro j h1 h2
    have hbl : sl.level < lvl := by omega
    rw [hbasedef, if_pos hbl]
    refine foldl_setSpan_const _ (fun _ => 0) (fun _ => (sl.length : Int) + 1)
      (fun k => k ≤ maxLevel) Inv
      (fun s k _ hs => hInvStep s 0 k _ hs)
      (fun s k hk hs => spanAt_setSpanAt_same s 0 k _ (hcw0 s hs k hk))
      (fun s k _ j' q' hor => spanAt_setSpanAt_other s _ hor) j _ sl
      ?_ ⟨rfl, rfl, rfl⟩ ?_
    · intro k hk
      rw [List.mem_range'_1] at hk
      omega
    · rw [List.mem_range'_1]
      omega
  have hbase_nw : ∀ j q, (j ≤ sl.level ∨ lvl < j ∨ q ≠ 0) →
      base.spanAt j q = sl.spanAt j q := by
    intro j q hor
    rw [hbasedef]
    by_cases hbl : sl.level < lvl
    · rw [if_pos hbl]
      refine foldl_setSpan_untouched _ (fun _ => 0) (fun k => True)
        (fun s k _ j' q' hjq => spanAt_setSpanAt_other s _ hjq) j q _ sl
        (fun _ _ => trivial) ?_
      intro k hk
      rw [List.mem_range'_1] at hk
      rcases hor with h | h | h
      · left; omega
      · left; omega
      · right; exact h
    · rw [if_neg hbl]
  have hs2_w : ∀ j, j ≤ lvl → s2.spanAt j (U j) = (R 0 - R j) + 1 := by
    intro j hj
    rw [hs2def]
    refine foldl_setSpan_const _ U (fun k => (R 0 - R k) + 1)
      (fun k => k ≤ maxLevel) Inv
      (fun s k _ hs => hInvStep s (U k) k _ hs)
      (fun s k hk hs => spanAt_setSpanAt_same s (U k) k _ (hcwU s hs k hk))
      (fun s k _ j' q' hor => spanAt_setSpanAt_other s _ hor) j _ base
      ?_ hInvBase ?_
    · intro k hk
      rw [List.mem_range] at hk
      omega
    · rw [List.mem_range]
      omega
  have hs2_nw : ∀ j q, (q ≠ U j ∨ lvl < j) → s2.spanAt j q = base.spanAt j q := by
    intro j q hor
    rw [hs2def]
    refine foldl_setSpan_untouched _ U (fun k => True)
      (fun s k _ j' q' hjq => spanAt_setSpanAt_other s _ hjq) j q _ base
      (fun _ _ => trivial) ?_
    intro k hk
    rw [List.mem_range] at hk
    rcases hor with hne | hlt
    · by_cases hkj : j = k
      · right; rw [← hkj]; exact hne
      · left; exact hkj
    · left; omega
  have hs3_w : ∀ j, lvl < j → j ≤ newLevel →
      s3.spanAt j (U j) = s2.spanAt j (U j) + 1 := by
    intro j h1 h2
    rw [hs3def]
    refine foldl_setSpan_incr _ U (fun _ => 1) (fun k => k ≤ maxLevel) Inv
      (fun s k _ hs => hInvStep s (U k) k _ hs)
      (fun s k hk hs => spanAt_setSpanAt_same s (U k) k _ (hcwU s hs k hk))
      (fun s k _ j' q' hor => spanAt_setSpanAt_other s _ hor) j _ s2
      ?_ hInv2 (by simp [List.nodup_range']) ?_
    · intro k hk
      rw [List.mem_range'_1] at hk
      have : newLevel ≤ maxLevel := by
        rw [hnldef]
        omega
      omega
    · rw [List.mem_range'_1]
      omega
  have hs3_nw : ∀ j q, (q ≠ U j ∨ j ≤ lvl) → s3.spanAt j q = s2.spanAt j q := by
    intro j q hor
    rw [hs3def]
    refine foldl_setSpan_untouched _ U (fun k => True)
      (fun s k _ j' q' hjq => spanAt_setSpanAt_other s _ hjq) j q _ s2
      (fun _ _ => trivial) ?_
    intro k hk
    rw [List.mem_range'_1] at hk
    rcases hor with hne | hle
    · by_cases hkj : j = k
      · right; rw [← hkj]; exact hne
      · left; exact hkj
    · left; omega
  -- lengths and transported facts
  have hs3len : s3.nodes.length = sl.nodes.length := by
    have := congrArg List.length hInv3.1
    simpa using this
  have hU0len : U 0 ≤ s3.nodes.length := by
    rw [hs3len, hU0]
    exact hclen
  have hfle : ∀ j q, q ≤ c →
      (sl.insert sc mem lvl).spanAt j q = s3.spanAt j q := by
    intro j q hqc
    by_cases hq0 : q = 0
    · subst hq0
      rw [spanAt_zero, spanAt_zero, hfh]
    · rw [spanAt_pos _ _ _ hq0, spanAt_pos _ _ _ hq0, hfn,
        getIdx_insertIdx s3.nodes (U 0) nn hU0len (q-1),
        if_pos (by rw [hU0]; omega : q - 1 < U 0)]
  have hfnew : ∀ j, (sl.insert sc mem lvl).spanAt j (c+1) = newSpans.getD j 0 := by
    intro j
    rw [spanAt_pos _ _ _ (by omega), hfn,
      getIdx_insertIdx s3.nodes (U 0) nn hU0len (c+1-1),
      if_neg (by rw [hU0]; omega), if_pos (by rw [hU0]; omega)]
  have hfge : ∀ j q, c + 2 ≤ q →
      (sl.insert sc mem lvl).spanAt j q = s3.spanAt j (q-1) := by
    intro j q h1
    rw [spanAt_pos _ _ _ (by omega), spanAt_pos _ _ _ (by omega), hfn,
      getIdx_insertIdx s3.nodes (U 0) nn hU0len (q-1),
      if_neg (by rw [hU0]; omega), if_neg (by rw [hU0]; omega)]
  have hnsat : ∀ j, j ≤ lvl →
      newSpans.getD j 0 = base.spanAt j (U j) - (R 0 - R j) := by
    intro j hj
    rw [hnsdef]
    rw [List.getD_eq_getElem?_getD, List.getElem?_map,
      List.getElem?_range (by omega : j < lvl + 1)]
    rfl
  -- signature of the final node list
  set ns2 : List SLNode := sl.nodes.insertIdx c nn with hns2def
  have hmapeq : (s3.nodes.insertIdx (U 0) nn).map nodeSig = ns2.map nodeSig := by
    rw [hns2def, map_insertIdx, map_insertIdx, hInv3.1, hU0]
  have hns2len : ns2.length = sl.nodes.length + 1 := by
    rw [hns2def]
    exact List.length_insertIdx c sl.nodes hclen
  refine ⟨?_, ?_, ?_, ?_, insert_sorted sl sc mem lvl hsort, ?_⟩
  · rw [hflen, hfn, List.length_insertIdx (U 0) s3.nodes hU0len, hs3len, hlen]
  · rw [hfh, hInv3.2.2, hhdr]
  · rw [hfl, hnldef]
    exact max_le hlev hlvl
  · intro n hn
    rw [hfn] at hn
    rw [hfl]
    rcases (List.mem_insertIdx hU0len).mp hn with rfl | hn2
    · constructor
      · show lvl ≤ newLevel
        rw [hnldef]
        exact le_max_right _ _
      · show newSpans.length = lvl + 1
        rw [hnsdef]
        simp
    · have hp := nodes_props_transfer hInv3.1 hInv3.2.1 hnode n hn2
      refine ⟨le_trans hp.1 ?_, hp.2⟩
      rw [hnldef]
      exact le_max_left _ _
  · intro j hj q hq hpos
    rw [hfl] at hj
    rw [hfn] at hpos
    rw [hfn, trueSpan_congr hmapeq j q]
    have hpos2 : posOnLevel ns2 j q := (posOnLevel_congr hmapeq j q).mp hpos
    have hjnl : j ≤ newLevel := by omega
    have hjmax : j ≤ maxLevel := by
      have : newLevel ≤ maxLevel := by rw [hnldef]; exact max_le hlev hlvl
      omega
    rcases Nat.lt_or_ge q (c+1) with hq1 | hqge
    · -- a position at or before the splice point
      have hqc : q ≤ c := by omega
      have hposl : posOnLevel sl.nodes j q := by
        have h2 := (posOnLevel_insertIdx hclen j q).mp
          (by rw [hns2def] at hpos2; exact hpos2)
        rwa [if_pos hqc] at h2
      by_cases hqU : q = U j
      · by_cases hjlvl : j ≤ lvl
        · -- the cell written by the splice loop: span (c - U j) + 1
          rw [hfle j q hqc, hqU, hs3_nw j (U j) (Or.inr hjlvl), hs2_w j hjlvl]
          have hfwd : fwdPos ns2 j (U j) = some (c+1) := by
            rw [hns2def, fwdPos_insertIdx_le hclen (hUc j) j]
            cases hf : fwdPos sl.nodes j (U j) with
            | some q2 =>
              have := hUstop j q2 hf
              show (if q2 ≤ c then some q2 else if j ≤ nn.lvl then some (c+1)
                else some (q2+1)) = some (c+1)
              rw [if_neg (by omega), if_pos (show j ≤ nn.lvl from hjlvl)]
            | none =>
              show (if j ≤ nn.lvl then some (c+1) else none) = some (c+1)
              rw [if_pos (show j ≤ nn.lvl from hjlvl)]
          simp only [trueSpan, hfwd]
          rw [hRU 0, hRU j, hU0]
          push_cast
          ring
        · -- a level above the new node: the `+= 1` loop
          push_neg at hjlvl
          have hjle : j ≤ sl.level := by
            have hnl2 : newLevel = max sl.level lvl := hnldef
            omega
          rw [hfle j q hqc, hqU, hs3_w j hjlvl hjnl,
            hs2_nw j (U j) (Or.inr hjlvl),
            hbase_nw j (U j) (Or.inl hjle),
            hspans j (by omega) (U j) (by have := hUc j; omega) (hUpos j)]
          cases hf : fwdPos sl.nodes j (U j) with
          | some q2 =>
            have hgt := hUstop j q2 hf
            have hfwd : fwdPos ns2 j (U j) = some (q2+1) := by
              rw [hns2def, fwdPos_insertIdx_le hclen (hUc j) j, hf]
              show (if q2 ≤ c then some q2 else if j ≤ nn.lvl then some (c+1)
                else some (q2+1)) = some (q2+1)
              rw [if_neg (by omega),
                if_neg (show ¬ j ≤ nn.lvl from Nat.not_le.mpr hjlvl)]
            simp only [trueSpan, hf, hfwd]
            push_cast
            ring
          | none =>
            have hfwd : fwdPos ns2 j (U j) = none := by
              rw [hns2def, fwdPos_insertIdx_le hclen (hUc j) j, hf]
              show (if j ≤ nn.lvl then some (c+1) else none) = none
              rw [if_neg (show ¬ j ≤ nn.lvl from Nat.not_le.mpr hjlvl)]
            simp only [trueSpan, hf, hfwd, hns2len]
            rw [if_neg (by omega : ¬ j = 0), if_neg (by omega : ¬ j = 0)]
            push_cast
            ring
      · -- untouched cell before the splice point
        have hjle : j ≤ sl.level := by
          by_contra hgt
          push_neg at hgt
          have hUj0 : U j = 0 := by
            simp only [hUdef]
            rw [if_neg (by omega : ¬ j ≤ sl.level)]
          rcases hposl with h0 | ⟨n, hn, hl⟩
          · exact hqU (by omega)
          · have := (hnode n (List.getElem?_mem hn)).1
            omega
        rw [hfle j q hqc, hs3_nw j q (Or.inl hqU), hs2_nw j q (Or.inl hqU),
          hbase_nw j q (Or.inl hjle),
          hspans j (by omega) q (by have := posOnLevel_le_length hposl; omega)
            hposl]
        obtain ⟨q2, hq2, hq2c⟩ :=
          fwdPos_within hposl hqc hqU (hUpos j) (hUc j) (hUstop j)
        have hfwd : fwdPos ns2 j q = some q2 := by
          rw [hns2def, fwdPos_insertIdx_le hclen hqc j, hq2]
          show (if q2 ≤ c then some q2 else if j ≤ nn.lvl then some (c+1)
            else some (q2+1)) = some q2
          rw [if_pos hq2c]
        simp only [trueSpan, hq2, hfwd]
    · rcases Nat.lt_or_ge q (c+2) with hq1 | hqge2
      · -- the new node itself
        have hqc1 : q = c + 1 := by omega
        subst hqc1
        have hjlvl : j ≤ lvl := by
          have h2 := (posOnLevel_insertIdx hclen j (c+1)).mp
            (by rw [hns2def] at hpos2; exact hpos2)
          rw [if_neg (by omega), if_pos rfl] at h2
          exact h2
        rw [hfnew j, hnsat j hjlvl, hRU 0, hRU j, hU0]
        have hge : fwdPos ns2 j (c+1) =
            (fwdPos sl.nodes j c).map (· + 1) := by
          rw [hns2def]
          exact fwdPos_insertIdx_ge hclen (le_refl c) j
        by_cases hjle : j ≤ sl.level
        · rw [hbase_nw j (U j) (Or.inl hjle),
            hspans j (by omega) (U j) (by have := hUc j; omega) (hUpos j)]
          have hceq : fwdPos sl.nodes j c = fwdPos sl.nodes j (U j) :=
            fwdPos_ge_c_eq (hUc j) (hUstop j)
          cases hf : fwdPos sl.nodes j (U j) with
          | some q2 =>
            have hgt := hUstop j q2 hf
            have hfwd : fwdPos ns2 j (c+1) = some (q2+1) := by
              rw [hge, hceq, hf]
              rfl
            simp only [trueSpan, hf, hfwd]
            push_cast
            ring
          | none =>
            have hfwd : fwdPos ns2 j (c+1) = none := by
              rw [hge, hceq, hf]
              rfl
            simp only [trueSpan, hf, hfwd, hns2len]
            by_cases hj0 : j = 0
            · subst hj0
              rw [if_pos rfl, if_pos rfl, hU0]
              ring
            · rw [if_neg hj0, if_neg hj0]
              push_cast
              ring
        · push_neg at hjle
          have hUj0 : U j = 0 := by
            simp only [hUdef]
            rw [if_neg (by omega : ¬ j ≤ sl.level)]
          rw [hUj0, hbase_w j hjle hjlvl]
          have hcn : fwdPos sl.nodes j c = none := hfwdnone j hjle c
          have hfwd : fwdPos ns2 j (c+1) = none := by
            rw [hge, hcn]
            rfl
          simp only [trueSpan, hfwd, hns2len]
          rw [if_neg (by omega : ¬ j = 0), hlen]
          push_cast
          ring
      · -- a shifted old position past the splice point
        have hposo : posOnLevel sl.nodes j (q-1) := by
          have h2 := (posOnLevel_insertIdx hclen j q).mp
            (by rw [hns2def] at hpos2; exact hpos2)
          rwa [if_neg (by omega), if_neg (by omega)] at h2
        have hjle : j ≤ sl.level := by
          by_contra hgt
          push_neg at hgt
          rcases hposo with h0 | ⟨n, hn, hl⟩
          · omega
          · have := (hnode n (List.getElem?_mem hn)).1
            omega
        have hq1len : q - 1 ≤ sl.nodes.length := posOnLevel_le_length hposo
        rw [hfge j q (by omega),
          hs3_nw j (q-1) (Or.inl (by have := hUc j; omega)),
          hs2_nw j (q-1) (Or.inl (by have := hUc j; omega)),
          hbase_nw j (q-1) (Or.inr (Or.inr (by omega))),
          hspans j (by omega) (q-1) (by omega) hposo]
        have hge : fwdPos ns2 j q =
            (fwdPos sl.nodes j (q-1)).map (· + 1) := by
          have h2 : fwdPos (sl.nodes.insertIdx c nn) j ((q-1)+1) =
              (fwdPos sl.nodes j (q-1)).map (· + 1) :=
            fwdPos_insertIdx_ge hclen (by omega) j
          rw [hns2def]
          rw [show (q-1)+1 = q by omega] at h2
          exact h2
        cases hf : fwdPos sl.nodes j (q-1) with
        | some q2 =>
          have hfwd : fwdPos ns2 j q = some (q2+1) := by
            rw [hge, hf]
            rfl
          simp only [trueSpan, hf, hfwd]
          omega
        | none =>
          have hfwd : fwdPos ns2 j q = none := by
            rw [hge, hf]
            rfl
          simp only [trueSpan, hf, hfwd, hns2len]
          by_cases hj0 : j = 0
          · simp [hj0]
          · rw [if_neg hj0, if_neg hj0]
            omega

theorem shrinkLevel_le (ns : List SLNode) : ∀ l, shrinkLevel ns l ≤ l
  | 0 => le_refl 0
  | l+1 => by
    unfold shrinkLevel
    by_cases hf : fwdSearch (l+1) ns = none
    · rw [if_pos hf]
      exact le_trans (shrinkLevel_le ns l) (by omega)
    · rw [if_neg hf]

theorem shrinkLevel_ge (ns : List SLNode) :
    ∀ l, (∀ n ∈ ns, n.lvl ≤ l) → ∀ n ∈ ns, n.lvl ≤ shrinkLevel ns l
  | 0, h => h
  | l+1, h => by
    intro n hn
    unfold shrinkLevel
    by_cases hf : fwdSearch (l+1) ns = none
    · rw [if_pos hf]
      have hall := fwdSearch_eq_none_iff.mp hf
      exact shrinkLevel_ge ns l
        (fun m hm => by have := hall m hm; omega) n hn
    · rw [if_neg hf]
      exact h n hn

theorem spanAt_reNodes (s : SkipList) (ns : List SLNode) (L M : Nat)
    (i p : Nat) :
    ({ s with nodes := ns, level := L, length := M } : SkipList).spanAt i p =
      (if p = 0 then s.headerSpan.getD i 0 else
        match ns[p-1]? with
        | some n => n.span.getD i 0
        | none => 0) := rfl

theorem remove_WF (sl : SkipList) (sc : Score) (mem : String) (h : sl.WF) :
    (sl.remove sc mem).1.WF := by
  obtain ⟨hlen, hhdr, hlev, hnode, hsort, hspans⟩ := h
  have hWF : sl.WF := ⟨hlen, hhdr, hlev, hnode, hsort, hspans⟩
  set cond : SLNode → Bool := fun n => keyLtb n.score n.member sc mem
    with hconddef
  set C := countLt sl.nodes sc mem with hCdef
  have hClen : C ≤ sl.nodes.length := countLt_le_length _ _ _
  set U : Nat → Nat := fun i => (sl.updAt (sl.updates cond) i).1 with hUdef
  have hU0 : U 0 = C := update0_eq_countLt sl sc mem hsort
  have hUpos : ∀ i, i ≤ sl.level → posOnLevel sl.nodes i (U i) :=
    fun i hi => (updates_pos_spec sl sc mem hsort i hi).1
  have hUc : ∀ i, i ≤ sl.level → U i ≤ C :=
    fun i hi => (updates_pos_spec sl sc mem hsort i hi).2.1
  have hUstop : ∀ i, i ≤ sl.level →
      ∀ q', fwdPos sl.nodes i (U i) = some q' → C < q' :=
    fun i hi => (updates_pos_spec sl sc mem hsort i hi).2.2
  cases hn : sl.nodes[C]? with
  | none =>
    have hrem : sl.remove sc mem = (sl, false) := by
      unfold SkipList.remove
      simp only [update0_eq_countLt sl sc mem hsort]
      rw [← hCdef, hn]
    rw [hrem]
    exact hWF
  | some cur =>
    by_cases hcur : cur.score = sc ∧ cur.member = mem
    · -- the pair is present: spans are updated and the node is dropped
      have hCl : C < sl.nodes.length := (List.getElem?_eq_some.mp hn).1
      set s2 : SkipList := (List.range (sl.level+1)).foldl
        (fun s i =>
          if fwdPos sl.nodes i (U i) = some (C + 1) then
            s.setSpanAt (U i) i (s.spanAt i (U i) + cur.span.getD i 0 - 1)
          else
            s.setSpanAt (U i) i (s.spanAt i (U i) - 1)) sl with hs2def
      set nodesE : List SLNode := s2.nodes.eraseIdx C with hnEdef
      have hrem : sl.remove sc mem =
          ({ s2 with nodes := nodesE,
                     level := shrinkLevel nodesE sl.level,
                     length := sl.length - 1 }, true) := by
        unfold SkipList.remove
        simp only [update0_eq_countLt sl sc mem hsort]
        rw [← hCdef]
        split
        · next heq =>
            rw [hn] at heq
            cases heq
        · next cur2 heq =>
            rw [hn] at heq
            injection heq with heq2
            subst heq2
            rw [if_pos hcur]
      rw [hrem]
      set Inv : SkipList → Prop := fun s =>
        s.nodes.map nodeSig = sl.nodes.map nodeSig ∧
        s.nodes.map (fun n => n.span.length) =
          sl.nodes.map (fun n => n.span.length) ∧
        s.headerSpan.length = sl.headerSpan.length with hInvdef
      have hInvStep : ∀ (s : SkipList) (p k : Nat) (v : Int), Inv s →
          Inv (s.setSpanAt p k v) := by
        rintro s p k v ⟨h1, h2, h3⟩
        exact ⟨(setSpanAt_nodes_map_sig s p k v).trans h1,
          (setSpanAt_span_shape s p k v).trans h2,
          (setSpanAt_headerSpan_length s p k v).trans h3⟩
      have hInvF : ∀ (s : SkipList) (k : Nat), Inv s →
          Inv (if fwdPos sl.nodes k (U k) = some (C + 1) then
            s.setSpanAt (U k) k (s.spanAt k (U k) + cur.span.getD k 0 - 1)
          else s.setSpanAt (U k) k (s.spanAt k (U k) - 1)) := by
        intro s k hs
        by_cases hfk : fwdPos sl.nodes k (U k) = some (C + 1)
        · rw [if_pos hfk]
          exact hInvStep s (U k) k _ hs
        · rw [if_neg hfk]
          exact hInvStep s (U k) k _ hs
      have hInv2 : Inv s2 := by
        rw [hs2def]
        exact foldl_inv Inv _ _ hInvF sl ⟨rfl, rfl, rfl⟩
      have hcwU : ∀ s, Inv s → ∀ k, k ≤ sl.level → s.canWrite (U k) k := by
        intro s hs k hk
        refine (canWrite_congr hs.2.2 hs.2.1 _ k).mpr ?_
        by_cases hUk0 : U k = 0
        · rw [hUk0]
          unfold SkipList.canWrite
          rw [if_pos rfl, hhdr]
          omega
        · rcases hUpos k hk with h0 | ⟨n, hn2, hl⟩
          · exact absurd h0 hUk0
          · unfold SkipList.canWrite
            rw [if_neg hUk0]
            exact ⟨n, hn2, by rw [(hnode n (List.getElem?_mem hn2)).2]; omega⟩
      set D : Nat → Int := fun k =>
        if fwdPos sl.nodes k (U k) = some (C + 1) then cur.span.getD k 0 - 1
        else -1 with hDdef
      have hs2_w : ∀ j, j ≤ sl.level →
          s2.spanAt j (U j) = sl.spanAt j (U j) + D j := by
        intro j hj
        rw [hs2def]
        refine foldl_setSpan_incr _ U D (fun k => k ≤ sl.level) Inv
          (fun s k _ hs => hInvF s k hs) ?_ ?_ j _ sl ?_ ⟨rfl, rfl, rfl⟩
          (List.nodup_range _) ?_
        · intro s k hk hs
          by_cases hfk : fwdPos sl.nodes k (U k) = some (C + 1)
          · rw [if_pos hfk,
              spanAt_setSpanAt_same s (U k) k _ (hcwU s hs k hk)]
            simp only [hDdef]
            rw [if_pos hfk]
            ring
          · rw [if_neg hfk,
              spanAt_setSpanAt_same s (U k) k _ (hcwU s hs k hk)]
            simp only [hDdef]
            rw [if_neg hfk]
            ring
        · intro s k _ j2 q2 hjq
          by_cases hfk : fwdPos sl.nodes k (U k) = some (C + 1)
          · rw [if_pos hfk]
            exact spanAt_setSpanAt_other s _ hjq
          · rw [if_neg hfk]
            exact spanAt_setSpanAt_other s _ hjq
        · intro k hk
          rw [List.mem_range] at hk
          omega
        · rw [List.mem_range]
          omega
      have hs2_nw : ∀ j q, q ≠ U j → s2.spanAt j q = sl.spanAt j q := by
        intro j q hne
        rw [hs2def]
        refine foldl_setSpan_untouched _ U (fun k => True) ?_ j q _ sl
          (fun _ _ => trivial) ?_
        · intro s k _ j2 q2 hjq
          by_cases hfk : fwdPos sl.nodes k (U k) = some (C + 1)
          · rw [if_pos hfk]
            exact spanAt_setSpanAt_other s _ hjq
          · rw [if_neg hfk]
            exact spanAt_setSpanAt_other s _ hjq
        · intro k hk
          by_cases hkj : j = k
          · right
            rw [← hkj]
            exact hne
          · left
            exact hkj
      have hs2len : s2.nodes.length = sl.nodes.length := by
        have := congrArg List.length hInv2.1
        simpa using this
      set nsE : List SLNode := sl.nodes.eraseIdx C with hnsEdef
      have hmapeq : nodesE.map nodeSig = nsE.map nodeSig := by
        rw [hnEdef, hnsEdef, map_eraseIdx, map_eraseIdx, hInv2.1]
      have hnsElen : nsE.length = sl.nodes.length - 1 := by
        rw [hnsEdef, List.length_eraseIdx]
        simp [hCl]
      have hnElen : nodesE.length = sl.nodes.length - 1 := by
        have := congrArg List.length hmapeq
        simpa [hnsElen] using this
      have hcs : ∀ j, j ≤ cur.lvl →
          cur.span.getD j 0 = trueSpan sl.nodes j (C+1) := by
        intro j hj
        have hposC : posOnLevel sl.nodes j (C+1) :=
          Or.inr ⟨cur, by simpa using hn, hj⟩
        have hjlev : j ≤ sl.level :=
          le_trans hj (hnode cur (List.getElem?_mem hn)).1
        have hts := hspans j (by omega) (C+1) (by omega) hposC
        rw [← hts, spanAt_pos _ _ _ (by omega)]
        simp only [Nat.add_sub_cancel]
        rw [hn]
      refine ⟨?_, ?_, ?_, ?_, ?_, ?_⟩
      · show sl.length - 1 = nodesE.length
        rw [hnElen, hlen]
      · show s2.headerSpan.length = maxLevel + 1
        rw [hInv2.2.2, hhdr]
      · show shrinkLevel nodesE sl.level ≤ maxLevel
        exact le_trans (shrinkLevel_le _ _) hlev
      · show ∀ n ∈ nodesE, n.lvl ≤ shrinkLevel nodesE sl.level ∧
          n.span.length = n.lvl + 1
        have hE : ∀ n ∈ nodesE, n.lvl ≤ sl.level ∧
            n.span.length = n.lvl + 1 := by
          intro n hnn
          refine nodes_props_transfer hInv2.1 hInv2.2.1 hnode n ?_
          exact (by rw [hnEdef] at hnn
                    exact (List.eraseIdx_sublist _ _).subset hnn)
        intro n hnn
        exact ⟨shrinkLevel_ge nodesE sl.level (fun m hm => (hE m hm).1) n hnn,
          (hE n hnn).2⟩
      · show nodesE.Pairwise keyLe
        have hrs := remove_sorted sl sc mem hsort
        rw [hrem] at hrs
        simpa using hrs
      · show ∀ i, i < shrinkLevel nodesE sl.level + 1 →
          ∀ p, p < nodesE.length + 1 → posOnLevel nodesE i p →
          (if p = 0 then s2.headerSpan.getD i 0 else
            match nodesE[p-1]? with
            | some n => n.span.getD i 0
            | none => 0) = trueSpan nodesE i p
        intro j hj q hq hpos
        have hjle : j ≤ sl.level := by
          have h2 := shrinkLevel_le nodesE sl.level
          omega
        have hpos2 : posOnLevel nsE j q := (posOnLevel_congr hmapeq j q).mp hpos
        have hqlen : q ≤ nsE.length := posOnLevel_le_length hpos2
        rw [trueSpan_congr hmapeq j q]
        rcases Nat.lt_or_ge q (C+1) with hq1 | hqge
        · have hqC : q ≤ C := by omega
          have hsp2 : (if q = 0 then s2.headerSpan.getD j 0 else
              match nodesE[q-1]? with
              | some n => n.span.getD j 0
              | none => 0) = s2.spanAt j q := by
            by_cases h0 : q = 0
            · rw [if_pos h0, h0, spanAt_zero]
            · rw [if_neg h0, spanAt_pos _ _ _ h0, hnEdef,
                List.getElem?_eraseIdx_of_lt s2.nodes C (q-1) (by omega)]
          rw [hsp2]
          have hposl : posOnLevel sl.nodes j q := by
            have h2 := (posOnLevel_eraseIdx j q).mp
              (by rw [hnsEdef] at hpos2; exact hpos2)
            rwa [if_pos hqC] at h2
          by_cases hqU : q = U j
          · have hUCj := hUc j hjle
            rw [hqU, hs2_w j hjle,
              hspans j (by omega) (U j) (by omega) (hUpos j hjle)]
            by_cases hfj : fwdPos sl.nodes j (U j) = some (C+1)
            · have hDj : D j = cur.span.getD j 0 - 1 := by
                simp only [hDdef]
                rw [if_pos hfj]
              have hclvl : j ≤ cur.lvl := by
                obtain ⟨_, _, ⟨n2, hn2, hn2l⟩, _⟩ := fwdPos_spec hfj
                rw [show C + 1 - 1 = C by omega, hn] at hn2
                injection hn2 with he
                rw [he]
                exact hn2l
              rw [hDj, hcs j hclvl]
              have htu : trueSpan sl.nodes j (U j) =
                  ((C:Int) + 1) - (U j : Int) := by
                simp only [trueSpan, hfj]
                push_cast
                ring
              rw [htu]
              have hEq : fwdPos nsE j (U j) =
                  (fwdPos sl.nodes j (C+1)).map (· - 1) := by
                rw [hnsEdef, fwdPos_eraseIdx_le hCl (hUc j hjle) j, hfj]
                show (if C+1 ≤ C then some (C+1)
                  else if C+1 = C+1 then (fwdPos sl.nodes j (C+1)).map (· - 1)
                  else some (C+1-1)) = _
                rw [if_neg (by omega), if_pos rfl]
              cases hf2 : fwdPos sl.nodes j (C + 1) with
              | some q2 =>
                obtain ⟨hgt2, hlen2, _, _⟩ := fwdPos_spec hf2
                have hE2 : fwdPos nsE j (U j) = some (q2 - 1) := by
                  rw [hEq, hf2]
                  rfl
                simp only [trueSpan, hf2, hE2]
                omega
              | none =>
                have hE2 : fwdPos nsE j (U j) = none := by
                  rw [hEq, hf2]
                  rfl
                simp only [trueSpan, hf2, hE2, hnsElen]
                by_cases hj0 : j = 0
                · subst hj0
                  rw [if_pos rfl, if_pos rfl, hU0]
                  ring
                · rw [if_neg hj0, if_neg hj0]
                  push_cast
                  omega
            · have hDj : D j = -1 := by
                simp only [hDdef]
                rw [if_neg hfj]
              rw [hDj]
              cases hf : fwdPos sl.nodes j (U j) with
              | some q2 =>
                have hgt := hUstop j hjle q2 hf
                have hq2ne : q2 ≠ C + 1 := fun he => hfj (he ▸ hf)
                have hE2 : fwdPos nsE j (U j) = some (q2 - 1) := by
                  rw [hnsEdef, fwdPos_eraseIdx_le hCl (hUc j hjle) j, hf]
                  show (if q2 ≤ C then some q2
                    else if q2 = C+1 then (fwdPos sl.nodes j (C+1)).map (· - 1)
                    else some (q2-1)) = some (q2-1)
                  rw [if_neg (by omega), if_neg hq2ne]
                simp only [trueSpan, hf, hE2]
                omega
              | none =>
                have hj0f : j ≠ 0 := by
                  intro he
                  rw [he, hU0, fwdPos_zero_of_lt hCl] at hf
                  cases hf
                have hE2 : fwdPos nsE j (U j) = none := by
                  rw [hnsEdef, fwdPos_eraseIdx_le hCl (hUc j hjle) j, hf]
                simp only [trueSpan, hf, hE2, hnsElen]
                rw [if_neg hj0f, if_neg hj0f]
                omega
          · rw [hs2_nw j q hqU,
              hspans j (by omega) q
                (by have := posOnLevel_le_length hposl; omega) hposl]
            obtain ⟨q2, hq2, hq2c⟩ := fwdPos_within hposl hqC hqU
              (hUpos j hjle) (hUc j hjle) (hUstop j hjle)
            have hE2 : fwdPos nsE j q = some q2 := by
              rw [hnsEdef, fwdPos_eraseIdx_le hCl hqC j, hq2]
              show (if q2 ≤ C then some q2
                else if q2 = C+1 then (fwdPos sl.nodes j (C+1)).map (· - 1)
                else some (q2-1)) = some q2
              rw [if_pos hq2c]
            simp only [trueSpan, hq2, hE2]
        · have hposo : posOnLevel sl.nodes j (q+1) := by
            have h2 := (posOnLevel_eraseIdx j q).mp
              (by rw [hnsEdef] at hpos2; exact hpos2)
            rwa [if_neg (by omega)] at h2
          have hsp2 : (if q = 0 then s2.headerSpan.getD j 0 else
              match nodesE[q-1]? with
              | some n => n.span.getD j 0
              | none => 0) = s2.spanAt j (q+1) := by
            rw [if_neg (by omega), hnEdef,
              List.getElem?_eraseIdx_of_ge s2.nodes C (q-1) (by omega),
              spanAt_pos _ _ _ (by omega : q+1 ≠ 0)]
            rw [show q - 1 + 1 = q + 1 - 1 by omega]
          rw [hsp2, hs2_nw j (q+1) (by have := hUc j hjle; omega),
            hspans j (by omega) (q+1)
              (by have := posOnLevel_le_length hposo; omega) hposo]
          have hER : fwdPos nsE j q =
              (fwdPos sl.nodes j (q+1)).map (· - 1) := by
            rw [hnsEdef]
            exact fwdPos_eraseIdx_ge hCl (by omega) j
          cases hf : fwdPos sl.nodes j (q+1) with
          | some q2 =>
            obtain ⟨hgt2, _, _, _⟩ := fwdPos_spec hf
            have hE2 : fwdPos nsE j q = some (q2-1) := by
              rw [hER, hf]
              rfl
            simp only [trueSpan, hf, hE2]
            omega
          | none =>
            have hE2 : fwdPos nsE j q = none := by
              rw [hER, hf]
              rfl
            simp only [trueSpan, hf, hE2, hnsElen]
            by_cases hj0 : j = 0
            · simp [hj0]
            · rw [if_neg hj0, if_neg hj0]
              omega
    · have hrem : sl.remove sc mem = (sl, false) := by
        unfold SkipList.remove
        simp only [update0_eq_countLt sl sc mem hsort]
        rw [← hCdef]
        split
        · next heq => rfl
        · next cur2 heq =>
            rw [hn] at heq
            injection heq with heq2
            subst heq2
            rw [if_neg hcur]
      rw [hrem]
      exact hWF

/-! ## Reachable skip lists and the span-consistency claims -/

theorem wf_empty : SkipList.empty.WF := by decide

/-- Skip lists reachable by the API from the empty list, with the drawn
level in `random_level`'s range `0 .. max_level`. -/
inductive Reach : SkipList → Prop
  | empty : Reach SkipList.empty
  | ins (sl : SkipList) (sc : Score) (mem : String) (lvl : Nat)
      (hlvl : lvl ≤ maxLevel) (h : Reach sl) : Reach (sl.insert sc mem lvl)
  | rem (sl : SkipList) (sc : Score) (mem : String) (h : Reach sl) :
      Reach ((sl.remove sc mem).1)

theorem reach_WF {sl : SkipList} (h : Reach sl) : sl.WF := by
  induction h with
  | empty => exact wf_empty
  | ins sl sc mem lvl hlvl h ih => exact insert_WF sl sc mem lvl hlvl ih
  | rem sl sc mem h ih => exact remove_WF sl sc mem ih

/-- All positions on level `i` (the header and every node of level ≥ `i`)
in ascending order. -/
def levelPositions (ns : List SLNode) (i : Nat) : List Nat :=
  (List.range (ns.length + 1)).filter (fun p => decide (posOnLevel ns i p))

/-- The total of the level-`i` spans over the whole level, header
included. -/
def SkipList.levelTotal (sl : SkipList) (i : Nat) : Int :=
  ((levelPositions sl.nodes i).map (fun p => sl.spanAt i p)).sum

/-- The sum of the level-`i` spans from the header up to (excluding)
position `q` along the level-`i` chain. -/
def SkipList.prefixSpan (sl : SkipList) (i q : Nat) : Int :=
  (((levelPositions sl.nodes i).filter (fun p => decide (p < q))).map
    (fun p => sl.spanAt i p)).sum

theorem mem_levelPositions {ns : List SLNode} {i p : Nat} :
    p ∈ levelPositions ns i ↔ p ≤ ns.length ∧ posOnLevel ns i p := by
  unfold levelPositions
  rw [List.mem_filter, List.mem_range]
  simp only [decide_eq_true_eq]
  constructor
  · rintro ⟨h1, h2⟩
    exact ⟨by omega, h2⟩
  · rintro ⟨h1, h2⟩
    exact ⟨by omega, h2⟩

theorem levelPositions_sorted (ns : List SLNode) (i : Nat) :
    (levelPositions ns i).Pairwise (· < ·) :=
  (List.pairwise_lt_range _).sublist (List.filter_sublist _)

theorem filter_lt_split {l : List Nat} (hl : l.Pairwise (· < ·)) {u q : Nat}
    (hu : u ∈ l) (huq : u < q)
    (hmax : ∀ m ∈ l, m < q → m ≤ u) :
    l.filter (fun p => decide (p < q)) =
      l.filter (fun p => decide (p < u)) ++ [u] := by
  induction l with
  | nil => cases hu
  | cons a l ih =>
    rw [List.pairwise_cons] at hl
    rcases List.mem_cons.mp hu with rfl | hu2
    · rw [List.filter_cons_of_pos (by simpa using huq),
        List.filter_cons_of_neg (by simp)]
      have ht1 : l.filter (fun p => decide (p < q)) = [] := by
        apply List.filter_eq_nil.mpr
        intro m hm
        have hgt := hl.1 m hm
        have hle := hmax m (List.mem_cons_of_mem _ hm)
        simp only [decide_eq_true_eq]
        omega
      have ht2 : l.filter (fun p => decide (p < u)) = [] := by
        apply List.filter_eq_nil.mpr
        intro m hm
        have hgt := hl.1 m hm
        simp only [decide_eq_true_eq]
        omega
      rw [ht1, ht2]
      rfl
    · have hau : a < u := hl.1 u hu2
      rw [List.filter_cons_of_pos (by simp; omega),
        List.filter_cons_of_pos (by simp; omega)]
      rw [ih hl.2 hu2 (fun m hm hmq => hmax m (List.mem_cons_of_mem _ hm) hmq)]
      rfl

/-- Under the invariant the level-`i` prefix sums telescope: the sum of
the spans from the header to any level-`i` position is that position. -/
theorem prefixSpan_eq (sl : SkipList) (hWF : sl.WF) (i : Nat)
    (hi : i ≤ sl.level) :
    ∀ q, posOnLevel sl.nodes i q → sl.prefixSpan i q = (q : Int) := by
  intro q
  induction q using Nat.strong_induction_on with
  | _ q ih =>
    intro hpos
    by_cases hq0 : q = 0
    · subst hq0
      unfold SkipList.prefixSpan
      have hnil : (levelPositions sl.nodes i).filter
          (fun p => decide (p < 0)) = [] := by
        apply List.filter_eq_nil.mpr
        intro m hm
        simp
      rw [hnil]
      rfl
    · have hqlen : q ≤ sl.nodes.length := posOnLevel_le_length hpos
      set P : Nat → Prop := fun p => posOnLevel sl.nodes i p ∧ p < q with hPdef
      have hP0 : P 0 := ⟨posOnLevel_zero _ _, by omega⟩
      set u := Nat.findGreatest P q with hudef
      have hPu : P u := Nat.findGreatest_spec (Nat.zero_le q) hP0
      have humax : ∀ m, u < m → m ≤ q → ¬ P m := by
        intro m h1 h2
        exact Nat.findGreatest_is_greatest h1 h2
      obtain ⟨hupos, huq⟩ := hPu
      have hfwd : fwdPos sl.nodes i u = some q := by
        refine fwdPos_eq_some_iff.mpr ⟨huq, hqlen, ?_, ?_⟩
        · rcases hpos with h0 | hex
          · omega
          · exact hex
        · intro r hr1 hr2 m hm
          by_contra hge
          push_neg at hge
          exact humax r hr1 (by omega) ⟨Or.inr ⟨m, hm, hge⟩, by omega⟩
      have hspan : sl.spanAt i u = (q : Int) - (u : Int) :=
        wf_trueSpans hWF i hi u hupos q hfwd
      have hsplit : (levelPositions sl.nodes i).filter
          (fun p => decide (p < q)) =
          (levelPositions sl.nodes i).filter (fun p => decide (p < u))
            ++ [u] := by
        refine filter_lt_split (levelPositions_sorted _ _) ?_ huq ?_
        · exact mem_levelPositions.mpr ⟨by omega, hupos⟩
        · intro m hm hmq
          by_contra hgt
          push_neg at hgt
          have hmlp := mem_levelPositions.mp hm
          exact humax m hgt (by omega) ⟨hmlp.2, hmq⟩
      have hpre := ih u (by omega) hupos
      unfold SkipList.prefixSpan at hpre ⊢
      rw [hsplit, List.map_append, List.sum_append, hpre]
      simp [hspan]

/-- Under the invariant the level-`i` spans total the length (level 0) or
the length plus one (levels above 0). -/
theorem levelTotal_eq (sl : SkipList) (hWF : sl.WF) (i : Nat)
    (hi : i ≤ sl.level) :
    sl.levelTotal i = if i = 0 then (sl.nodes.length : Int)
      else (sl.nodes.length : Int) + 1 := by
  set P : Nat → Prop := fun p => posOnLevel sl.nodes i p with hPdef
  have hP0 : P 0 := posOnLevel_zero _ _
  set t := Nat.findGreatest P sl.nodes.length with htdef
  have hPt : P t := Nat.findGreatest_spec (Nat.zero_le _) hP0
  have htlen : t ≤ sl.nodes.length := Nat.findGreatest_le _
  have htmax : ∀ m, t < m → m ≤ sl.nodes.length → ¬ P m := by
    intro m h1 h2
    exact Nat.findGreatest_is_greatest h1 h2
  have hfwd : fwdPos sl.nodes i t = none := by
    cases hf : fwdPos sl.nodes i t with
    | none => rfl
    | some q2 =>
      obtain ⟨h1, h2, hex, _⟩ := fwdPos_spec hf
      exact absurd (Or.inr hex : P q2) (htmax q2 h1 h2)
  have hwhole : levelPositions sl.nodes i =
      (levelPositions sl.nodes i).filter (fun p => decide (p < t)) ++ [t] := by
    have hself : levelPositions sl.nodes i =
        (levelPositions sl.nodes i).filter
          (fun p => decide (p < sl.nodes.length + 1)) := by
      symm
      apply List.filter_eq_self.mpr
      intro m hm
      have := (mem_levelPositions.mp hm).1
      simp only [decide_eq_true_eq]
      omega
    conv_lhs => rw [hself]
    refine filter_lt_split (levelPositions_sorted _ _) ?_
      (show t < sl.nodes.length + 1 by omega) ?_
    · exact mem_levelPositions.mpr ⟨htlen, hPt⟩
    · intro m hm hmq
      by_contra hgt
      push_neg at hgt
      have hmlp := mem_levelPositions.mp hm
      exact htmax m hgt hmlp.1 hmlp.2
  have hpre : sl.prefixSpan i t = (t : Int) := prefixSpan_eq sl hWF i hi t hPt
  have htspan : sl.spanAt i t = trueSpan sl.nodes i t :=
    hWF.2.2.2.2.2 i (show i < sl.level + 1 by omega) t
      (show t < sl.nodes.length + 1 by omega) hPt
  have hts2 : sl.spanAt i t = if i = 0 then 0
      else ((sl.nodes.length : Int) + 1) - (t : Int) := by
    rw [htspan]
    simp only [trueSpan, hfwd]
  unfold SkipList.levelTotal
  rw [hwhole, List.map_append, List.sum_append]
  have hpre2 : (List.map (fun p => sl.spanAt i p)
      (List.filter (fun p => decide (p < t))
        (levelPositions sl.nodes i))).sum = (t : Int) := hpre
  rw [hpre2]
  simp only [List.map_cons, List.map_nil, List.sum_cons, List.sum_nil]
  rw [hts2]
  by_cases hi0 : i = 0
  · subst hi0
    rw [if_pos rfl, if_pos rfl]
    have ht_len : t = sl.nodes.length := by
      by_contra hne
      exact htmax sl.nodes.length (by omega) (le_refl _)
        (posOnLevel_zero_level (le_refl _))
    rw [ht_len]
    ring
  · rw [if_neg hi0, if_neg hi0]
    ring

/-- C4 is wrong on the code at level 0: after one insert into the empty
list the level-0 spans sum to the length (the tail node keeps span 0),
not the length plus one. -/
theorem C4_counterexample :
    (SkipList.empty.insert 1 "a" 0).levelTotal 0 ≠
      ((SkipList.empty.insert 1 "a" 0).length : Int) + 1 ∧
    (SkipList.empty.insert 1 "a" 0).levelTotal 0 =
      ((SkipList.empty.insert 1 "a" 0).length : Int) := by decide

/-- C4 amended: after any sequence of inserts and removes, for every
non-header node `N` (node index `j`, position `j+1`) and every level
`i ≤ N.level`, the spans along level `i` from the header to `N` sum to
the same value as along level 0; the level-0 spans from header to tail
sum to the length, and on every higher live level they sum to the length
plus one. -/
theorem C4_amended_span_consistency (sl : SkipList) (h : Reach sl) :
    (∀ j n, sl.nodes[j]? = some n → ∀ i, i ≤ n.lvl →
      sl.prefixSpan i (j+1) = sl.prefixSpan 0 (j+1)) ∧
    sl.levelTotal 0 = (sl.length : Int) ∧
    (∀ i, 1 ≤ i → i ≤ sl.level →
      sl.levelTotal i = (sl.length : Int) + 1) := by
  have hWF := reach_WF h
  obtain ⟨hlen, hhdr, hlev, hnode, hsort, hspans⟩ := hWF
  have hWF2 : sl.WF := ⟨hlen, hhdr, hlev, hnode, hsort, hspans⟩
  refine ⟨?_, ?_, ?_⟩
  · intro j n hn i hi
    have hpos : posOnLevel sl.nodes i (j+1) :=
      Or.inr ⟨n, by simpa using hn, hi⟩
    have hjlen : j < sl.nodes.length := (List.getElem?_eq_some.mp hn).1
    have hilev : i ≤ sl.level :=
      le_trans hi (hnode n (List.getElem?_mem hn)).1
    rw [prefixSpan_eq sl hWF2 i hilev (j+1) hpos,
      prefixSpan_eq sl hWF2 0 (Nat.zero_le _) (j+1)
        (posOnLevel_zero_level (by omega))]
  · rw [levelTotal_eq sl hWF2 0 (Nat.zero_le _), if_pos rfl, hlen]
  · intro i h1 h2
    rw [levelTotal_eq sl hWF2 i h2, if_neg (by omega), hlen]

theorem C4_witness :
    ((SkipList.empty.insert 1 "a" 1).insert 2 "b" 0).prefixSpan 1 1 =
      ((SkipList.empty.insert 1 "a" 1).insert 2 "b" 0).prefixSpan 0 1 ∧
    ((SkipList.empty.insert 1 "a" 1).insert 2 "b" 0).levelTotal 0 =
      (((SkipList.empty.insert 1 "a" 1).insert 2 "b" 0).length : Int) ∧
    ((SkipList.empty.insert 1 "a" 1).insert 2 "b" 0).levelTotal 1 =
      (((SkipList.empty.insert 1 "a" 1).insert 2 "b" 0).length : Int) + 1 := by
  have h := C4_amended_span_consistency _
    (Reach.ins _ 2 "b" 0 (by decide)
      (Reach.ins _ 1 "a" 1 (by decide) Reach.empty))
  exact ⟨h.1 0 ⟨1, "a", 1, [1, 2]⟩ (by decide) 1 (by decide),
    h.2.1, h.2.2 1 (by omega) (by decide)⟩

/-! ## C5: `get_rank` returns the level-0 position of a present pair -/

theorem keyLeb_refl (sc : Score) (mem : String) :
    keyLeb sc mem sc mem = true := by
  rw [keyLeb_eq_not_keyLtb, keyLtb_irrefl]
  rfl

theorem keyLe_leb_trans {a b : SLNode} {sc : Score} {mem : String}
    (h1 : keyLe a b) (h2 : keyLeb b.score b.member sc mem = true) :
    keyLeb a.score a.member sc mem = true := by
  rcases h1 with hlt | ⟨hs, hm⟩
  · rw [keyLeb_eq_not_keyLtb] at h2 ⊢
    cases hx : keyLtb sc mem a.score a.member
    · rfl
    · exfalso
      have h3 := keyLtb_trans hx hlt
      rw [h3] at h2
      cases h2
  · rw [hs, hm]
    exact h2

/-- The number of nodes with key at most `(sc, mem)` (the boundary of the
`get_rank` walk). -/
def countLe (ns : List SLNode) (sc : Score) (mem : String) : Nat :=
  (ns.takeWhile (fun n => keyLeb n.score n.member sc mem)).length

theorem countLe_le_length (ns : List SLNode) (sc : Score) (mem : String) :
    countLe ns sc mem ≤ ns.length := by
  induction ns with
  | nil => simp [countLe]
  | cons n rest ih =>
    by_cases h : keyLeb n.score n.member sc mem = true
    · simpa [countLe, List.takeWhile_cons, h] using ih
    · simp [countLe, List.takeWhile_cons, h]

theorem cond_iff_lt_countLe {ns : List SLNode} (hsort : ns.Pairwise keyLe)
    {sc : Score} {mem : String} {j : Nat} {n : SLNode}
    (h : ns[j]? = some n) :
    (keyLeb n.score n.member sc mem = true) ↔ j < countLe ns sc mem := by
  induction ns generalizing j with
  | nil => simp at h
  | cons n0 rest ih =>
    rw [List.pairwise_cons] at hsort
    obtain ⟨h0, hrest⟩ := hsort
    by_cases hc : keyLeb n0.score n0.member sc mem = true
    · have hcc : countLe (n0 :: rest) sc mem = countLe rest sc mem + 1 := by
        simp [countLe, List.takeWhile_cons, hc]
      cases j with
      | zero =>
        simp at h
        subst h
        simp [hcc, hc]
      | succ j2 =>
        simp only [List.getElem?_cons_succ] at h
        rw [hcc, ih hrest h]
        omega
    · have hc0 : countLe (n0 :: rest) sc mem = 0 := by
        simp [countLe, List.takeWhile_cons, hc]
      rw [hc0]
      simp only [Nat.not_lt_zero, iff_false]
      cases j with
      | zero =>
        simp at h
        subst h
        exact hc
      | succ j2 =>
        simp only [List.getElem?_cons_succ] at h
        intro hcc
        exact hc (keyLe_leb_trans (h0 n (List.getElem?_mem h)) hcc)

theorem updates_pos_boundary (sl : SkipList) (cond : SLNode → Bool) {c : Nat}
    (hc : ∀ j n, sl.nodes[j]? = some n → (cond n = true ↔ j < c))
    (hclen : c ≤ sl.nodes.length) (i : Nat) (hi : i ≤ sl.level) :
    posOnLevel sl.nodes i (sl.updAt (sl.updates cond) i).1 ∧
      (sl.updAt (sl.updates cond) i).1 ≤ c ∧
      ∀ q', fwdPos sl.nodes i (sl.updAt (sl.updates cond) i).1 = some q' →
        c < q' :=
  walkDown_pos_spec sl cond hc hclen sl.level 0 0 (posOnLevel_zero _ _)
    (Nat.zero_le _) i hi

theorem update0_eq_boundary (sl : SkipList) (cond : SLNode → Bool) {c : Nat}
    (hc : ∀ j n, sl.nodes[j]? = some n → (cond n = true ↔ j < c))
    (hclen : c ≤ sl.nodes.length) :
    (sl.updAt (sl.updates cond) 0).1 = c := by
  obtain ⟨hpos, hle, hstop⟩ := updates_pos_boundary sl cond hc hclen 0
    (Nat.zero_le _)
  set u := (sl.updAt (sl.updates cond) 0).1
  by_cases hu : u < sl.nodes.length
  · have := hstop (u + 1) (fwdPos_zero_of_lt hu)
    omega
  · omega

/-- C5: on a reachable, duplicate-free skip list, `get_rank` returns the
0-indexed level-0 position of every present pair, and "not found" for
every absent one. -/
theorem C5_get_rank (sl : SkipList) (h : Reach sl) (hnd : sl.pairs.Nodup)
    (sc : Score) (mem : String) :
    (∀ j, sl.pairs[j]? = some (sc, mem) →
      sl.get_rank sc mem = some ((j : Nat) : Int)) ∧
    ((sc, mem) ∉ sl.pairs → sl.get_rank sc mem = none) := by
  have hWF := reach_WF h
  have hsort : sl.nodes.Pairwise keyLe := hWF.2.2.2.2.1
  set condL : SLNode → Bool := fun n => keyLeb n.score n.member sc mem
    with hcondL
  set cLe := countLe sl.nodes sc mem with hcLedef
  have hcLen : cLe ≤ sl.nodes.length := countLe_le_length _ _ _
  have hc : ∀ j n, sl.nodes[j]? = some n → (condL n = true ↔ j < cLe) :=
    fun j n hjn => cond_iff_lt_countLe hsort hjn
  have hu0 : (sl.updAt (sl.updates condL) 0).1 = cLe :=
    update0_eq_boundary sl condL hc hcLen
  have hrank : (sl.updAt (sl.updates condL) 0).2 = ((cLe : Nat) : Int) := by
    rw [updates_rank_spec sl condL hWF 0 (Nat.zero_le _), hu0]
  have hgr : sl.get_rank sc mem =
      (match sl.nodeAtPos cLe with
       | some n => if n.score = sc ∧ n.member = mem
           then some ((cLe : Int) - 1) else none
       | none => none) := by
    show (match sl.nodeAtPos (sl.updAt (sl.updates condL) 0).1 with
      | some n => if n.score = sc ∧ n.member = mem
          then some ((sl.updAt (sl.updates condL) 0).2 - 1) else none
      | none => none) = _
    rw [hu0, hrank]
  constructor
  · intro j hj
    rw [SkipList.pairs, List.getElem?_map] at hj
    cases hn : sl.nodes[j]? with
    | none =>
      rw [hn] at hj
      cases hj
    | some n =>
      rw [hn] at hj
      have hpair : (n.score, n.member) = (sc, mem) := by simpa using hj
      have hns : n.score = sc := congrArg Prod.fst hpair
      have hnm : n.member = mem := congrArg Prod.snd hpair
      obtain ⟨hjlen, hgj⟩ := List.getElem?_eq_some.mp hn
      have hjlt : j < cLe := (hc j n hn).mp (by
        show keyLeb n.score n.member sc mem = true
        rw [hns, hnm]
        exact keyLeb_refl sc mem)
      have hle2 : cLe ≤ j + 1 := by
        by_contra hgt
        push_neg at hgt
        have hj1len : j + 1 < sl.nodes.length := by omega
        obtain ⟨m, hm⟩ : ∃ m, sl.nodes[j+1]? = some m :=
          ⟨sl.nodes[j+1], List.getElem?_eq_getElem hj1len⟩
        have hcondm : keyLeb m.score m.member sc mem = true :=
          (hc _ m hm).mpr (by omega)
        obtain ⟨hjl3, hgm⟩ := List.getElem?_eq_some.mp hm
        have hpw := List.pairwise_iff_getElem.mp hsort j (j+1) hjlen hjl3
          (by omega)
        rw [hgj, hgm] at hpw
        rcases hpw with hlt | ⟨hs2, hm2⟩
        · rw [hns, hnm] at hlt
          rw [keyLeb_eq_not_keyLtb, hlt] at hcondm
          simp at hcondm
        · have hp1 : sl.pairs[j]? = some (sc, mem) := by
            rw [SkipList.pairs, List.getElem?_map, hn]
            simpa using hpair
          have hp2 : sl.pairs[j+1]? = some (sc, mem) := by
            rw [SkipList.pairs, List.getElem?_map, hm]
            simp only [Option.map_some']
            rw [← hs2, ← hm2, hns, hnm]
          obtain ⟨hl1, hg1⟩ := List.getElem?_eq_some.mp hp1
          obtain ⟨hl2, hg2⟩ := List.getElem?_eq_some.mp hp2
          have hneq := List.pairwise_iff_getElem.mp hnd j (j+1) hl1 hl2
            (by omega)
          exact hneq (by rw [hg1, hg2])
      have hceq : cLe = j + 1 := by omega
      rw [hgr, hceq]
      have hnAt : sl.nodeAtPos (j+1) = some n := by
        rw [SkipList.nodeAtPos, if_neg (by omega)]
        simpa using hn
      simp only [hnAt]
      rw [if_pos ⟨hns, hnm⟩]
      have hcast : (((j+1 : Nat)) : Int) - 1 = ((j : Nat) : Int) := by
        push_cast
        ring
      rw [hcast]
  · intro hab
    rw [hgr]
    by_cases hc0 : cLe = 0
    · have hat : sl.nodeAtPos cLe = none := by
        rw [hc0, SkipList.nodeAtPos, if_pos rfl]
      simp only [hat]
    · have hlt : cLe - 1 < sl.nodes.length := by omega
      obtain ⟨m, hm⟩ : ∃ m, sl.nodes[cLe - 1]? = some m :=
        ⟨sl.nodes[cLe - 1], List.getElem?_eq_getElem hlt⟩
      have hmAt : sl.nodeAtPos cLe = some m := by
        rw [SkipList.nodeAtPos, if_neg hc0, hm]
      simp only [hmAt]
      have hne : ¬ (m.score = sc ∧ m.member = mem) := by
        rintro ⟨hs2, hm2⟩
        apply hab
        rw [SkipList.pairs]
        exact List.mem_map.mpr ⟨m, List.getElem?_mem hm, by rw [hs2, hm2]⟩
      rw [if_neg hne]

theorem C5_witness :
    ((SkipList.empty.insert 1 "a" 0).insert 2 "b" 0).get_rank 2 "b" =
      some 1 ∧
    ((SkipList.empty.insert 1 "a" 0).insert 2 "b" 0).get_rank 1 "b" =
      none := by
  have h1 := C5_get_rank _
    (Reach.ins _ 2 "b" 0 (by decide)
      (Reach.ins _ 1 "a" 0 (by decide) Reach.empty)) (by decide) 2 "b"
  have h2 := C5_get_rank _
    (Reach.ins _ 2 "b" 0 (by decide)
      (Reach.ins _ 1 "a" 0 (by decide) Reach.empty)) (by decide) 1 "b"
  exact ⟨h1.1 1 (by decide), h2.2 (by decide)⟩

end IMDS
